import Mathlib

/-
Verification development for the L0 sublevels engine
(internal/manifest/l0_sublevels.go).

The Go source is shallowly embedded: user keys are an arbitrary linearly
ordered type (the injected comparator `cmp` becomes the order's three-way
comparison), Go slices become lists, `sort.Search` becomes a first-index
search, and the mutating loops become folds / recursions that thread the
state explicitly.  Files are kept in an arena (`levelMetadata`, indexed by
`l0Index`, exactly as the source assigns it); sublevels and intervals store
arena indices, which models the pointer sharing of `*FileMetadata` in Go.
Fallible Go functions return `Except String`; a Go `panic` is modelled as an
`Except.error` whose message starts with "runtime".
-/

namespace L0

/-- A user key together with the `isLargest` marker, embedding the Go
`intervalKey` struct.  `isLargest = true` stands for the immediate successor
of the key. -/
structure IntervalKey (α : Type) where
  key : α
  isLargest : Bool
deriving DecidableEq, Repr

instance {α : Type} [Inhabited α] : Inhabited (IntervalKey α) := ⟨⟨default, false⟩⟩

/-- Three-way comparison of user keys: the embedding of the injected Go
comparator `cmp` for a linearly ordered key type. -/
def cmpKey {α : Type} [LinearOrder α] (a b : α) : Int :=
  if a < b then -1 else if b < a then 1 else 0

/-- Embedding of `intervalKeyCompare` from the source. -/
def intervalKeyCompare {α : Type} [LinearOrder α] (a b : IntervalKey α) : Int :=
  let rv := cmpKey a.key b.key
  if rv = 0 then
    if a.isLargest && !b.isLargest then 1
    else if !a.isLargest && b.isLargest then -1
    else rv
  else rv

section KeyLemmas

variable {α : Type} [LinearOrder α]

theorem cmpKey_eq_zero_iff {a b : α} : cmpKey a b = 0 ↔ a = b := by
  unfold cmpKey
  split
  · constructor
    · intro h; omega
    · intro h; subst h; simp_all
  · split
    · constructor
      · intro h; omega
      · intro h; subst h; simp_all
    · constructor
      · intro _; exact le_antisymm (not_lt.mp (by assumption)) (not_lt.mp (by assumption))
      · intro _; rfl

theorem cmpKey_neg_iff {a b : α} : cmpKey a b < 0 ↔ a < b := by
  unfold cmpKey
  split
  · simpa using by assumption
  · split
    · constructor
      · intro h; omega
      · intro h; exact absurd h (by assumption)
    · constructor
      · intro h; omega
      · intro h; exact absurd h (by assumption)

theorem cmpKey_pos_iff {a b : α} : 0 < cmpKey a b ↔ b < a := by
  unfold cmpKey
  split
  · constructor
    · intro h; omega
    · intro h; exact absurd (lt_trans h (by assumption)) (lt_irrefl b)
  · split
    · simpa using by assumption
    · constructor
      · intro h; omega
      · intro h; exact absurd h (by assumption)

theorem cmpKey_nonneg_iff {a b : α} : 0 ≤ cmpKey a b ↔ b ≤ a := by
  constructor
  · intro h
    by_contra h2
    have := cmpKey_neg_iff.mpr (not_le.mp h2)
    omega
  · intro h
    by_contra h2
    exact absurd (cmpKey_neg_iff.mp (by omega)) (not_lt.mpr h)

theorem cmpKey_nonpos_iff {a b : α} : cmpKey a b ≤ 0 ↔ a ≤ b := by
  constructor
  · intro h
    by_contra h2
    have := cmpKey_pos_iff.mpr (not_le.mp h2)
    omega
  · intro h
    by_contra h2
    exact absurd (cmpKey_pos_iff.mp (by omega)) (not_lt.mpr h)

/-- The strict order on interval keys that `intervalKeyCompare` decides:
lexicographic on (key, isLargest) with `false < true`. -/
def ikLt (a b : IntervalKey α) : Prop :=
  a.key < b.key ∨ (a.key = b.key ∧ a.isLargest = false ∧ b.isLargest = true)

instance : DecidableRel (ikLt (α := α)) := by
  intro a b; unfold ikLt; infer_instance

theorem intervalKeyCompare_neg_iff {a b : IntervalKey α} :
    intervalKeyCompare a b < 0 ↔ ikLt a b := by
  unfold intervalKeyCompare ikLt
  simp only []
  by_cases hk : a.key < b.key
  · have h1 : cmpKey a.key b.key = -1 := by unfold cmpKey; simp [hk]
    rw [h1]; simp [hk]
  · by_cases hk2 : b.key < a.key
    · have h1 : cmpKey a.key b.key = 1 := by
        unfold cmpKey; simp [hk, hk2]
      rw [h1]
      constructor
      · intro h; omega
      · rintro (h | ⟨h, _⟩)
        · exact absurd h hk
        · exact absurd h (ne_of_gt hk2)
    · have he : a.key = b.key := le_antisymm (not_lt.mp hk2) (not_lt.mp hk)
      have h1 : cmpKey a.key b.key = 0 := cmpKey_eq_zero_iff.mpr he
      rw [h1]
      simp only [if_pos rfl]
      cases ha : a.isLargest <;> cases hb : b.isLargest <;> simp [ha, hb, he, hk]

theorem intervalKeyCompare_eq_zero_iff {a b : IntervalKey α} :
    intervalKeyCompare a b = 0 ↔ a = b := by
  unfold intervalKeyCompare
  by_cases hk : a.key = b.key
  · have h1 : cmpKey a.key b.key = 0 := cmpKey_eq_zero_iff.mpr hk
    rw [h1]
    simp only [if_pos rfl]
    cases ha : a.isLargest <;> cases hb : b.isLargest <;>
      cases a <;> cases b <;> simp_all
  · have h1 : cmpKey a.key b.key ≠ 0 := fun h => hk (cmpKey_eq_zero_iff.mp h)
    simp only [if_neg h1]
    constructor
    · intro h; exact absurd (cmpKey_eq_zero_iff.mp h) hk
    · intro h; cases a; cases b; simp_all

theorem intervalKeyCompare_pos_iff {a b : IntervalKey α} :
    0 < intervalKeyCompare a b ↔ ikLt b a := by
  rcases lt_trichotomy (intervalKeyCompare a b) 0 with h | h | h
  · constructor
    · intro h2; omega
    · intro h2
      have := intervalKeyCompare_neg_iff.mp h
      unfold ikLt at this h2
      rcases this with h3 | ⟨h3, h4, h5⟩ <;> rcases h2 with h6 | ⟨h6, h7, h8⟩
      · exact absurd (lt_trans h3 h6) (lt_irrefl _)
      · exact absurd h3 (h6 ▸ lt_irrefl _)
      · exact absurd h6 (h3 ▸ lt_irrefl _)
      · rw [h4] at h8; cases h8
  · rw [h]
    have hab : a = b := intervalKeyCompare_eq_zero_iff.mp h
    subst hab
    constructor
    · intro h2; omega
    · intro h2; unfold ikLt at h2
      rcases h2 with h3 | ⟨_, h4, h5⟩
      · exact absurd h3 (lt_irrefl _)
      · rw [h4] at h5; cases h5
  · constructor
    · intro _
      by_contra hn
      rcases lt_trichotomy a.key b.key with hk | hk | hk
      · have : intervalKeyCompare a b < 0 := intervalKeyCompare_neg_iff.mpr (Or.inl hk)
        omega
      · cases ha : a.isLargest <;> cases hb : b.isLargest
        · have : intervalKeyCompare a b = 0 := by
            apply intervalKeyCompare_eq_zero_iff.mpr
            cases a; cases b; simp_all
          omega
        · have : intervalKeyCompare a b < 0 :=
            intervalKeyCompare_neg_iff.mpr (Or.inr ⟨hk, ha, hb⟩)
          omega
        · exact hn (Or.inr ⟨hk.symm, hb, ha⟩)
        · have : intervalKeyCompare a b = 0 := by
            apply intervalKeyCompare_eq_zero_iff.mpr
            cases a; cases b; simp_all
          omega
      · exact hn (Or.inl hk)
    · intro _; omega

theorem ikLt_trans {a b c : IntervalKey α} (h1 : ikLt a b) (h2 : ikLt b c) : ikLt a c := by
  unfold ikLt at *
  rcases h1 with h1 | ⟨h1, h1a, h1b⟩ <;> rcases h2 with h2 | ⟨h2, h2a, h2b⟩
  · exact Or.inl (lt_trans h1 h2)
  · exact Or.inl (h2 ▸ h1)
  · exact Or.inl (h1 ▸ h2)
  · rw [h1b] at h2a; cases h2a

theorem ikLt_irrefl (a : IntervalKey α) : ¬ ikLt a a := by
  unfold ikLt; rintro (h | ⟨_, h1, h2⟩)
  · exact lt_irrefl _ h
  · rw [h1] at h2; cases h2

theorem ikLt_asymm {a b : IntervalKey α} (h : ikLt a b) : ¬ ikLt b a := by
  intro h2; exact ikLt_irrefl a (ikLt_trans h h2)

/-- Non-strict interval key comparison, as used when sorting. -/
def ikLe (a b : IntervalKey α) : Prop := intervalKeyCompare a b ≤ 0

instance : DecidableRel (ikLe (α := α)) := by
  intro a b; unfold ikLe; infer_instance

theorem ikLe_iff {a b : IntervalKey α} : ikLe a b ↔ ikLt a b ∨ a = b := by
  unfold ikLe
  constructor
  · intro h
    rcases lt_or_eq_of_le h with h2 | h2
    · exact Or.inl (intervalKeyCompare_neg_iff.mp h2)
    · exact Or.inr (intervalKeyCompare_eq_zero_iff.mp h2)
  · rintro (h | h)
    · exact le_of_lt (intervalKeyCompare_neg_iff.mpr h)
    · exact le_of_eq (intervalKeyCompare_eq_zero_iff.mpr h)

theorem ikLt_or_ge (a b : IntervalKey α) : ikLt a b ∨ ikLe b a := by
  rcases lt_trichotomy (intervalKeyCompare a b) 0 with h | h | h
  · exact Or.inl (intervalKeyCompare_neg_iff.mp h)
  · exact Or.inr (ikLe_iff.mpr (Or.inr (intervalKeyCompare_eq_zero_iff.mp h).symm))
  · exact Or.inr (ikLe_iff.mpr (Or.inl (intervalKeyCompare_pos_iff.mp h)))

instance : IsTotal (IntervalKey α) (ikLe (α := α)) := by
  constructor
  intro a b
  rcases ikLt_or_ge a b with h | h
  · exact Or.inl (ikLe_iff.mpr (Or.inl h))
  · exact Or.inr h

instance : IsTrans (IntervalKey α) (ikLe (α := α)) := by
  constructor
  intro a b c h1 h2
  rcases ikLe_iff.mp h1 with h1 | h1 <;> rcases ikLe_iff.mp h2 with h2 | h2
  · exact ikLe_iff.mpr (Or.inl (ikLt_trans h1 h2))
  · exact ikLe_iff.mpr (Or.inl (h2 ▸ h1))
  · exact ikLe_iff.mpr (Or.inl (h1 ▸ h2))
  · exact ikLe_iff.mpr (Or.inr (h1.trans h2))

end KeyLemmas

/-- First index in `[0, n)` satisfying `p`, or `n` when none does: the
semantics of Go's `sort.Search` (which requires `p` monotone and returns the
smallest index at which it holds). -/
def sortSearch (n : Nat) (p : Nat → Bool) : Nat :=
  go 0 n
where
  go : Nat → Nat → Nat
    | start, 0 => start
    | start, fuel + 1 => if p start then start else go (start + 1) fuel

theorem sortSearch_go_ge (p : Nat → Bool) (start fuel : Nat) :
    start ≤ sortSearch.go p start fuel := by
  induction fuel generalizing start with
  | zero => simp [sortSearch.go]
  | succ k ih =>
    simp only [sortSearch.go]
    split
    · exact le_refl _
    · exact le_trans (Nat.le_succ _) (ih (start + 1))

theorem sortSearch_go_le (p : Nat → Bool) (start fuel : Nat) :
    sortSearch.go p start fuel ≤ start + fuel := by
  induction fuel generalizing start with
  | zero => simp [sortSearch.go]
  | succ k ih =>
    simp only [sortSearch.go]
    split
    · omega
    · have := ih (start + 1); omega

theorem sortSearch_go_true (p : Nat → Bool) (start fuel : Nat)
    (h : sortSearch.go p start fuel < start + fuel) :
    p (sortSearch.go p start fuel) = true := by
  induction fuel generalizing start with
  | zero =>
    rw [show sortSearch.go p start 0 = start from rfl] at h
    omega
  | succ k ih =>
    simp only [sortSearch.go] at *
    split at h
    · simp [*]
    · rename_i hp
      simp only [sortSearch.go, if_neg hp]
      exact ih (start + 1) (by omega)

theorem sortSearch_go_false (p : Nat → Bool) (start fuel : Nat) (i : Nat)
    (h1 : start ≤ i) (h2 : i < sortSearch.go p start fuel) : p i = false := by
  induction fuel generalizing start with
  | zero =>
    rw [show sortSearch.go p start 0 = start from rfl] at h2
    omega
  | succ k ih =>
    simp only [sortSearch.go] at h2
    split at h2
    · omega
    · rename_i hp
      rcases Nat.eq_or_lt_of_le h1 with h3 | h3
      · subst h3; simpa using hp
      · exact ih (start + 1) h3 h2

theorem sortSearch_le (n : Nat) (p : Nat → Bool) : sortSearch n p ≤ n := by
  have := sortSearch_go_le p 0 n; unfold sortSearch; omega

theorem sortSearch_true {n : Nat} {p : Nat → Bool} (h : sortSearch n p < n) :
    p (sortSearch n p) = true := by
  have := sortSearch_go_true p 0 n (by unfold sortSearch at h; omega)
  unfold sortSearch
  exact this

theorem sortSearch_false {n : Nat} {p : Nat → Bool} {i : Nat} (h : i < sortSearch n p) :
    p i = false :=
  sortSearch_go_false p 0 n i (Nat.zero_le _) h

theorem sortSearch_min {n : Nat} {p : Nat → Bool} {i : Nat} (_hi : i < n)
    (h : p i = true) : sortSearch n p ≤ i := by
  by_contra h2
  have h3 := @sortSearch_false n p i (by omega)
  simp [h] at h3

/-- Helper for `sortAndDedup`: drop elements comparing equal to the previous
kept element.  Since comparing equal implies structural equality of interval
keys, this is the semantics of the dedup loop in the Go source. -/
def dedupRest {α : Type} [LinearOrder α] (prev : IntervalKey α) :
    List (IntervalKey α) → List (IntervalKey α)
  | [] => []
  | y :: ys =>
    if intervalKeyCompare y prev = 0 then dedupRest prev ys
    else y :: dedupRest y ys

/-- Adjacent dedup of a sorted list, keeping the first of each equal run. -/
def dedupHead {α : Type} [LinearOrder α] : List (IntervalKey α) → List (IntervalKey α)
  | [] => []
  | x :: xs => x :: dedupRest x xs

/-- Embedding of `sortAndDedup` from the source.  Go's `sort.Sort` is an
unspecified comparison sort; since keys comparing equal are identical
records, every comparison sort produces the same output list, which is also
the output of insertion sort. -/
def sortAndDedup {α : Type} [LinearOrder α] (keys : List (IntervalKey α)) :
    List (IntervalKey α) :=
  dedupHead (List.insertionSort ikLe keys)

section DedupLemmas

variable {α : Type} [LinearOrder α]

theorem dedupRest_subset {prev : IntervalKey α} {ys : List (IntervalKey α)}
    {a : IntervalKey α} (h : a ∈ dedupRest prev ys) : a ∈ ys := by
  induction ys generalizing prev with
  | nil => simp [dedupRest] at h
  | cons y ys ih =>
    simp only [dedupRest] at h
    split at h
    · exact List.mem_cons_of_mem _ (ih h)
    · rcases List.mem_cons.mp h with h2 | h2
      · exact h2 ▸ List.mem_cons_self _ _
      · exact List.mem_cons_of_mem _ (ih h2)

theorem mem_dedupRest {prev : IntervalKey α} {ys : List (IntervalKey α)}
    {a : IntervalKey α} (h : a ∈ ys) : a ∈ dedupRest prev ys ∨ a = prev := by
  induction ys generalizing prev with
  | nil => simp at h
  | cons y ys ih =>
    simp only [dedupRest]
    rcases List.mem_cons.mp h with h2 | h2
    · subst h2
      by_cases hc : intervalKeyCompare a prev = 0
      · exact Or.inr (intervalKeyCompare_eq_zero_iff.mp hc)
      · simp [hc]
    · by_cases hc : intervalKeyCompare y prev = 0
      · simp only [if_pos hc]
        exact ih h2
      · simp only [if_neg hc]
        rcases ih h2 with h3 | h3
        · exact Or.inl (List.mem_cons_of_mem _ h3)
        · exact Or.inl (h3 ▸ List.mem_cons_self _ _)

theorem mem_dedupHead {l : List (IntervalKey α)} {a : IntervalKey α} :
    a ∈ dedupHead l ↔ a ∈ l := by
  cases l with
  | nil => simp [dedupHead]
  | cons x xs =>
    simp only [dedupHead]
    constructor
    · intro h
      rcases List.mem_cons.mp h with h2 | h2
      · exact h2 ▸ List.mem_cons_self _ _
      · exact List.mem_cons_of_mem _ (dedupRest_subset h2)
    · intro h
      rcases List.mem_cons.mp h with h2 | h2
      · exact h2 ▸ List.mem_cons_self _ _
      · rcases mem_dedupRest h2 with h3 | h3
        · exact List.mem_cons_of_mem _ h3
        · exact h3 ▸ List.mem_cons_self _ _

theorem dedupRest_sorted {prev : IntervalKey α} {ys : List (IntervalKey α)}
    (hall : ∀ y ∈ ys, ikLe prev y) (hs : List.Pairwise ikLe ys) :
    (∀ z ∈ dedupRest prev ys, ikLt prev z) ∧ List.Pairwise ikLt (dedupRest prev ys) := by
  induction ys generalizing prev with
  | nil => simp [dedupRest]
  | cons y ys ih =>
    have hy : ikLe prev y := hall y (List.mem_cons_self _ _)
    have hys : ∀ z ∈ ys, ikLe y z := fun z hz => (List.pairwise_cons.mp hs).1 z hz
    have hstail : List.Pairwise ikLe ys := (List.pairwise_cons.mp hs).2
    simp only [dedupRest]
    by_cases hc : intervalKeyCompare y prev = 0
    · simp only [if_pos hc]
      have hyp : y = prev := intervalKeyCompare_eq_zero_iff.mp hc
      subst hyp
      exact ih hys hstail
    · simp only [if_neg hc]
      have hlt : ikLt prev y := by
        rcases ikLe_iff.mp hy with h | h
        · exact h
        · exact absurd (intervalKeyCompare_eq_zero_iff.mpr h.symm) hc
      obtain ⟨ih1, ih2⟩ := ih hys hstail
      refine ⟨?_, ?_⟩
      · intro z hz
        rcases List.mem_cons.mp hz with h3 | h3
        · exact h3 ▸ hlt
        · exact ikLt_trans hlt (ih1 z h3)
      · exact List.pairwise_cons.mpr ⟨ih1, ih2⟩

theorem sortAndDedup_pairwise (keys : List (IntervalKey α)) :
    List.Pairwise ikLt (sortAndDedup keys) := by
  unfold sortAndDedup
  have hs : List.Sorted ikLe (List.insertionSort ikLe keys) :=
    List.sorted_insertionSort ikLe keys
  cases hl : List.insertionSort ikLe keys with
  | nil => simp [dedupHead]
  | cons x xs =>
    rw [hl] at hs
    unfold List.Sorted at hs
    have hall : ∀ y ∈ xs, ikLe x y := fun y hy => (List.pairwise_cons.mp hs).1 y hy
    have htail : List.Pairwise ikLe xs := (List.pairwise_cons.mp hs).2
    obtain ⟨h1, h2⟩ := dedupRest_sorted hall htail
    simp only [dedupHead]
    exact List.pairwise_cons.mpr ⟨h1, h2⟩

theorem mem_sortAndDedup {keys : List (IntervalKey α)} {a : IntervalKey α} :
    a ∈ sortAndDedup keys ↔ a ∈ keys := by
  unfold sortAndDedup
  rw [mem_dedupHead]
  exact (List.perm_insertionSort ikLe keys).mem_iff

/-- In a strictly sorted key list, the first-index search for `ikLe x _`
locates an element `x` of the list exactly at its position. -/
theorem sortSearch_mem_sorted {l : List (IntervalKey α)} (hs : List.Pairwise ikLt l)
    {x : IntervalKey α} (hx : x ∈ l) (d : IntervalKey α) :
    sortSearch l.length (fun j => decide (intervalKeyCompare x (l.getD j d) ≤ 0)) < l.length ∧
      l.getD (sortSearch l.length (fun j => decide (intervalKeyCompare x (l.getD j d) ≤ 0))) d = x := by
  obtain ⟨p, hp, hxp⟩ := List.mem_iff_getElem.mp hx
  have hgetp : l.getD p d = x := by
    rw [List.getD_eq_getElem?_getD, List.getElem?_eq_getElem hp, hxp]; rfl
  have hptrue : (fun j => decide (intervalKeyCompare x (l.getD j d) ≤ 0)) p = true := by
    simp only [hgetp, decide_eq_true_eq]
    exact le_of_eq (intervalKeyCompare_eq_zero_iff.mpr rfl)
  have hle : sortSearch l.length (fun j => decide (intervalKeyCompare x (l.getD j d) ≤ 0)) ≤ p :=
    sortSearch_min hp hptrue
  have hge : p ≤ sortSearch l.length (fun j => decide (intervalKeyCompare x (l.getD j d) ≤ 0)) := by
    by_contra h2
    set i := sortSearch l.length (fun j => decide (intervalKeyCompare x (l.getD j d) ≤ 0)) with hi
    have hilen : i < l.length := by omega
    have htrue := sortSearch_true hilen
    rw [← hi] at htrue
    simp only [decide_eq_true_eq] at htrue
    have hgeti : l.getD i d = l[i] := by
      rw [List.getD_eq_getElem?_getD, List.getElem?_eq_getElem hilen]; rfl
    rw [hgeti] at htrue
    have hlt : ikLt l[i] l[p] := by
      have := List.pairwise_iff_getElem.mp hs i p hilen hp (by omega)
      exact this
    rw [hxp] at hlt
    rcases ikLe_iff.mp htrue with h3 | h3
    · exact ikLt_asymm h3 hlt
    · exact ikLt_irrefl x (h3 ▸ hlt)
  have hpe : sortSearch l.length (fun j => decide (intervalKeyCompare x (l.getD j d) ≤ 0)) = p := by
    omega
  rw [hpe, hgetp]
  exact ⟨hp, rfl⟩

end DedupLemmas

/-- In-place update of one list element, embedding Go's
`slice[i].field = value` writes; out-of-range indices are no-ops (the Go
code never writes out of range for the states considered). -/
def modifyAt {β : Type} (g : β → β) : Nat → List β → List β
  | _, [] => []
  | 0, x :: xs => g x :: xs
  | n + 1, x :: xs => x :: modifyAt g n xs

/-- Embedding of `FileMetadata`, restricted to the fields the engine consumes
and produces.  `largestIsSentinel` records whether `Largest.Trailer` equals
the range-delete sentinel.  Input files carry the first eight fields; the
constructor overwrites `l0Index`, `minIntervalIndex`, `maxIntervalIndex` and
`subLevel`. -/
structure FileMetadata (α : Type) where
  Smallest : α
  Largest : α
  largestIsSentinel : Bool
  Size : Nat
  SmallestSeqNum : Nat
  LargestSeqNum : Nat
  Compacting : Bool
  IsIntraL0Compacting : Bool
  l0Index : Nat
  minIntervalIndex : Nat
  maxIntervalIndex : Nat
  subLevel : Nat
deriving DecidableEq, Repr

instance {α : Type} [Inhabited α] : Inhabited (FileMetadata α) :=
  ⟨⟨default, default, false, 0, 0, 0, false, false, 0, 0, 0, 0⟩⟩

/-- Embedding of `fileInterval`.  `files` holds arena indices (`l0Index`
values), modelling the shared `*FileMetadata` pointers of the source. -/
structure fileInterval (α : Type) where
  index : Nat
  startKey : IntervalKey α
  isBaseCompacting : Bool
  filesMinIntervalIndex : Nat
  filesMaxIntervalIndex : Nat
  intervalRangeIsBaseCompacting : Bool
  fileCount : Nat
  compactingFileCount : Nat
  files : List Nat
  estimatedBytes : Nat
deriving DecidableEq, Repr

instance {α : Type} [Inhabited α] : Inhabited (fileInterval α) :=
  ⟨⟨0, default, false, 0, 0, false, 0, 0, [], 0⟩⟩

/-- Embedding of `L0Sublevels`.  `levelMetadata` is the arena of all L0 files
in oldest-to-youngest order, indexed by `l0Index`; `Levels` stores arena
indices. -/
structure L0Sublevels (α : Type) where
  Levels : List (List Nat)
  fileBytes : Nat
  levelMetadata : List (FileMetadata α)
  orderedIntervals : List (fileInterval α)
  flushSplitUserKeys : List α
deriving DecidableEq, Repr

section Engine

variable {α : Type} [LinearOrder α] [Inhabited α]

/-- Arena lookup, modelling dereferencing a `*FileMetadata`. -/
def fileAt (s : L0Sublevels α) (j : Nat) : FileMetadata α :=
  s.levelMetadata.getD j default

/-- Interval lookup. -/
def intervalAt (s : L0Sublevels α) (i : Nat) : fileInterval α :=
  s.orderedIntervals.getD i default

/-- The interval key at which a file starts: `{Smallest.UserKey, false}`. -/
def startIK (f : FileMetadata α) : IntervalKey α := ⟨f.Smallest, false⟩

/-- The interval key just after a file ends:
`{Largest.UserKey, Largest.Trailer != rangeDeleteSentinel}`. -/
def endIK (f : FileMetadata α) : IntervalKey α := ⟨f.Largest, !f.largestIsSentinel⟩

/-- Embedding of `insertIntoSubLevel`: insert arena index `f` into the
sublevel's file list, sorted by `minIntervalIndex`. -/
def insertIntoSubLevel (arena : List (FileMetadata α)) (files : List Nat) (f : Nat) :
    List Nat :=
  let fm := arena.getD f default
  let index := sortSearch files.length
    (fun i => decide (fm.minIntervalIndex < (arena.getD (files.getD i 0) default).minIntervalIndex))
  files.take index ++ f :: files.drop index

/-- The span `[minIntervalIndex, maxIntervalIndex]` of a file as a list of
interval indices; embeds the Go loops `for i := f.minIntervalIndex;
i <= f.maxIntervalIndex; i++`. -/
def spanList (minI maxI : Nat) : List Nat := List.range' minI (maxI + 1 - minI)

/-- The binary searches of the constructor that locate a file's
`minIntervalIndex` and `maxIntervalIndex` among the deduplicated interval
keys, failing exactly when a search runs off the end. -/
def fileSpan (keys : List (IntervalKey α)) (f : FileMetadata α) :
    Except String (Nat × Nat) :=
  let minI := sortSearch keys.length
    (fun idx => decide (intervalKeyCompare (startIK f) (keys.getD idx default) ≤ 0))
  if minI = keys.length then .error "expected sstable bound to be in interval keys"
  else
    let maxS := sortSearch keys.length
      (fun idx => decide (intervalKeyCompare (endIK f) (keys.getD idx default) ≤ 0))
    if maxS = keys.length then .error "expected sstable bound to be in interval keys"
    else .ok (minI, maxS - 1)

/-- The sublevel chosen for a new file: one more than the sublevel of the
last (highest) file of any interval in its span, as in the constructor's
first per-interval loop.  That loop also updates interval counters, which do
not feed back into this computation, so the two are separated here. -/
def computeSubLevel (s : L0Sublevels α) (minI maxI : Nat) : Nat :=
  (spanList minI maxI).foldl
    (fun sub i =>
      match (intervalAt s i).files.getLast? with
      | none => sub
      | some j => if sub ≤ (fileAt s j).subLevel then (fileAt s j).subLevel + 1 else sub)
    0

/-- Counter updates applied to each interval in a new file's span. -/
def intervalAddCounts (interp minI maxI : Nat) (iv : fileInterval α) : fileInterval α :=
  { iv with
    fileCount := iv.fileCount + 1,
    estimatedBytes := iv.estimatedBytes + interp,
    filesMinIntervalIndex :=
      if minI < iv.filesMinIntervalIndex then minI else iv.filesMinIntervalIndex,
    filesMaxIntervalIndex :=
      if maxI > iv.filesMaxIntervalIndex then maxI else iv.filesMaxIntervalIndex }

/-- One step of the constructor's per-file loop: locate the span, compute the
sublevel, update the intervals (counters first, then the `files` lists, as in
the source's two loops), extend the arena, and place the file into its
sublevel. -/
def addFileToState (keys : List (IntervalKey α)) (st : L0Sublevels α)
    (f0 : FileMetadata α) (i : Nat) : Except String (L0Sublevels α) :=
  match fileSpan keys f0 with
  | .error e => .error e
  | .ok (minI, maxI) =>
    let interpolatedBytes := f0.Size / (maxI - minI + 1)
    let sub := computeSubLevel st minI maxI
    let intervals1 := (spanList minI maxI).foldl
      (fun ivs k => modifyAt (intervalAddCounts interpolatedBytes minI maxI) k ivs)
      st.orderedIntervals
    let intervals2 := (spanList minI maxI).foldl
      (fun ivs k => modifyAt (fun iv => { iv with files := iv.files ++ [i] }) k ivs)
      intervals1
    let f : FileMetadata α :=
      { f0 with l0Index := i, minIntervalIndex := minI, maxIntervalIndex := maxI,
                subLevel := sub }
    let arena := st.levelMetadata ++ [f]
    if sub > st.Levels.length then
      .error "chose a sublevel beyond allowed range of sublevels"
    else
      let levels :=
        if sub = st.Levels.length then st.Levels ++ [[i]]
        else modifyAt (fun lvl => insertIntoSubLevel arena lvl i) sub st.Levels
      .ok { Levels := levels, fileBytes := st.fileBytes + f0.Size, levelMetadata := arena,
            orderedIntervals := intervals2, flushSplitUserKeys := st.flushSplitUserKeys }

/-- Fold of `addFileToState` over the input files, numbering them by
`l0Index` in input (oldest-to-youngest) order. -/
def buildFiles (keys : List (IntervalKey α)) :
    L0Sublevels α → List (FileMetadata α) → Nat → Except String (L0Sublevels α)
  | st, [], _ => .ok st
  | st, f :: rest, i =>
    match addFileToState keys st f i with
    | .error e => .error e
    | .ok st2 => buildFiles keys st2 rest (i + 1)

/-- The flush-split walk over the intervals.  The first component is the
flush split keys exactly as the source computes them; the second is
instrumentation recording the accumulated `estimatedBytes` of each
inter-split segment (including the final, trailing segment), used to state
the flush-split threshold property. -/
def flushSplitWalk (threshold : Int) :
    List (fileInterval α) → Nat → List α → List Nat → (List α × List Nat)
  | [], cum, ks, segs => (ks, segs ++ [cum])
  | iv :: rest, cum, ks, segs =>
    if threshold > 0 ∧ cum > threshold.toNat ∧
        (ks = [] ∨ ks.getLast? ≠ some iv.startKey.key) then
      flushSplitWalk threshold rest (0 + iv.estimatedBytes) (ks ++ [iv.startKey.key])
        (segs ++ [cum])
    else
      flushSplitWalk threshold rest (cum + iv.estimatedBytes) ks segs

/-- Embedding of `NewL0Sublevels`.  Input files must already be in
oldest-to-youngest order (`SortBySeqNum` in the source); `flushSplitMaxBytes`
is the configured `int64` threshold, multiplied by the sublevel count before
the walk, exactly as in the source. -/
def NewL0Sublevels (files : List (FileMetadata α)) (flushSplitMaxBytes : Int) :
    Except String (L0Sublevels α) :=
  let keys := sortAndDedup (files.flatMap (fun f => [startIK f, endIK f]))
  let intervals0 : List (fileInterval α) := (List.range keys.length).map (fun i =>
    { index := i, startKey := keys.getD i default, isBaseCompacting := false,
      filesMinIntervalIndex := i, filesMaxIntervalIndex := i,
      intervalRangeIsBaseCompacting := false, fileCount := 0, compactingFileCount := 0,
      files := [], estimatedBytes := 0 })
  let st0 : L0Sublevels α :=
    { Levels := [], fileBytes := 0, levelMetadata := [],
      orderedIntervals := intervals0, flushSplitUserKeys := [] }
  match buildFiles keys st0 files 0 with
  | .error e => .error e
  | .ok st =>
    let threshold := flushSplitMaxBytes * (st.Levels.length : Int)
    let ks := (flushSplitWalk threshold st.orderedIntervals 0 [] []).1
    .ok { st with flushSplitUserKeys := ks }

/-- The interval-index segments produced by the flush-split walk: for each
recorded split, the accumulated `estimatedBytes` since the previous split
(or since the start), plus the trailing accumulation after the last split. -/
def flushSplitSegments (s : L0Sublevels α) (threshold : Int) : List Nat :=
  (flushSplitWalk threshold s.orderedIntervals 0 [] []).2

/-- Embedding of `ReadAmplification`: max `fileCount` across intervals. -/
def ReadAmplification (s : L0Sublevels α) : Nat :=
  s.orderedIntervals.foldl
    (fun amp iv => if amp < iv.fileCount then iv.fileCount else amp) 0

/-- Embedding of `MaxDepthAfterOngoingCompactions`. -/
def MaxDepthAfterOngoingCompactions (s : L0Sublevels α) : Int :=
  s.orderedIntervals.foldl
    (fun depth iv =>
      let d : Int := (iv.fileCount : Int) - (iv.compactingFileCount : Int)
      if depth < d then d else depth) 0

/-- Embedding of `FlushSplitKeys`. -/
def FlushSplitKeys (s : L0Sublevels α) : List α := s.flushSplitUserKeys

/-- Embedding of `L0Compaction`: an in-progress compaction descriptor. -/
structure L0Compaction (α : Type) where
  Smallest : α
  Largest : α
  largestIsSentinel : Bool
  IsIntraL0 : Bool
deriving DecidableEq, Repr

/-- Pass 0 of `InitCompactingFileInfo`: zero all compacting state. -/
def initReset (ivs : List (fileInterval α)) : List (fileInterval α) :=
  ivs.map (fun iv =>
    { iv with compactingFileCount := 0, isBaseCompacting := false,
              intervalRangeIsBaseCompacting := false })

/-- Pass 1 of `InitCompactingFileInfo`: for each compacting file, bump
`compactingFileCount` across its span and mark `isBaseCompacting` unless the
file is intra-L0 compacting. -/
def initPass1 (arena : List (FileMetadata α)) (ivs : List (fileInterval α)) :
    List (fileInterval α) :=
  arena.foldl (fun ivs f =>
    if f.Compacting then
      (spanList f.minIntervalIndex f.maxIntervalIndex).foldl
        (fun ivs2 i => modifyAt (fun iv =>
          { iv with compactingFileCount := iv.compactingFileCount + 1,
                    isBaseCompacting :=
                      if f.IsIntraL0Compacting then iv.isBaseCompacting else true }) i ivs2)
        ivs
    else ivs) ivs

/-- Pass 2 of `InitCompactingFileInfo`: mark `isBaseCompacting` across the
interval range of each in-progress non-intra compaction descriptor. -/
def initPass2 (inProgress : List (L0Compaction α)) (ivs : List (fileInterval α)) :
    List (fileInterval α) :=
  inProgress.foldl (fun ivs c =>
    let sIK : IntervalKey α := ⟨c.Smallest, false⟩
    let eIK : IntervalKey α := ⟨c.Largest, !c.largestIsSentinel⟩
    let start := sortSearch ivs.length
      (fun i => decide (0 ≤ intervalKeyCompare ((ivs.getD i default).startKey) sIK))
    let stop := sortSearch ivs.length
      (fun i => decide (0 ≤ intervalKeyCompare ((ivs.getD i default).startKey) eIK))
    (List.range' start (stop - start)).foldl
      (fun ivsB i =>
        if c.IsIntraL0 then ivsB
        else modifyAt (fun iv => { iv with isBaseCompacting := true }) i ivsB)
      ivs) ivs

/-- Pass 3 of `InitCompactingFileInfo`: propagate
`intervalRangeIsBaseCompacting` left to right, with the `min` marker
avoiding repeated work. -/
def initPass3 (ivs : List (fileInterval α)) : List (fileInterval α) :=
  ((List.range ivs.length).foldl
    (fun (acc : Nat × List (fileInterval α)) i =>
      let iv := acc.2.getD i default
      if iv.isBaseCompacting then
        let minIndex := if iv.filesMinIntervalIndex < acc.1 then acc.1
          else iv.filesMinIntervalIndex
        (List.range' minIndex (iv.filesMaxIntervalIndex + 1 - minIndex)).foldl
          (fun acc2 j =>
            (j, modifyAt
              (fun iv2 => { iv2 with intervalRangeIsBaseCompacting := true }) j acc2.2))
          (acc.1, acc.2)
      else acc)
    (0, ivs)).2

/-- Embedding of `InitCompactingFileInfo`: reset all compacting state, then
recompute it from the files' flags (pass 1), the in-progress compaction key
ranges (pass 2), and finally propagate `intervalRangeIsBaseCompacting`
(pass 3). -/
def InitCompactingFileInfo (s : L0Sublevels α) (inProgress : List (L0Compaction α)) :
    L0Sublevels α :=
  { s with orderedIntervals :=
      initPass3 (initPass2 inProgress (initPass1 s.levelMetadata
        (initReset s.orderedIntervals))) }

/-- The counting pass of `UpdateStateForStartedCompaction`: bump
`compactingFileCount` across every input file's span while tracking the
union `[minIntervalIndex, maxIntervalIndex]` of the spans (`-1` is the Go
sentinel for an unset minimum). -/
def updateCounts (inputs : List (List (FileMetadata α))) (ivs0 : List (fileInterval α)) :
    Int × Nat × List (fileInterval α) :=
  inputs.foldl
    (fun (acc : Int × Nat × List (fileInterval α)) lvl =>
      lvl.foldl (fun acc2 f =>
        let ivs := (spanList f.minIntervalIndex f.maxIntervalIndex).foldl
          (fun ivs2 i => modifyAt
            (fun iv => { iv with compactingFileCount := iv.compactingFileCount + 1 }) i ivs2)
          acc2.2.2
        let mn : Int :=
          if (f.minIntervalIndex : Int) < acc2.1 ∨ acc2.1 = -1 then (f.minIntervalIndex : Int)
          else acc2.1
        let mx : Nat :=
          if f.maxIntervalIndex > acc2.2.1 then f.maxIntervalIndex else acc2.2.1
        (mn, mx, ivs)) acc)
    ((-1 : Int), 0, ivs0)

/-- The marking pass of `UpdateStateForStartedCompaction` for a base
compaction: set `isBaseCompacting` on the union range and propagate
`intervalRangeIsBaseCompacting` across each marked interval's file range. -/
def updateMarkBase (mn mx : Nat) (ivs : List (fileInterval α)) : List (fileInterval α) :=
  (List.range' mn (mx + 1 - mn)).foldl
    (fun ivsA i =>
      let iv := ivsA.getD i default
      let ivsB := modifyAt (fun v => { v with isBaseCompacting := true }) i ivsA
      (spanList iv.filesMinIntervalIndex iv.filesMaxIntervalIndex).foldl
        (fun ivsC j => modifyAt
          (fun v => { v with intervalRangeIsBaseCompacting := true }) j ivsC)
        ivsB)
    ivs

/-- Embedding of `UpdateStateForStartedCompaction`.  The Go function always
returns a nil error, so the model returns the state directly.  When the
inputs are empty and `isBase` holds, the source would fault (it indexes
interval `-1`); the model then marks from index `0`, a corner no caller
exercises. -/
def UpdateStateForStartedCompaction (s : L0Sublevels α)
    (inputs : List (List (FileMetadata α))) (isBase : Bool) : L0Sublevels α :=
  match updateCounts inputs s.orderedIntervals with
  | (mn, mx, ivs) =>
    if isBase then { s with orderedIntervals := updateMarkBase mn.toNat mx ivs }
    else { s with orderedIntervals := ivs }

end Engine

/-- Embedding of `L0CompactionFiles`.  `Files` holds file records (the
pointed-to metadata); `FilesIncluded` is the bit set over `l0Index`.  The Go
snapshot assignment `*lastCandidate = *c` aliases the bit-set backing array,
but both pickers rebuild `FilesIncluded` from `Files` before returning a
candidate, so value copies produce the same results. -/
structure L0CompactionFiles (α : Type) where
  Files : List (FileMetadata α)
  FilesIncluded : List Bool
  seedIntervalStackDepthReduction : Int
  seedIntervalMinLevel : Nat
  seedIntervalMaxLevel : Nat
  seedInterval : Nat
  fileBytes : Nat
  minIntervalIndex : Nat
  maxIntervalIndex : Nat
  isIntraL0 : Bool
  earliestUnflushedSeqNum : Nat
  preExtensionMinInterval : Nat
  preExtensionMaxInterval : Nat
  filesAdded : List (FileMetadata α)
deriving DecidableEq, Repr

section Picker

variable {α : Type} [LinearOrder α] [Inhabited α]

/-- Embedding of `L0CompactionFiles.addFile`. -/
def addFile (l : L0CompactionFiles α) (f : FileMetadata α) : L0CompactionFiles α :=
  if l.FilesIncluded.getD f.l0Index false then l
  else
    { l with
      FilesIncluded := l.FilesIncluded.set f.l0Index true,
      Files := l.Files ++ [f],
      filesAdded := l.filesAdded ++ [f],
      fileBytes := l.fileBytes + f.Size,
      minIntervalIndex :=
        if f.minIntervalIndex < l.minIntervalIndex then f.minIntervalIndex
        else l.minIntervalIndex,
      maxIntervalIndex :=
        if f.maxIntervalIndex > l.maxIntervalIndex then f.maxIntervalIndex
        else l.maxIntervalIndex }

/-- Embedding of `bitSet.markBits`. -/
def markRange (bs : List Bool) (start stop : Nat) : List Bool :=
  (List.range' start (stop - start)).foldl (fun b i => b.set i true) bs

/-- Scored interval, from the source's `intervalAndScore`. -/
structure intervalAndScore where
  interval : Nat
  score : Int
deriving DecidableEq, Repr

/-- Stable insertion into a list sorted by decreasing score. -/
def insScored (x : intervalAndScore) : List intervalAndScore → List intervalAndScore
  | [] => [x]
  | y :: ys => if x.score > y.score then x :: y :: ys else y :: insScored x ys

/-- Sorting by decreasing score.  Go's `sort.Sort` is an unspecified
comparison sort; this insertion sort realizes one admissible (stable)
outcome of `intervalSorterByDecreasingScore`. -/
def sortScoredDec : List intervalAndScore → List intervalAndScore
  | [] => []
  | x :: xs => insScored x (sortScoredDec xs)

/-- The growth cap from both `baseCompactionUsingSeed` and
`intraL0CompactionUsingSeed`.  The float comparison
`float64(c.fileBytes)/float64(lastCandidate.fileBytes) > 1.5` is modelled
exactly as `2*c.fileBytes > 3*lastCandidate.fileBytes`; with a zero
denominator Go yields `+Inf > 1.5` (true) for a nonzero numerator and
`NaN > 1.5` (false) for a zero one, matching the rational form. -/
def growthStop (minCompactionDepth : Int) (lc c : L0CompactionFiles α) : Bool :=
  decide (lc.seedIntervalStackDepthReduction ≥ minCompactionDepth) &&
    decide (c.fileBytes > 104857600) &&
    (decide (2 * c.fileBytes > 3 * lc.fileBytes) || decide (c.fileBytes > 524288000))

/-- Rebuilding `FilesIncluded` from `Files` before returning a candidate
(`clearAllBits` followed by re-marking, as in both pickers). -/
def rebuildIncluded (lc : L0CompactionFiles α) : L0CompactionFiles α :=
  let bits := lc.Files.foldl (fun bs f => bs.set f.l0Index true)
    (List.replicate lc.FilesIncluded.length false)
  { lc with FilesIncluded := bits }

/-- Embedding of the iteration inside `extendFiles`, starting from the file
found by the binary search; the candidate's `maxIntervalIndex` may grow
while scanning, and the loop reads the current value each step. -/
def extendFilesLoop (s : L0Sublevels α) (seqLimit : Nat) :
    List Nat → L0CompactionFiles α → Bool × L0CompactionFiles α
  | [], c => (true, c)
  | j :: rest, c =>
    let f := fileAt s j
    if f.minIntervalIndex > c.maxIntervalIndex then (true, c)
    else if f.Compacting then (false, c)
    else if f.LargestSeqNum ≥ seqLimit then extendFilesLoop s seqLimit rest c
    else extendFilesLoop s seqLimit rest (addFile c f)

/-- Embedding of `extendFiles`. -/
def extendFiles (s : L0Sublevels α) (sl : Nat) (earliestUnflushedSeqNum : Nat)
    (c : L0CompactionFiles α) : Bool × L0CompactionFiles α :=
  let files := s.Levels.getD sl []
  let index := sortSearch files.length
    (fun i => decide ((fileAt s (files.getD i 0)).maxIntervalIndex ≥ c.minIntervalIndex))
  extendFilesLoop s earliestUnflushedSeqNum (files.drop index) c

/-- Running `extendFiles` over a sequence of sublevels, stopping at the
first failure: the `for currLevel ...` loops of both seed builders. -/
def extendLevelsSeq (s : L0Sublevels α) (seqLimit : Nat) :
    List Nat → L0CompactionFiles α → Bool × L0CompactionFiles α
  | [], c => (true, c)
  | sl :: rest, c =>
    match extendFiles s sl seqLimit c with
    | (true, c2) => extendLevelsSeq s seqLimit rest c2
    | (false, c2) => (false, c2)

/-- The value of `math.MaxUint64`, passed by the base seed builder as the
sequence-number limit (so no file is skipped for its sequence number). -/
def maxUint64 : Nat := 18446744073709551615

/-- The stacking loop of `baseCompactionUsingSeed` over the seed interval's
files, lowest sublevel first, carrying the `lastCandidate` snapshot. -/
def baseSeedLoop (s : L0Sublevels α) (minCompactionDepth : Int) :
    List Nat → L0CompactionFiles α → Option (L0CompactionFiles α) →
      Option (L0CompactionFiles α)
  | [], _c, lastCandidate => lastCandidate
  | j :: rest, c, lastCandidate =>
    let f2 := fileAt s j
    let sl := f2.subLevel
    let c1 := { c with
      seedIntervalStackDepthReduction := c.seedIntervalStackDepthReduction + 1,
      seedIntervalMaxLevel := sl }
    let c2 := addFile c1 f2
    match extendLevelsSeq s maxUint64 ((List.range sl).reverse) c2 with
    | (false, _) => lastCandidate
    | (true, c3) =>
      match lastCandidate with
      | none => baseSeedLoop s minCompactionDepth rest c3 (some c3)
      | some lc =>
        if growthStop minCompactionDepth lc c3 then some lc
        else baseSeedLoop s minCompactionDepth rest c3 (some c3)

/-- Embedding of `baseCompactionUsingSeed`. -/
def baseCompactionUsingSeed (s : L0Sublevels α) (f : FileMetadata α)
    (intervalIndex : Nat) (minCompactionDepth : Int) : Option (L0CompactionFiles α) :=
  let c0 : L0CompactionFiles α :=
    { Files := [], FilesIncluded := List.replicate s.levelMetadata.length false,
      seedIntervalStackDepthReduction := 0, seedIntervalMinLevel := 0,
      seedIntervalMaxLevel := 0, seedInterval := intervalIndex, fileBytes := 0,
      minIntervalIndex := f.minIntervalIndex, maxIntervalIndex := f.maxIntervalIndex,
      isIntraL0 := false, earliestUnflushedSeqNum := 0,
      preExtensionMinInterval := 0, preExtensionMaxInterval := 0, filesAdded := [] }
  let c1 := addFile c0 f
  let interval := intervalAt s intervalIndex
  match baseSeedLoop s minCompactionDepth interval.files c1 none with
  | none => none
  | some lc =>
    if lc.seedIntervalStackDepthReduction ≥ minCompactionDepth then
      some (rebuildIncluded lc)
    else none

/-- The per-interval scores of `PickBaseCompaction`. -/
def baseScores (s : L0Sublevels α) (minCompactionDepth : Int) : List intervalAndScore :=
  s.orderedIntervals.enum.foldl
    (fun acc p =>
      let iv := p.2
      let depth : Int := (iv.fileCount : Int) - (iv.compactingFileCount : Int)
      if iv.isBaseCompacting = true ∨ minCompactionDepth > depth then acc
      else if iv.intervalRangeIsBaseCompacting then acc ++ [⟨p.1, depth⟩]
      else acc ++ [⟨p.1, depth + (s.Levels.length : Int)⟩]) []

/-- The Lbase iterator's `SeekGE`.  Modelled from the spec: `LevelSlice` and
`LevelIterator` live outside this package; the spec describes Lbase as an
iterable sequence of key-ordered files, and the scan in §4.5 starts from
`seekGE(key)`, the first file in key order whose largest user key is at
least the sought key. -/
def lbaseSeekGE (k : α) (baseFiles : List (FileMetadata α)) : List (FileMetadata α) :=
  baseFiles.dropWhile (fun m => decide (cmpKey m.Largest k < 0))

/-- The Lbase conflict scan of `PickBaseCompaction`: walk forward from the
seek position, stop at the first file starting at or beyond the exclusive
end bound, and report whether a compacting file was seen. -/
def lbaseScanCompacting (endKey : IntervalKey α) : List (FileMetadata α) → Bool
  | [] => false
  | m :: rest =>
    let cmpv := cmpKey m.Smallest endKey.key
    if cmpv > 0 ∨ (cmpv = 0 ∧ endKey.isLargest = false) then false
    else if m.Compacting then true
    else lbaseScanCompacting endKey rest

/-- The scored-interval loop of `PickBaseCompaction`.  The Go code indexes
`interval.files[0]` before its (dead) nil check, so an empty scored interval
faults; that fault is modelled as an error. -/
def pickBaseLoop (s : L0Sublevels α) (minCompactionDepth : Int)
    (baseFiles : List (FileMetadata α)) :
    List intervalAndScore → List Bool → Except String (Option (L0CompactionFiles α))
  | [], _ => .ok none
  | si :: rest, considered =>
    let interval := intervalAt s si.interval
    if considered.getD interval.index false then
      pickBaseLoop s minCompactionDepth baseFiles rest considered
    else
      match interval.files with
      | [] => .error "runtime: index out of range in seed file selection"
      | j :: _ =>
        let f := fileAt s j
        let considered2 := markRange considered f.minIntervalIndex (f.maxIntervalIndex + 1)
        if f.Compacting then
          if f.IsIntraL0Compacting then
            pickBaseLoop s minCompactionDepth baseFiles rest considered2
          else .error "file chosen as seed file for compaction should not be compacting"
        else
          match baseCompactionUsingSeed s f interval.index minCompactionDepth with
          | none => pickBaseLoop s minCompactionDepth baseFiles rest considered2
          | some c =>
            let ms := lbaseSeekGE ((intervalAt s c.minIntervalIndex).startKey.key) baseFiles
            if lbaseScanCompacting ((intervalAt s (c.maxIntervalIndex + 1)).startKey) ms then
              pickBaseLoop s minCompactionDepth baseFiles rest considered2
            else .ok (some c)

/-- Embedding of `PickBaseCompaction`. -/
def PickBaseCompaction (s : L0Sublevels α) (minCompactionDepth : Int)
    (baseFiles : List (FileMetadata α)) : Except String (Option (L0CompactionFiles α)) :=
  pickBaseLoop s minCompactionDepth baseFiles
    (sortScoredDec (baseScores s minCompactionDepth))
    (List.replicate s.orderedIntervals.length false)

end Picker

section Rectangle

variable {α : Type} [LinearOrder α] [Inhabited α]

/-- The forward collection scan of `extendCandidateToRectangle` step 1:
walk the sublevel's files from the seek position; files overhanging the
current `[minI, maxI]` window shrink it and are excluded; the returned
options are the absolute indices of the first and last fully contained
file.  The interval bounds are `Int` because `f.minIntervalIndex - 1` can
go below zero. -/
def rectCollect (s : L0Sublevels α) :
    List Nat → Nat → Int → Int → Option Nat → Option Nat →
      Int × Int × Option Nat × Option Nat
  | [], _pos, minI, maxI, fi, li => (minI, maxI, fi, li)
  | j :: rest, pos, minI, maxI, fi, li =>
    let f := fileAt s j
    if (f.minIntervalIndex : Int) > maxI then (minI, maxI, fi, li)
    else
      let incl := decide (minI ≤ (f.minIntervalIndex : Int)) &&
        decide ((f.maxIntervalIndex : Int) ≤ maxI)
      let minI2 := if (f.minIntervalIndex : Int) < minI then (f.maxIntervalIndex : Int) + 1
        else minI
      let maxI2 := if (f.maxIntervalIndex : Int) > maxI then (f.minIntervalIndex : Int) - 1
        else maxI
      if incl then
        rectCollect s rest (pos + 1) minI2 maxI2 (if fi.isSome then fi else some pos)
          (some pos)
      else rectCollect s rest (pos + 1) minI2 maxI2 fi li

/-- State of the longest-non-compacting-run scan in
`extendCandidateToRectangle` step 3. -/
structure RunState where
  runFirst : Option Nat
  curPicked : Bool
  candFirst : Option Nat
  candLast : Nat
  candPicked : Bool
deriving DecidableEq, Repr

/-- The run-replacement test: a closed run `[first, last]` replaces the
current candidate run unless the candidate already contains picked files;
a run containing picked files wins regardless of length, otherwise the
longer run wins. -/
def runBetter (st : RunState) (first last : Nat) (curPicked : Bool) : Bool :=
  !st.candPicked &&
    (st.candFirst.isNone || curPicked ||
      decide ((last : Int) - (first : Int) >
        (st.candLast : Int) - ((st.candFirst.getD 0 : Nat) : Int)))

/-- Closing the current run at absolute index `last`. -/
def closeRun (st : RunState) (last : Nat) (setPicked : Bool) : RunState :=
  match st.runFirst with
  | none => st
  | some nf =>
    if runBetter st nf last st.curPicked then
      { st with candFirst := some nf, candLast := last,
                candPicked := if setPicked then st.curPicked else st.candPicked }
    else st

/-- The scan over `[firstIndex, lastIndex]` finding the chosen run of
consecutive non-compacting files.  The trailing closure after the loop (with
`setPicked := false`, since the Go code's duplicated block does not update
`candidateHasAlreadyPickedFiles`) is applied by the caller. -/
def runScan (s : L0Sublevels α) (cFI : List Bool) :
    List Nat → Nat → RunState → RunState
  | [], _pos, st => st
  | j :: rest, pos, st =>
    let f := fileAt s j
    if f.Compacting then
      let st2 := closeRun st (pos - 1) true
      runScan s cFI rest (pos + 1) { st2 with runFirst := none, curPicked := false }
    else
      let stA := if st.runFirst.isNone then { st with runFirst := some pos } else st
      let stB := if cFI.getD f.l0Index false then { stA with curPicked := true } else stA
      runScan s cFI rest (pos + 1) stB

/-- The inclusion loop of `extendCandidateToRectangle` step 5.  The Go code
panics when a file of the chosen run is compacting (shown unreachable for
the runs `runScan` selects); the panic is modelled as an error. -/
def rectAddLoop (s : L0Sublevels α) :
    List Nat → L0CompactionFiles α → Nat → Except String (L0CompactionFiles α × Nat)
  | [], c, added => .ok (c, added)
  | j :: rest, c, added =>
    let f := fileAt s j
    if f.Compacting then .error "runtime: expected file to not be compacting"
    else if c.isIntraL0 ∧ f.LargestSeqNum ≥ c.earliestUnflushedSeqNum then
      rectAddLoop s rest c added
    else if c.FilesIncluded.getD f.l0Index false then rectAddLoop s rest c added
    else rectAddLoop s rest (addFile c f) (added + 1)

/-- The per-sublevel iteration of `extendCandidateToRectangle`. -/
def rectLevels (s : L0Sublevels α) :
    List Nat → Int → Int → L0CompactionFiles α → Nat →
      Except String (L0CompactionFiles α × Nat)
  | [], _minI, _maxI, c, added => .ok (c, added)
  | sl :: rest, minI, maxI, c, added =>
    let files := s.Levels.getD sl []
    let index := sortSearch files.length
      (fun i => decide (minI ≤ ((fileAt s (files.getD i 0)).maxIntervalIndex : Int)))
    match rectCollect s (files.drop index) index minI maxI none none with
    | (minI2, maxI2, fi, li) =>
      if minI2 > maxI2 then .ok (c, added)
      else
        match fi with
        | none => rectLevels s rest minI2 maxI2 c added
        | some firstIndex =>
          let lastIndex := li.getD firstIndex
          let slice := (files.take (lastIndex + 1)).drop firstIndex
          let st0 : RunState :=
            { runFirst := none, curPicked := false, candFirst := none,
              candLast := 0, candPicked := false }
          let st1 := runScan s c.FilesIncluded slice firstIndex st0
          let st2 := closeRun st1 lastIndex false
          match st2.candFirst with
          | none => .ok (c, added)
          | some candFirst =>
            let candLast := st2.candLast
            let minI3 :=
              if candFirst > firstIndex then
                ((fileAt s (files.getD (candFirst - 1) 0)).maxIntervalIndex : Int) + 1
              else minI2
            let maxI3 :=
              if candLast < lastIndex then
                ((fileAt s (files.getD (candLast + 1) 0)).minIntervalIndex : Int) - 1
              else maxI2
            let addSlice := (files.take (candLast + 1)).drop candFirst
            match rectAddLoop s addSlice c added with
            | .error e => .error e
            | .ok (c2, added2) => rectLevels s rest minI3 maxI3 c2 added2

/-- Embedding of `extendCandidateToRectangle`.  For base compactions the
sublevels are walked upward from 0 to `seedIntervalMaxLevel`; for intra-L0
compactions downward from the top sublevel to `seedIntervalMinLevel`.
Returns the updated candidate and whether any file was added. -/
def extendCandidateToRectangle (s : L0Sublevels α) (minIntervalIndex maxIntervalIndex : Nat)
    (candidate : L0CompactionFiles α) (isBase : Bool) :
    Except String (L0CompactionFiles α × Bool) :=
  let candidate2 := { candidate with
    preExtensionMinInterval := candidate.minIntervalIndex,
    preExtensionMaxInterval := candidate.maxIntervalIndex }
  let minI : Int :=
    if minIntervalIndex > candidate2.minIntervalIndex then (candidate2.minIntervalIndex : Int)
    else (minIntervalIndex : Int)
  let maxI : Int :=
    if maxIntervalIndex < candidate2.maxIntervalIndex then (candidate2.maxIntervalIndex : Int)
    else (maxIntervalIndex : Int)
  let levelSeq : List Nat :=
    if isBase then List.range (candidate2.seedIntervalMaxLevel + 1)
    else (List.range' candidate2.seedIntervalMinLevel
      (s.Levels.length - candidate2.seedIntervalMinLevel)).reverse
  match rectLevels s levelSeq minI maxI candidate2 0 with
  | .error e => .error e
  | .ok (c, added) => .ok (c, decide (added > 0))

/-- Last position of an arena index in an interval's file list, for the
descent-start search of `intraL0CompactionUsingSeed` (the Go loop scans
downward until pointer equality; a missing entry underflows the slice index,
modelled as an error). -/
def findLastIdx (l : List Nat) (x : Nat) : Option Nat :=
  match l.reverse.findIdx? (fun y => y == x) with
  | none => none
  | some k => some (l.length - 1 - k)

/-- The descent loop of `intraL0CompactionUsingSeed`, over the seed
interval's files from the seed position downward. -/
def intraDescendLoop (s : L0Sublevels α) (earliest : Nat) (minCompactionDepth : Int) :
    List Nat → L0CompactionFiles α → Option (L0CompactionFiles α) →
      Option (L0CompactionFiles α)
  | [], _c, lastCandidate => lastCandidate
  | j :: rest, c, lastCandidate =>
    let f2 := fileAt s j
    let sl := f2.subLevel
    if f2.Compacting then lastCandidate
    else
      let c1 := { c with
        seedIntervalStackDepthReduction := c.seedIntervalStackDepthReduction + 1,
        seedIntervalMinLevel := sl }
      let c2 := addFile c1 f2
      match extendLevelsSeq s earliest
          (List.range' (sl + 1) (s.Levels.length - (sl + 1))) c2 with
      | (false, _) => lastCandidate
      | (true, c3) =>
        match lastCandidate with
        | none => intraDescendLoop s earliest minCompactionDepth rest c3 (some c3)
        | some lc =>
          if growthStop minCompactionDepth lc c3 then some lc
          else intraDescendLoop s earliest minCompactionDepth rest c3 (some c3)

/-- Embedding of `intraL0CompactionUsingSeed`. -/
def intraL0CompactionUsingSeed (s : L0Sublevels α) (f : FileMetadata α)
    (intervalIndex : Nat) (earliestUnflushedSeqNum : Nat) (minCompactionDepth : Int) :
    Except String (Option (L0CompactionFiles α)) :=
  let c0 : L0CompactionFiles α :=
    { Files := [], FilesIncluded := List.replicate s.levelMetadata.length false,
      seedIntervalStackDepthReduction := 0, seedIntervalMinLevel := 0,
      seedIntervalMaxLevel := s.Levels.length - 1, seedInterval := intervalIndex,
      fileBytes := 0, minIntervalIndex := f.minIntervalIndex,
      maxIntervalIndex := f.maxIntervalIndex, isIntraL0 := true,
      earliestUnflushedSeqNum := earliestUnflushedSeqNum,
      preExtensionMinInterval := 0, preExtensionMaxInterval := 0, filesAdded := [] }
  let c1 := addFile c0 f
  let interval := intervalAt s intervalIndex
  match findLastIdx interval.files f.l0Index with
  | none => .error "runtime: invalid slice index in seed descent"
  | some slIndex =>
    match intraDescendLoop s earliestUnflushedSeqNum minCompactionDepth
        ((interval.files.take (slIndex + 1)).reverse) c1 none with
    | none => .ok none
    | some lc =>
      if lc.seedIntervalStackDepthReduction ≥ minCompactionDepth then
        let lc2 := rebuildIncluded lc
        match extendCandidateToRectangle s lc2.minIntervalIndex lc2.maxIntervalIndex
            lc2 false with
        | .error e => .error e
        | .ok (lc3, _) => .ok (some lc3)
      else .ok none

/-- The per-interval scores of `PickIntraL0Compaction`. -/
def intraScores (s : L0Sublevels α) (minCompactionDepth : Int) : List intervalAndScore :=
  s.orderedIntervals.enum.foldl
    (fun acc p =>
      let depth : Int := (p.2.fileCount : Int) - (p.2.compactingFileCount : Int)
      if minCompactionDepth > depth then acc
      else acc ++ [⟨p.1, depth⟩]) []

/-- The downward seed scan of `PickIntraL0Compaction`, over the interval's
files from the highest sublevel; returns the last examined file, the
remaining stack-depth-reduction budget and the updated considered set. -/
def intraSeedScan (s : L0Sublevels α) (earliest : Nat) :
    List Nat → Option (FileMetadata α) → Int → List Bool →
      Option (FileMetadata α) × Int × List Bool
  | [], fPrev, red, considered => (fPrev, red, considered)
  | j :: rest, _fPrev, red, considered =>
    let f := fileAt s j
    if f.Compacting then (some f, red, considered)
    else
      let considered2 := markRange considered f.minIntervalIndex (f.maxIntervalIndex + 1)
      if f.LargestSeqNum ≥ earliest then
        if red - 1 = 0 then (some f, red - 1, considered2)
        else intraSeedScan s earliest rest (some f) (red - 1) considered2
      else (some f, red, considered2)

/-- The scored-interval loop of `PickIntraL0Compaction`. -/
def pickIntraLoop (s : L0Sublevels α) (earliest : Nat) (minCompactionDepth : Int) :
    List intervalAndScore → List Bool → Except String (Option (L0CompactionFiles α))
  | [], _ => .ok none
  | si :: rest, considered =>
    let interval := intervalAt s si.interval
    if considered.getD interval.index false then
      pickIntraLoop s earliest minCompactionDepth rest considered
    else
      match intraSeedScan s earliest interval.files.reverse none si.score considered with
      | (fOpt, red, considered2) =>
        if red < minCompactionDepth then
          pickIntraLoop s earliest minCompactionDepth rest considered2
        else
          match fOpt with
          | none => .error "no seed file found in sublevel intervals"
          | some f =>
            if f.Compacting then
              pickIntraLoop s earliest minCompactionDepth rest considered2
            else
              match intraL0CompactionUsingSeed s f interval.index earliest
                  minCompactionDepth with
              | .error e => .error e
              | .ok none => pickIntraLoop s earliest minCompactionDepth rest considered2
              | .ok (some c) => .ok (some c)

/-- Embedding of `PickIntraL0Compaction`. -/
def PickIntraL0Compaction (s : L0Sublevels α) (earliestUnflushedSeqNum : Nat)
    (minCompactionDepth : Int) : Except String (Option (L0CompactionFiles α)) :=
  pickIntraLoop s earliestUnflushedSeqNum minCompactionDepth
    (sortScoredDec (intraScores s minCompactionDepth))
    (List.replicate s.orderedIntervals.length false)

/-- An internal key bound for `ExtendL0ForBaseCompactionTo`: `valid = false`
models the invalid (unbounded) internal key. -/
structure InternalKeyBound (α : Type) where
  valid : Bool
  key : α
  isSentinel : Bool
deriving DecidableEq, Repr

/-- Embedding of `ExtendL0ForBaseCompactionTo`. -/
def ExtendL0ForBaseCompactionTo (s : L0Sublevels α)
    (smallest largest : InternalKeyBound α) (candidate : L0CompactionFiles α) :
    Except String (L0CompactionFiles α × Bool) :=
  let firstIntervalIndex : Nat :=
    if smallest.valid then
      if smallest.isSentinel then
        sortSearch s.orderedIntervals.length
          (fun i => decide (cmpKey smallest.key ((intervalAt s i).startKey.key) ≤ 0))
      else
        sortSearch s.orderedIntervals.length
          (fun i => decide (cmpKey smallest.key ((intervalAt s i).startKey.key) < 0))
    else 0
  let lastIntervalIndex : Int :=
    if largest.valid then
      let r := sortSearch s.orderedIntervals.length
        (fun i => decide (cmpKey largest.key ((intervalAt s i).startKey.key) ≤ 0))
      (if r < s.orderedIntervals.length then (r : Int) - 1 else (r : Int)) - 1
    else (s.orderedIntervals.length : Int) - 1
  if lastIntervalIndex < (firstIntervalIndex : Int) then .ok (candidate, false)
  else extendCandidateToRectangle s firstIntervalIndex lastIntervalIndex.toNat candidate true

end Rectangle

section ModifyLemmas

theorem length_modifyAt {β : Type} (g : β → β) (i : Nat) (l : List β) :
    (modifyAt g i l).length = l.length := by
  induction l generalizing i with
  | nil => cases i <;> rfl
  | cons x xs ih =>
    cases i with
    | zero => rfl
    | succ n => simpa [modifyAt] using ih n

theorem map_modifyAt_eq {β γ : Type} (F : β → γ) (g : β → β) (i : Nat) (l : List β)
    (h : ∀ x, F (g x) = F x) : (modifyAt g i l).map F = l.map F := by
  induction l generalizing i with
  | nil => cases i <;> rfl
  | cons x xs ih =>
    cases i with
    | zero => simp [modifyAt, h]
    | succ n => simp [modifyAt, ih n]

theorem getD_modifyAt_self {β : Type} (g : β → β) {i : Nat} {l : List β} (h : i < l.length)
    (d : β) : (modifyAt g i l).getD i d = g (l.getD i d) := by
  induction l generalizing i with
  | nil => simp at h
  | cons x xs ih =>
    cases i with
    | zero => rfl
    | succ n =>
      simp only [modifyAt, List.getD_cons_succ]
      exact ih (by simpa using h)

theorem getD_modifyAt_ne {β : Type} (g : β → β) {i j : Nat} (l : List β) (h : j ≠ i)
    (d : β) : (modifyAt g i l).getD j d = l.getD j d := by
  induction l generalizing i j with
  | nil => cases i <;> rfl
  | cons x xs ih =>
    cases i with
    | zero =>
      cases j with
      | zero => exact absurd rfl h
      | succ m => rfl
    | succ n =>
      cases j with
      | zero => rfl
      | succ m =>
        simp only [modifyAt, List.getD_cons_succ]
        exact ih (by omega)

theorem foldl_proj_eq {β γ δ : Type} (proj : β → δ) (step : β → γ → β) (l : List γ)
    (init : β) (h : ∀ acc x, x ∈ l → proj (step acc x) = proj acc) :
    proj (l.foldl step init) = proj init := by
  induction l generalizing init with
  | nil => rfl
  | cons x xs ih =>
    rw [List.foldl_cons, ih]
    · exact h init x (List.mem_cons_self _ _)
    · intro acc y hy
      exact h acc y (List.mem_cons_of_mem _ hy)

end ModifyLemmas

section Structural

variable {α : Type} [LinearOrder α] [Inhabited α]

/-- The structural part of an interval: everything except the compacting
counters and flags. -/
def intervalStructure (iv : fileInterval α) :
    Nat × IntervalKey α × Nat × Nat × Nat × List Nat × Nat :=
  (iv.index, iv.startKey, iv.filesMinIntervalIndex, iv.filesMaxIntervalIndex,
    iv.fileCount, iv.files, iv.estimatedBytes)

/-- The structural state of the engine: sublevels, byte totals, the file
arena, flush split keys, and the structural part of every interval. -/
def structuralView (s : L0Sublevels α) :
    List (List Nat) × Nat × List (FileMetadata α) × List α ×
      List (Nat × IntervalKey α × Nat × Nat × Nat × List Nat × Nat) :=
  (s.Levels, s.fileBytes, s.levelMetadata, s.flushSplitUserKeys,
    s.orderedIntervals.map intervalStructure)

theorem initReset_structural (ivs : List (fileInterval α)) :
    (initReset ivs).map intervalStructure = ivs.map intervalStructure := by
  unfold initReset
  rw [List.map_map]
  rfl

theorem initPass1_structural (arena : List (FileMetadata α)) (ivs : List (fileInterval α)) :
    (initPass1 arena ivs).map intervalStructure = ivs.map intervalStructure := by
  unfold initPass1
  apply foldl_proj_eq (List.map intervalStructure)
  intro acc f _
  split
  · apply foldl_proj_eq (List.map intervalStructure)
    intro acc2 i _
    apply map_modifyAt_eq
    intro iv
    rfl
  · rfl

theorem initPass2_structural (inProgress : List (L0Compaction α))
    (ivs : List (fileInterval α)) :
    (initPass2 inProgress ivs).map intervalStructure = ivs.map intervalStructure := by
  unfold initPass2
  apply foldl_proj_eq (List.map intervalStructure)
  intro acc c _
  apply foldl_proj_eq (List.map intervalStructure)
  intro acc2 i _
  split
  · rfl
  · apply map_modifyAt_eq
    intro iv
    rfl

theorem initPass3_structural (ivs : List (fileInterval α)) :
    (initPass3 ivs).map intervalStructure = ivs.map intervalStructure := by
  unfold initPass3
  have h := foldl_proj_eq (fun acc : Nat × List (fileInterval α) =>
      acc.2.map intervalStructure)
    (fun acc i =>
      let iv := acc.2.getD i default
      if iv.isBaseCompacting then
        let minIndex := if iv.filesMinIntervalIndex < acc.1 then acc.1
          else iv.filesMinIntervalIndex
        (List.range' minIndex (iv.filesMaxIntervalIndex + 1 - minIndex)).foldl
          (fun acc2 j =>
            (j, modifyAt
              (fun iv2 => { iv2 with intervalRangeIsBaseCompacting := true }) j acc2.2))
          (acc.1, acc.2)
      else acc)
    (List.range ivs.length) (0, ivs) ?_
  · exact h
  · intro acc i _
    simp only []
    split
    · have h2 := foldl_proj_eq (fun acc : Nat × List (fileInterval α) =>
          acc.2.map intervalStructure)
        (fun acc2 j =>
          (j, modifyAt
            (fun iv2 => { iv2 with intervalRangeIsBaseCompacting := true }) j acc2.2))
        (List.range' (if (acc.2.getD i default).filesMinIntervalIndex < acc.1 then acc.1
          else (acc.2.getD i default).filesMinIntervalIndex)
          ((acc.2.getD i default).filesMaxIntervalIndex + 1 -
            (if (acc.2.getD i default).filesMinIntervalIndex < acc.1 then acc.1
              else (acc.2.getD i default).filesMinIntervalIndex)))
        (acc.1, acc.2) ?_
      · exact h2
      · intro acc2 j _
        simp only []
        apply map_modifyAt_eq
        intro iv
        rfl
    · rfl

theorem updateCounts_structural (inputs : List (List (FileMetadata α)))
    (ivs0 : List (fileInterval α)) :
    (updateCounts inputs ivs0).2.2.map intervalStructure = ivs0.map intervalStructure := by
  unfold updateCounts
  apply foldl_proj_eq (fun acc : Int × Nat × List (fileInterval α) =>
    acc.2.2.map intervalStructure)
  intro acc lvl _
  apply foldl_proj_eq (fun acc : Int × Nat × List (fileInterval α) =>
    acc.2.2.map intervalStructure)
  intro acc2 f _
  simp only []
  apply foldl_proj_eq (List.map intervalStructure)
  intro acc3 i _
  apply map_modifyAt_eq
  intro iv
  rfl

theorem updateMarkBase_structural (mn mx : Nat) (ivs : List (fileInterval α)) :
    (updateMarkBase mn mx ivs).map intervalStructure = ivs.map intervalStructure := by
  unfold updateMarkBase
  apply foldl_proj_eq (List.map intervalStructure)
  intro acc i _
  simp only []
  rw [foldl_proj_eq (List.map intervalStructure)]
  · apply map_modifyAt_eq
    intro iv
    rfl
  · intro acc2 j _
    apply map_modifyAt_eq
    intro iv
    rfl

end Structural

section ClaimsFrame

variable {α : Type} [LinearOrder α] [Inhabited α]

/-- C9: after construction, the engine's structural state — the sublevels,
the interval sequence (indices, start keys, file lists, file counts,
estimated bytes, file interval ranges), the arena, the byte total and the
flush split keys — is preserved by `InitCompactingFileInfo` and
`UpdateStateForStartedCompaction`; these two operations change only the
per-interval compacting counts and base-compacting flags.  The queries and
pickers of this embedding are pure functions of the state (the source
performs no writes to the engine in them), so these two are the only
state-changing operations. -/
theorem claimC9_structural_state_preserved (s : L0Sublevels α)
    (inProgress : List (L0Compaction α)) (inputs : List (List (FileMetadata α)))
    (isBase : Bool) :
    structuralView (InitCompactingFileInfo s inProgress) = structuralView s ∧
      structuralView (UpdateStateForStartedCompaction s inputs isBase) = structuralView s := by
  constructor
  · unfold structuralView InitCompactingFileInfo
    simp only []
    rw [initPass3_structural, initPass2_structural, initPass1_structural,
      initReset_structural]
  · have hs := updateCounts_structural inputs s.orderedIntervals
    unfold structuralView UpdateStateForStartedCompaction
    rcases hu : updateCounts inputs s.orderedIntervals with ⟨mn, mx, ivs⟩
    rw [hu] at hs
    simp only [] at hs
    cases isBase
    · simp only [Bool.false_eq_true, if_neg, Prod.mk.injEq]
      simpa using hs
    · simp only [if_pos, Prod.mk.injEq]
      simpa using (updateMarkBase_structural mn.toNat mx ivs).trans hs

/-- C10: adding a file that is already included in a candidate set leaves
the candidate completely unchanged — `Files`, `FilesIncluded`, `fileBytes`,
`minIntervalIndex` and `maxIntervalIndex` keep their values, so a file's
size is counted exactly once however often the growth and
rectangle-extension phases encounter it. -/
theorem claimC10_addFile_included_noop (c : L0CompactionFiles α) (f : FileMetadata α)
    (h : c.FilesIncluded.getD f.l0Index false = true) : addFile c f = c := by
  unfold addFile
  rw [if_pos h]

end ClaimsFrame

section RedPreservation

variable {α : Type} [LinearOrder α] [Inhabited α]

theorem addFile_red (c : L0CompactionFiles α) (f : FileMetadata α) :
    (addFile c f).seedIntervalStackDepthReduction = c.seedIntervalStackDepthReduction := by
  unfold addFile
  split <;> rfl

theorem rebuildIncluded_red (c : L0CompactionFiles α) :
    (rebuildIncluded c).seedIntervalStackDepthReduction =
      c.seedIntervalStackDepthReduction := rfl

theorem extendFilesLoop_red (s : L0Sublevels α) (q : Nat) (l : List Nat)
    (c : L0CompactionFiles α) :
    (extendFilesLoop s q l c).2.seedIntervalStackDepthReduction =
      c.seedIntervalStackDepthReduction := by
  induction l generalizing c with
  | nil => rfl
  | cons j rest ih =>
    unfold extendFilesLoop
    dsimp only
    split
    · rfl
    · split
      · rfl
      · split
        · exact ih c
        · rw [ih (addFile c (fileAt s j)), addFile_red]

theorem extendFiles_red (s : L0Sublevels α) (sl q : Nat) (c : L0CompactionFiles α) :
    (extendFiles s sl q c).2.seedIntervalStackDepthReduction =
      c.seedIntervalStackDepthReduction := by
  unfold extendFiles
  exact extendFilesLoop_red s q _ c

theorem extendLevelsSeq_red (s : L0Sublevels α) (q : Nat) (ls : List Nat)
    (c : L0CompactionFiles α) :
    (extendLevelsSeq s q ls c).2.seedIntervalStackDepthReduction =
      c.seedIntervalStackDepthReduction := by
  induction ls generalizing c with
  | nil => rfl
  | cons sl rest ih =>
    unfold extendLevelsSeq
    rcases h : extendFiles s sl q c with ⟨ok, c2⟩
    have h2 : c2.seedIntervalStackDepthReduction = c.seedIntervalStackDepthReduction := by
      have := extendFiles_red s sl q c
      rw [h] at this
      exact this
    cases ok
    · simpa using h2
    · simpa using (ih c2).trans h2

theorem rectAddLoop_red (s : L0Sublevels α) (l : List Nat) (c : L0CompactionFiles α)
    (a : Nat) {c2 : L0CompactionFiles α} {a2 : Nat}
    (h : rectAddLoop s l c a = .ok (c2, a2)) :
    c2.seedIntervalStackDepthReduction = c.seedIntervalStackDepthReduction := by
  induction l generalizing c a with
  | nil =>
    unfold rectAddLoop at h
    cases h
    rfl
  | cons j rest ih =>
    unfold rectAddLoop at h
    dsimp only at h
    split at h
    · cases h
    · split at h
      · exact ih c a h
      · split at h
        · exact ih c a h
        · rw [ih (addFile c (fileAt s j)) (a + 1) h, addFile_red]

theorem rectLevels_red (s : L0Sublevels α) (ls : List Nat) (minI maxI : Int)
    (c : L0CompactionFiles α) (a : Nat) {c2 : L0CompactionFiles α} {a2 : Nat}
    (h : rectLevels s ls minI maxI c a = .ok (c2, a2)) :
    c2.seedIntervalStackDepthReduction = c.seedIntervalStackDepthReduction := by
  induction ls generalizing minI maxI c a with
  | nil =>
    unfold rectLevels at h
    cases h
    rfl
  | cons sl rest ih =>
    unfold rectLevels at h
    dsimp only at h
    split at h
    · cases h
      rfl
    · split at h
      · exact ih _ _ c a h
      · split at h
        · cases h
          rfl
        · rename_i heq2
          split at h
          · cases h
          · rename_i cr ar heq3
            exact (ih _ _ cr ar h).trans (rectAddLoop_red s _ c a heq3)

theorem extendCandidateToRectangle_red (s : L0Sublevels α) (minI maxI : Nat)
    (c : L0CompactionFiles α) (isBase : Bool) {c2 : L0CompactionFiles α} {b : Bool}
    (h : extendCandidateToRectangle s minI maxI c isBase = .ok (c2, b)) :
    c2.seedIntervalStackDepthReduction = c.seedIntervalStackDepthReduction := by
  unfold extendCandidateToRectangle at h
  dsimp only at h
  split at h
  · cases h
  · rename_i cr ar heq
    cases h
    exact (rectLevels_red s _ _ _ _ 0 heq).trans rfl

theorem baseCompactionUsingSeed_red (s : L0Sublevels α) (f : FileMetadata α)
    (ii : Nat) (d : Int) {c : L0CompactionFiles α}
    (h : baseCompactionUsingSeed s f ii d = some c) :
    c.seedIntervalStackDepthReduction ≥ d := by
  unfold baseCompactionUsingSeed at h
  dsimp only at h
  split at h
  · cases h
  · rename_i lc heq
    split at h
    · cases h
      rename_i hge
      rw [rebuildIncluded_red]
      exact hge
    · cases h

theorem pickBaseLoop_red (s : L0Sublevels α) (d : Int) (bf : List (FileMetadata α))
    (l : List intervalAndScore) (cons : List Bool) {c : L0CompactionFiles α}
    (h : pickBaseLoop s d bf l cons = .ok (some c)) :
    c.seedIntervalStackDepthReduction ≥ d := by
  induction l generalizing cons with
  | nil =>
    unfold pickBaseLoop at h
    cases h
  | cons si rest ih =>
    unfold pickBaseLoop at h
    dsimp only at h
    split at h
    · exact ih _ h
    · split at h
      · cases h
      · split at h
        · split at h
          · exact ih _ h
          · cases h
        · split at h
          · exact ih _ h
          · rename_i cx heq
            split at h
            · exact ih _ h
            · cases h
              exact baseCompactionUsingSeed_red s _ _ d heq

theorem intraDescendLoop_red (s : L0Sublevels α) (e : Nat) (d : Int) (l : List Nat)
    (c : L0CompactionFiles α) (lastC : Option (L0CompactionFiles α)) :
    ∀ {r : L0CompactionFiles α},
      intraDescendLoop s e d l c lastC = some r →
      (some r = lastC ∨
        r.seedIntervalStackDepthReduction ≥ c.seedIntervalStackDepthReduction + 1 ∨
        (∃ lc, lastC = some lc ∧ r = lc)) := by
  induction l generalizing c lastC with
  | nil =>
    intro r h
    unfold intraDescendLoop at h
    exact Or.inl h.symm
  | cons j rest ih =>
    intro r h
    unfold intraDescendLoop at h
    dsimp only at h
    split at h
    · exact Or.inl h.symm
    · split at h
      · exact Or.inl h.symm
      · rename_i c3 heq
        have hc3 : c3.seedIntervalStackDepthReduction =
            c.seedIntervalStackDepthReduction + 1 := by
          have := extendLevelsSeq_red s e
            (List.range' ((fileAt s j).subLevel + 1)
              (s.Levels.length - ((fileAt s j).subLevel + 1)))
            (addFile { c with
              seedIntervalStackDepthReduction := c.seedIntervalStackDepthReduction + 1,
              seedIntervalMinLevel := (fileAt s j).subLevel } (fileAt s j))
          rw [heq] at this
          simp only [] at this
          rw [this, addFile_red]
        split at h
        · rcases ih c3 (some c3) h with h2 | h2 | h2
          · cases h2
            omega
          · right
            left
            omega
          · rcases h2 with ⟨lc, hlc, hr⟩
            cases hlc
            subst hr
            right
            left
            omega
        · split at h
          · cases h
            right
            right
            exact ⟨_, rfl, rfl⟩
          · rcases ih c3 (some c3) h with h2 | h2 | h2
            · cases h2
              right
              left
              omega
            · right
              left
              omega
            · rcases h2 with ⟨lc2, hlc2, hr⟩
              cases hlc2
              subst hr
              right
              left
              omega

theorem intraL0CompactionUsingSeed_red (s : L0Sublevels α) (f : FileMetadata α)
    (ii e : Nat) (d : Int) {c : L0CompactionFiles α}
    (h : intraL0CompactionUsingSeed s f ii e d = .ok (some c)) :
    c.seedIntervalStackDepthReduction ≥ d := by
  unfold intraL0CompactionUsingSeed at h
  dsimp only at h
  split at h
  · cases h
  · split at h
    · cases h
    · rename_i lc heq
      split at h
      · rename_i hge
        split at h
        · cases h
        · rename_i c3 b heq2
          cases h
          rw [extendCandidateToRectangle_red s _ _ _ false heq2, rebuildIncluded_red]
          exact hge
      · cases h

theorem pickIntraLoop_red (s : L0Sublevels α) (e : Nat) (d : Int)
    (l : List intervalAndScore) (cons : List Bool) {c : L0CompactionFiles α}
    (h : pickIntraLoop s e d l cons = .ok (some c)) :
    c.seedIntervalStackDepthReduction ≥ d := by
  induction l generalizing cons with
  | nil =>
    unfold pickIntraLoop at h
    cases h
  | cons si rest ih =>
    unfold pickIntraLoop at h
    dsimp only at h
    split at h
    · exact ih _ h
    · split at h
      · exact ih _ h
      · split at h
        · cases h
        · split at h
          · exact ih _ h
          · split at h
            · cases h
            · exact ih _ h
            · cases h
              exact intraL0CompactionUsingSeed_red s _ _ _ d (by assumption)

end RedPreservation

section ClaimC7

variable {α : Type} [LinearOrder α] [Inhabited α]

/-- C7: any candidate returned by `PickBaseCompaction` or
`PickIntraL0Compaction` has `seedIntervalStackDepthReduction` at least
`minCompactionDepth`; when no seed reaches that depth the pickers return
nothing (so a returned candidate is never shallower than requested). -/
theorem claimC7_stack_depth_reduction (s : L0Sublevels α) (minCompactionDepth : Int)
    (baseFiles : List (FileMetadata α)) (earliestUnflushedSeqNum : Nat)
    (cb ci : L0CompactionFiles α) :
    (PickBaseCompaction s minCompactionDepth baseFiles = .ok (some cb) →
      cb.seedIntervalStackDepthReduction ≥ minCompactionDepth) ∧
    (PickIntraL0Compaction s earliestUnflushedSeqNum minCompactionDepth = .ok (some ci) →
      ci.seedIntervalStackDepthReduction ≥ minCompactionDepth) :=
  ⟨fun h => pickBaseLoop_red s minCompactionDepth baseFiles _ _ h,
   fun h => pickIntraLoop_red s earliestUnflushedSeqNum minCompactionDepth _ _ h⟩

end ClaimC7

section Fixtures

/-- A concrete file record over `Nat` keys for witnesses and
counterexamples. -/
def wfile (sm lg sz seq : Nat) (comp intra : Bool) : FileMetadata Nat :=
  { Smallest := sm, Largest := lg, largestIsSentinel := false, Size := sz,
    SmallestSeqNum := seq, LargestSeqNum := seq, Compacting := comp,
    IsIntraL0Compacting := intra, l0Index := 0, minIntervalIndex := 0,
    maxIntervalIndex := 0, subLevel := 0 }

/-- The empty engine state over `Nat` keys. -/
def emptyState : L0Sublevels Nat :=
  { Levels := [], fileBytes := 0, levelMetadata := [], orderedIntervals := [],
    flushSplitUserKeys := [] }

/-- Extract a successfully constructed engine. -/
def okState (e : Except String (L0Sublevels Nat)) : L0Sublevels Nat :=
  match e with
  | .ok s => s
  | .error _ => emptyState

/-- The empty candidate over `Nat` keys. -/
def cZero : L0CompactionFiles Nat :=
  { Files := [], FilesIncluded := [], seedIntervalStackDepthReduction := 0,
    seedIntervalMinLevel := 0, seedIntervalMaxLevel := 0, seedInterval := 0,
    fileBytes := 0, minIntervalIndex := 0, maxIntervalIndex := 0, isIntraL0 := false,
    earliestUnflushedSeqNum := 0, preExtensionMinInterval := 0,
    preExtensionMaxInterval := 0, filesAdded := [] }

/-- Extract a returned candidate. -/
def okCand (e : Except String (Option (L0CompactionFiles Nat))) : L0CompactionFiles Nat :=
  match e with
  | .ok (some c) => c
  | _ => cZero

/-- Two clean stacked files over the same key range. -/
def stateTwoStacked : L0Sublevels Nat :=
  InitCompactingFileInfo
    (okState (NewL0Sublevels [wfile 1 2 10 1 false false, wfile 1 2 10 2 false false] 1000)) []

/-- Three stacked files with sequence numbers 5, 10 and 20. -/
def stateIntraSeq : L0Sublevels Nat :=
  InitCompactingFileInfo
    (okState (NewL0Sublevels
      [wfile 1 2 10 5 false false, wfile 1 2 10 10 false false,
       wfile 1 2 10 20 false false] 1000)) []

/-- The base candidate picked from `stateTwoStacked`. -/
def wBaseCand : L0CompactionFiles Nat := okCand (PickBaseCompaction stateTwoStacked 2 [])

/-- The intra-L0 candidate picked from `stateIntraSeq` with the unflushed
barrier at 15. -/
def wIntraCand : L0CompactionFiles Nat := okCand (PickIntraL0Compaction stateIntraSeq 15 2)

end Fixtures

/-- Witness for C7: both pickers produce a concrete candidate here, and the
theorem yields the stack-depth bound for each. -/
theorem claimC7_stack_depth_reduction_witness :
    PickBaseCompaction stateTwoStacked 2 [] = .ok (some wBaseCand) ∧
      wBaseCand.seedIntervalStackDepthReduction ≥ 2 ∧
      PickIntraL0Compaction stateIntraSeq 15 2 = .ok (some wIntraCand) ∧
      wIntraCand.seedIntervalStackDepthReduction ≥ 2 :=
  ⟨rfl,
   (claimC7_stack_depth_reduction stateTwoStacked 2 [] 15 wBaseCand cZero).1 rfl,
   rfl,
   (claimC7_stack_depth_reduction stateIntraSeq 2 [] 15 cZero wIntraCand).2 rfl⟩

/-- Concrete candidate for the C10 witness: its only file is already
included. -/
def c10Cand : L0CompactionFiles Nat :=
  { Files := [wfile 1 2 7 1 false false], FilesIncluded := [true],
    seedIntervalStackDepthReduction := 1, seedIntervalMinLevel := 0,
    seedIntervalMaxLevel := 0, seedInterval := 0, fileBytes := 7,
    minIntervalIndex := 0, maxIntervalIndex := 0, isIntraL0 := false,
    earliestUnflushedSeqNum := 0, preExtensionMinInterval := 0,
    preExtensionMaxInterval := 0, filesAdded := [] }

/-- Witness for C10 at a concrete candidate and file. -/
theorem claimC10_addFile_included_noop_witness :
    c10Cand.FilesIncluded.getD (wfile 1 2 7 1 false false).l0Index false = true ∧
      addFile c10Cand (wfile 1 2 7 1 false false) = c10Cand :=
  ⟨rfl, claimC10_addFile_included_noop c10Cand (wfile 1 2 7 1 false false) rfl⟩

section FlushSplit

variable {α : Type} [LinearOrder α] [Inhabited α]

theorem ikLt_three {a b c : IntervalKey α} (h1 : ikLt a b) (h2 : ikLt b c)
    (h : c.key = a.key) : False := by
  have hab : a.key ≤ b.key := by
    rcases h1 with h1 | ⟨h1, _, _⟩
    · exact le_of_lt h1
    · exact le_of_eq h1
  have hbc : b.key ≤ c.key := by
    rcases h2 with h2 | ⟨h2, _, _⟩
    · exact le_of_lt h2
    · exact le_of_eq h2
  have hba : b.key ≤ a.key := h ▸ hbc
  have heq : a.key = b.key := le_antisymm hab hba
  rcases h1 with h1 | ⟨_, h1a, h1b⟩
  · rw [heq] at h1
    exact lt_irrefl _ h1
  · rcases h2 with h2 | ⟨_, h2a, h2b⟩
    · rw [h, heq] at h2
      exact lt_irrefl _ h2
    · rw [h1b] at h2a
      cases h2a

/-- The central bound on the flush-split walk: with a positive threshold and
every interval contributing at most half the threshold, every recorded
segment stays within twice the threshold. -/
theorem flushSplitWalk_bound (T : Int) (hT : 0 < T) :
    ∀ (rest : List (fileInterval α)) (cum : Nat) (ks : List α) (segs : List Nat),
    (∀ iv ∈ rest, 2 * iv.estimatedBytes ≤ T.toNat) →
    List.Pairwise ikLt (rest.map (fun iv => iv.startKey)) →
    (∀ seg ∈ segs, seg ≤ 2 * T.toNat) →
    ((cum ≤ T.toNat ∧
        (∀ k, ks.getLast? = some k → ∀ iv ∈ rest.drop 1, iv.startKey.key ≠ k)) ∨
      (T.toNat < cum ∧ cum ≤ 2 * T.toNat ∧
        (∀ k, ks.getLast? = some k → ∀ iv ∈ rest, iv.startKey.key ≠ k))) →
    ∀ seg ∈ (flushSplitWalk T rest cum ks segs).2, seg ≤ 2 * T.toNat := by
  intro rest
  induction rest with
  | nil =>
    intro cum ks segs _hb _hsort hsegs hinv seg hseg
    unfold flushSplitWalk at hseg
    rcases List.mem_append.mp hseg with h | h
    · exact hsegs seg h
    · have hc : seg = cum := by simpa using h
      subst hc
      rcases hinv with ⟨h1, _⟩ | ⟨_, h2, _⟩
      · omega
      · exact h2
  | cons iv rest ih =>
    intro cum ks segs hb hsort hsegs hinv seg hseg
    have hbiv : 2 * iv.estimatedBytes ≤ T.toNat := hb iv (List.mem_cons_self _ _)
    have hbrest : ∀ iv2 ∈ rest, 2 * iv2.estimatedBytes ≤ T.toNat :=
      fun iv2 h2 => hb iv2 (List.mem_cons_of_mem _ h2)
    have hsort2 : List.Pairwise ikLt (rest.map (fun iv => iv.startKey)) := by
      rw [List.map_cons] at hsort
      exact (List.pairwise_cons.mp hsort).2
    have hheadlt : ∀ iv2 ∈ rest, ikLt iv.startKey iv2.startKey := by
      intro iv2 h2
      rw [List.map_cons] at hsort
      exact (List.pairwise_cons.mp hsort).1 _ (List.mem_map_of_mem _ h2)
    unfold flushSplitWalk at hseg
    split at hseg
    · -- a split fires at this interval
      rename_i hg
      obtain ⟨hg1, hg2, hg3⟩ := hg
      have hcum2 : cum ≤ 2 * T.toNat := by
        rcases hinv with ⟨h1, _⟩ | ⟨_, h2, _⟩
        · omega
        · exact h2
      refine ih (0 + iv.estimatedBytes) (ks ++ [iv.startKey.key]) (segs ++ [cum])
        hbrest hsort2 ?_ ?_ seg hseg
      · intro sg hsg
        rcases List.mem_append.mp hsg with h | h
        · exact hsegs sg h
        · have : sg = cum := by simpa using h
          subst this
          exact hcum2
      · left
        constructor
        · omega
        · intro k hk iv2 hiv2
          have hk2 : iv.startKey.key = k := by
            rw [List.getLast?_append] at hk
            simpa using hk
          subst hk2
          have hiv2r : iv2 ∈ rest := List.drop_subset _ _ hiv2
          rcases rest with _ | ⟨h0, rtail⟩
          · simp at hiv2
          · have hlt1 : ikLt iv.startKey h0.startKey :=
              hheadlt h0 (List.mem_cons_self _ _)
            have hiv2t : iv2 ∈ rtail := by simpa using hiv2
            have hlt2 : ikLt h0.startKey iv2.startKey := by
              rw [List.map_cons] at hsort2
              exact (List.pairwise_cons.mp hsort2).1 _ (List.mem_map_of_mem _ hiv2t)
            intro hkeq
            exact ikLt_three hlt1 hlt2 hkeq
    · -- no split at this interval
      rename_i hg
      rcases hinv with ⟨h1, h2⟩ | ⟨h1, h2, h3⟩
      · -- accumulator was within the threshold
        refine ih (cum + iv.estimatedBytes) ks segs hbrest hsort2 hsegs ?_ seg hseg
        by_cases hc : cum + iv.estimatedBytes ≤ T.toNat
        · left
          refine ⟨hc, ?_⟩
          intro k hk iv2 hiv2
          exact h2 k hk iv2 (List.drop_subset _ _ hiv2)
        · right
          refine ⟨by omega, by omega, ?_⟩
          intro k hk iv2 hiv2
          exact h2 k hk iv2 hiv2
      · -- accumulator above the threshold: the guard must have been blocked
        exfalso
        apply hg
        refine ⟨hT, h1, ?_⟩
        cases hks : ks.getLast? with
        | none =>
          left
          cases ks with
          | nil => rfl
          | cons a as => simp [List.getLast?_concat] at hks
        | some k =>
          right
          intro hkeq
          have hkk : k = iv.startKey.key := by
            injection hkeq
          exact h3 k hks iv (List.mem_cons_self _ _) hkk.symm

end FlushSplit

section ConstructionKeys

variable {α : Type} [LinearOrder α] [Inhabited α]

theorem map_getD_range {β : Type} (l : List β) (d : β) :
    (List.range l.length).map (fun i => l.getD i d) = l := by
  induction l with
  | nil => rfl
  | cons x xs ih =>
    rw [List.length_cons, List.range_succ_eq_map, List.map_cons, List.map_map]
    have h2 : ((fun i => (x :: xs).getD i d) ∘ Nat.succ) = fun i => xs.getD i d := by
      funext i
      rfl
    rw [h2, ih]
    rfl

theorem addFileToState_startKeys (keys : List (IntervalKey α)) (st : L0Sublevels α)
    (f0 : FileMetadata α) (i : Nat) {st2 : L0Sublevels α}
    (h : addFileToState keys st f0 i = .ok st2) :
    st2.orderedIntervals.map (fun iv => iv.startKey) =
      st.orderedIntervals.map (fun iv => iv.startKey) := by
  have h1 : ∀ (a b c : Nat) (sp : List Nat) (ivs : List (fileInterval α)),
      (sp.foldl (fun ivs2 k => modifyAt (intervalAddCounts a b c) k ivs2) ivs).map
        (fun iv => iv.startKey) = ivs.map (fun iv => iv.startKey) := by
    intro a b c sp ivs
    apply foldl_proj_eq
    intro acc k _
    apply map_modifyAt_eq
    intro iv
    rfl
  have h2 : ∀ (sp : List Nat) (ivs : List (fileInterval α)),
      (sp.foldl (fun ivs2 k =>
          modifyAt (fun iv => { iv with files := iv.files ++ [i] }) k ivs2) ivs).map
        (fun iv => iv.startKey) = ivs.map (fun iv => iv.startKey) := by
    intro sp ivs
    apply foldl_proj_eq
    intro acc k _
    apply map_modifyAt_eq
    intro iv
    rfl
  unfold addFileToState at h
  split at h
  · cases h
  · dsimp only at h
    split at h
    · cases h
    · cases h
      dsimp only
      rw [h2, h1]

theorem buildFiles_startKeys (keys : List (IntervalKey α)) (st : L0Sublevels α)
    (files : List (FileMetadata α)) (i : Nat) {st2 : L0Sublevels α}
    (h : buildFiles keys st files i = .ok st2) :
    st2.orderedIntervals.map (fun iv => iv.startKey) =
      st.orderedIntervals.map (fun iv => iv.startKey) := by
  induction files generalizing st i with
  | nil =>
    unfold buildFiles at h
    cases h
    rfl
  | cons f rest ih =>
    unfold buildFiles at h
    split at h
    · cases h
    · rename_i stm heq
      exact (ih stm (i + 1) h).trans (addFileToState_startKeys keys st f i heq)

/-- The interval start keys of a constructed engine are exactly the sorted,
deduplicated file boundary keys. -/
theorem NewL0Sublevels_startKeys (files : List (FileMetadata α)) (maxBytes : Int)
    {s : L0Sublevels α} (h : NewL0Sublevels files maxBytes = .ok s) :
    s.orderedIntervals.map (fun iv => iv.startKey) =
      sortAndDedup (files.flatMap (fun f => [startIK f, endIK f])) := by
  unfold NewL0Sublevels at h
  dsimp only at h
  split at h
  · cases h
  · rename_i st heq
    cases h
    dsimp only
    rw [buildFiles_startKeys _ _ _ _ heq]
    dsimp only
    rw [List.map_map]
    have h2 : ((fun iv : fileInterval α => iv.startKey) ∘ fun i =>
        ({ index := i,
           startKey := (sortAndDedup (files.flatMap (fun f => [startIK f, endIK f]))).getD i
             default,
           isBaseCompacting := false, filesMinIntervalIndex := i,
           filesMaxIntervalIndex := i, intervalRangeIsBaseCompacting := false,
           fileCount := 0, compactingFileCount := 0, files := [],
           estimatedBytes := 0 } : fileInterval α)) = fun i =>
        (sortAndDedup (files.flatMap (fun f => [startIK f, endIK f]))).getD i default := rfl
    rw [h2]
    exact map_getD_range _ _

theorem NewL0Sublevels_startKeys_sorted (files : List (FileMetadata α)) (maxBytes : Int)
    {s : L0Sublevels α} (h : NewL0Sublevels files maxBytes = .ok s) :
    List.Pairwise ikLt (s.orderedIntervals.map (fun iv => iv.startKey)) := by
  rw [NewL0Sublevels_startKeys files maxBytes h]
  exact sortAndDedup_pairwise _

end ConstructionKeys

section ClaimC5

variable {α : Type} [LinearOrder α] [Inhabited α]

/-- The three spaced files of the C5 counterexample. -/
def c5Files : List (FileMetadata Nat) :=
  [wfile 0 1 10 1 false false, wfile 2 3 10 2 false false, wfile 4 5 10 3 false false]

/-- The engine constructed from `c5Files` with `flushSplitMaxBytes = 1`. -/
def c5State : L0Sublevels Nat := okState (NewL0Sublevels c5Files 1)

/-- C5 counterexample: with `flushSplitMaxBytes = 1 > 0` and one sublevel,
the effective threshold is 1, so the claimed bound is `2`; yet the
accumulated `estimatedBytes` between consecutive flush split keys reaches
`10` (segment of the walk), and likewise the interval strictly between the
split keys `1` and `3` alone carries `10` estimated bytes. -/
theorem claimC5_counterexample :
    NewL0Sublevels c5Files 1 = .ok c5State ∧
      c5State.Levels.length = 1 ∧
      c5State.flushSplitUserKeys = [1, 3, 5] ∧
      (10 : Nat) ∈ flushSplitSegments c5State (1 * (c5State.Levels.length : Int)) ∧
      ((c5State.orderedIntervals.filter
          (fun iv => decide (1 < iv.startKey.key) && decide (iv.startKey.key < 3))).map
        (fun iv => iv.estimatedBytes)).sum = 10 ∧
      ¬ (10 ≤ 2 * (1 * c5State.Levels.length)) :=
  ⟨rfl, by decide, by decide, by decide, by decide, by decide⟩

/-- C5, amended: the flush-split threshold bound holds under the additional
hypothesis, forced by the counterexample, that each interval's
`estimatedBytes` is at most half the effective threshold
`flushSplitMaxBytes × numSublevels`; the accumulated bytes of every
inter-split segment (including the leading and trailing ones) then never
exceed twice the effective threshold. -/
theorem claimC5_flush_split_threshold (files : List (FileMetadata α))
    (flushSplitMaxBytes : Int) (s : L0Sublevels α)
    (h : NewL0Sublevels files flushSplitMaxBytes = .ok s)
    (hTpos : 0 < flushSplitMaxBytes * (s.Levels.length : Int))
    (hb : ∀ iv ∈ s.orderedIntervals,
      2 * iv.estimatedBytes ≤ (flushSplitMaxBytes * (s.Levels.length : Int)).toNat) :
    ∀ seg ∈ flushSplitSegments s (flushSplitMaxBytes * (s.Levels.length : Int)),
      seg ≤ 2 * (flushSplitMaxBytes * (s.Levels.length : Int)).toNat := by
  unfold flushSplitSegments
  apply flushSplitWalk_bound _ hTpos s.orderedIntervals 0 [] [] hb
    (NewL0Sublevels_startKeys_sorted files flushSplitMaxBytes h)
  · intro seg hseg
    simp at hseg
  · left
    refine ⟨Nat.zero_le _, ?_⟩
    intro k hk
    simp at hk

/-- The single-file engine of the C5 witness. -/
def wc5State : L0Sublevels Nat := okState (NewL0Sublevels [wfile 0 1 4 1 false false] 100)

/-- Witness for the amended C5 at a concrete engine. -/
theorem claimC5_flush_split_threshold_witness :
    NewL0Sublevels [wfile 0 1 4 1 false false] 100 = .ok wc5State ∧
      (0 : Int) < 100 * (wc5State.Levels.length : Int) ∧
      (∀ iv ∈ wc5State.orderedIntervals,
        2 * iv.estimatedBytes ≤ ((100 : Int) * (wc5State.Levels.length : Int)).toNat) ∧
      ∀ seg ∈ flushSplitSegments wc5State (100 * (wc5State.Levels.length : Int)),
        seg ≤ 2 * ((100 : Int) * (wc5State.Levels.length : Int)).toNat :=
  ⟨rfl, by decide, by decide,
   claimC5_flush_split_threshold [wfile 0 1 4 1 false false] 100 wc5State rfl
     (by decide) (by decide)⟩

end ClaimC5

section WFListLemmas

theorem chain'_pairwise_of_trans {β : Type} {r : β → β → Prop}
    (tr : ∀ a b c, r a b → r b c → r a c) {l : List β}
    (h : List.Chain' r l) : List.Pairwise r l := by
  haveI : IsTrans β r := ⟨fun a b c => tr a b c⟩
  exact List.chain'_iff_pairwise.mp h

theorem pairwise_getLast_le {β : Type} {r : β → β → Prop} {l : List β}
    (h : List.Pairwise r l) {x : β} (hx : l.getLast? = some x) :
    ∀ a ∈ l, a = x ∨ r a x := by
  induction l with
  | nil => simp at hx
  | cons y ys ih =>
    intro a ha
    cases ys with
    | nil =>
      simp at hx ha
      subst hx
      subst ha
      exact Or.inl rfl
    | cons z zs =>
      have hx2 : (z :: zs).getLast? = some x := by
        rw [List.getLast?_cons_cons] at hx
        exact hx
      rcases List.mem_cons.mp ha with ha2 | ha2
      · subst ha2
        right
        have hxmem : x ∈ z :: zs := by
          have := List.getLast?_eq_getElem? (z :: zs)
          rw [this] at hx2
          rcases List.getElem?_eq_some_iff.mp hx2 with ⟨hlt, hget⟩
          exact hget ▸ List.getElem_mem _
        exact (List.pairwise_cons.mp h).1 x hxmem
      · exact ih (List.pairwise_cons.mp h).2 hx2 a ha2

theorem foldl_modifyAt_getD_notmem {β : Type} (g : β → β) (sp : List Nat)
    (ivs : List β) (i : Nat) (hni : i ∉ sp) (d : β) :
    (sp.foldl (fun acc k => modifyAt g k acc) ivs).getD i d = ivs.getD i d := by
  induction sp generalizing ivs with
  | nil => rfl
  | cons k rest ih =>
    rw [List.foldl_cons, ih _ (fun h => hni (List.mem_cons_of_mem _ h))]
    refine getD_modifyAt_ne g _ ?_ d
    intro h
    subst h
    exact hni (List.mem_cons_self _ _)

theorem foldl_modifyAt_getD_mem {β : Type} (g : β → β) (sp : List Nat)
    (ivs : List β) (i : Nat) (hnd : sp.Nodup) (hi : i ∈ sp) (hlen : i < ivs.length)
    (d : β) :
    (sp.foldl (fun acc k => modifyAt g k acc) ivs).getD i d = g (ivs.getD i d) := by
  induction sp generalizing ivs with
  | nil => simp at hi
  | cons k rest ih =>
    rw [List.foldl_cons]
    rcases List.mem_cons.mp hi with h2 | h2
    · subst h2
      have hnotin : i ∉ rest := (List.nodup_cons.mp hnd).1
      rw [foldl_modifyAt_getD_notmem g rest _ i hnotin d]
      exact getD_modifyAt_self g hlen d
    · rw [ih _ (List.nodup_cons.mp hnd).2 h2 (by rw [length_modifyAt]; exact hlen)]
      refine congrArg g (getD_modifyAt_ne g _ ?_ d)
      intro h
      subst h
      exact (List.nodup_cons.mp hnd).1 h2

theorem foldl_modifyAt_length {β : Type} (g : β → β) (sp : List Nat) (ivs : List β) :
    (sp.foldl (fun acc k => modifyAt g k acc) ivs).length = ivs.length := by
  induction sp generalizing ivs with
  | nil => rfl
  | cons k rest ih =>
    rw [List.foldl_cons, ih, length_modifyAt]

theorem mem_spanList {a b i : Nat} : i ∈ spanList a b ↔ a ≤ i ∧ i ≤ b := by
  unfold spanList
  rw [List.mem_range']
  constructor
  · rintro ⟨q, hq, rfl⟩
    omega
  · intro ⟨h1, h2⟩
    exact ⟨i - a, by omega, by omega⟩

theorem spanList_nodup (a b : Nat) : (spanList a b).Nodup := by
  unfold spanList
  exact List.nodup_range' _ _

end WFListLemmas

section WFDef

variable {α : Type} [LinearOrder α] [Inhabited α]

/-- Overlap of the interval spans of two files. -/
def spansOverlap (f g : FileMetadata α) : Prop :=
  f.minIntervalIndex ≤ g.maxIntervalIndex ∧ g.minIntervalIndex ≤ f.maxIntervalIndex

/-- The well-formedness invariants established by `NewL0Sublevels` over
valid inputs, consumed by the claims about the pickers and queries. -/
structure WF (s : L0Sublevels α) : Prop where
  arenaIdx : ∀ j < s.levelMetadata.length, (fileAt s j).l0Index = j
  spanValid : ∀ j < s.levelMetadata.length,
    (fileAt s j).minIntervalIndex ≤ (fileAt s j).maxIntervalIndex
  spanBound : ∀ j < s.levelMetadata.length,
    (fileAt s j).maxIntervalIndex + 1 < s.orderedIntervals.length
  subLevelBound : ∀ j < s.levelMetadata.length, (fileAt s j).subLevel < s.Levels.length
  coverage : ∀ j < s.levelMetadata.length, ∀ i, (fileAt s j).minIntervalIndex ≤ i →
    i ≤ (fileAt s j).maxIntervalIndex → j ∈ (intervalAt s i).files
  inLevel : ∀ j < s.levelMetadata.length, j ∈ s.Levels.getD (fileAt s j).subLevel []
  startKeyMin : ∀ j < s.levelMetadata.length,
    (intervalAt s (fileAt s j).minIntervalIndex).startKey = startIK (fileAt s j)
  startKeyMax : ∀ j < s.levelMetadata.length,
    (intervalAt s ((fileAt s j).maxIntervalIndex + 1)).startKey = endIK (fileAt s j)
  ivIndex : ∀ i < s.orderedIntervals.length, (intervalAt s i).index = i
  ivCount : ∀ i < s.orderedIntervals.length,
    (intervalAt s i).fileCount = (intervalAt s i).files.length
  ivMembers : ∀ i < s.orderedIntervals.length, ∀ j ∈ (intervalAt s i).files,
    j < s.levelMetadata.length ∧ (fileAt s j).minIntervalIndex ≤ i ∧
      i ≤ (fileAt s j).maxIntervalIndex
  ivChain : ∀ i < s.orderedIntervals.length,
    List.Chain' (fun a b => a < b ∧ (fileAt s a).subLevel < (fileAt s b).subLevel)
      (intervalAt s i).files
  lvlMembers : ∀ sl < s.Levels.length, ∀ j ∈ s.Levels.getD sl [],
    j < s.levelMetadata.length ∧ (fileAt s j).subLevel = sl
  lvlChain : ∀ sl < s.Levels.length,
    List.Chain' (fun a b => (fileAt s a).maxIntervalIndex < (fileAt s b).minIntervalIndex)
      (s.Levels.getD sl [])
  keysSorted : List.Pairwise ikLt (s.orderedIntervals.map (fun iv => iv.startKey))
  prevLevel : ∀ j < s.levelMetadata.length, 0 < (fileAt s j).subLevel →
    ∃ j2, j2 < s.levelMetadata.length ∧
      (fileAt s j2).subLevel = (fileAt s j).subLevel - 1 ∧
      spansOverlap (fileAt s j) (fileAt s j2)

/-- Input validity: each file's start boundary key precedes its end boundary
key (spec invariant: smallest ≤ largest, strictly when the largest is the
range-delete sentinel). -/
def ValidInput (files : List (FileMetadata α)) : Prop :=
  ∀ f ∈ files, ikLt (startIK f) (endIK f)

end WFDef

section ComputeSubLevelLemmas

variable {α : Type} [LinearOrder α] [Inhabited α]

/-- The loop body of `computeSubLevel`. -/
def cslStep (s : L0Sublevels α) (sub i : Nat) : Nat :=
  match (intervalAt s i).files.getLast? with
  | none => sub
  | some j => if sub ≤ (fileAt s j).subLevel then (fileAt s j).subLevel + 1 else sub

theorem computeSubLevel_eq_foldl (s : L0Sublevels α) (minI maxI : Nat) :
    computeSubLevel s minI maxI = (spanList minI maxI).foldl (cslStep s) 0 := rfl

theorem cslStep_ge (s : L0Sublevels α) (sub i : Nat) : sub ≤ cslStep s sub i := by
  unfold cslStep
  split
  · exact le_refl _
  · split <;> omega

theorem csl_foldl_ge (s : L0Sublevels α) (l : List Nat) (init : Nat) :
    init ≤ l.foldl (cslStep s) init := by
  induction l generalizing init with
  | nil => exact le_refl _
  | cons i rest ih =>
    rw [List.foldl_cons]
    exact le_trans (cslStep_ge s init i) (ih _)

theorem cslStep_some (s : L0Sublevels α) (sub i j : Nat)
    (hj : (intervalAt s i).files.getLast? = some j) :
    cslStep s sub i =
      if sub ≤ (fileAt s j).subLevel then (fileAt s j).subLevel + 1 else sub := by
  unfold cslStep
  rw [hj]

theorem csl_foldl_gt (s : L0Sublevels α) (l : List Nat) (init : Nat) :
    ∀ i ∈ l, ∀ j, (intervalAt s i).files.getLast? = some j →
      (fileAt s j).subLevel < l.foldl (cslStep s) init := by
  induction l generalizing init with
  | nil => simp
  | cons i0 rest ih =>
    intro i hi j hj
    rw [List.foldl_cons]
    rcases List.mem_cons.mp hi with h2 | h2
    · subst h2
      have hstep : (fileAt s j).subLevel < cslStep s init i := by
        rw [cslStep_some s init i j hj]
        split <;> omega
      exact lt_of_lt_of_le hstep (csl_foldl_ge s rest _)
    · exact ih _ i h2 j hj

theorem csl_foldl_achieve (s : L0Sublevels α) (l : List Nat) (init : Nat) :
    l.foldl (cslStep s) init = init ∨
      ∃ i ∈ l, ∃ j, (intervalAt s i).files.getLast? = some j ∧
        l.foldl (cslStep s) init = (fileAt s j).subLevel + 1 := by
  induction l generalizing init with
  | nil => exact Or.inl rfl
  | cons i0 rest ih =>
    rw [List.foldl_cons]
    have hstep : cslStep s init i0 = init ∨
        ∃ j, (intervalAt s i0).files.getLast? = some j ∧
          cslStep s init i0 = (fileAt s j).subLevel + 1 := by
      unfold cslStep
      split
      · exact Or.inl rfl
      · rename_i j hj
        split
        · exact Or.inr ⟨j, hj, rfl⟩
        · exact Or.inl rfl
    rcases ih (cslStep s init i0) with h2 | h2
    · rw [h2]
      rcases hstep with h3 | ⟨j, hj, h3⟩
      · exact Or.inl h3
      · exact Or.inr ⟨i0, List.mem_cons_self _ _, j, hj, h3⟩
    · rcases h2 with ⟨i, hi, j, hj, h3⟩
      exact Or.inr ⟨i, List.mem_cons_of_mem _ hi, j, hj, h3⟩

/-- P1: every file of every interval in the span sits strictly below the
computed sublevel. -/
theorem computeSubLevel_above (s : L0Sublevels α) (hwf : WF s) (minI maxI : Nat)
    (hmax : maxI < s.orderedIntervals.length) :
    ∀ i, minI ≤ i → i ≤ maxI → ∀ j ∈ (intervalAt s i).files,
      (fileAt s j).subLevel < computeSubLevel s minI maxI := by
  intro i h1 h2 j hj
  have hne : (intervalAt s i).files ≠ [] := List.ne_nil_of_mem hj
  have hjl : (intervalAt s i).files.getLast? =
      some ((intervalAt s i).files.getLast hne) := List.getLast?_eq_getLast _ hne
  have hchain := hwf.ivChain i (by omega)
  have hpw := chain'_pairwise_of_trans
    (fun a b c hab hbc => ⟨lt_trans hab.1 hbc.1, lt_trans hab.2 hbc.2⟩) hchain
  have hle := pairwise_getLast_le hpw hjl j hj
  have hl : (fileAt s j).subLevel ≤
      (fileAt s ((intervalAt s i).files.getLast hne)).subLevel := by
    rcases hle with h3 | h3
    · rw [h3]
    · exact le_of_lt h3.2
  rw [computeSubLevel_eq_foldl]
  have := csl_foldl_gt s (spanList minI maxI) 0 i (mem_spanList.mpr ⟨h1, h2⟩)
    ((intervalAt s i).files.getLast hne) hjl
  omega

/-- P2: a positive computed sublevel is witnessed by a file one level below
in some interval of the span. -/
theorem computeSubLevel_achieved (s : L0Sublevels α) (minI maxI : Nat)
    (hpos : 0 < computeSubLevel s minI maxI) :
    ∃ i, minI ≤ i ∧ i ≤ maxI ∧ ∃ j, j ∈ (intervalAt s i).files ∧
      (fileAt s j).subLevel = computeSubLevel s minI maxI - 1 := by
  rw [computeSubLevel_eq_foldl] at hpos ⊢
  rcases csl_foldl_achieve s (spanList minI maxI) 0 with h | ⟨i, hi, j, hj, h3⟩
  · omega
  · obtain ⟨h1, h2⟩ := mem_spanList.mp hi
    have hjm : j ∈ (intervalAt s i).files := by
      have hne : (intervalAt s i).files ≠ [] := by
        intro he
        rw [he] at hj
        simp at hj
      have := List.getLast?_eq_getLast _ hne
      rw [this] at hj
      have hj2 : (intervalAt s i).files.getLast hne = j := by injection hj
      rw [← hj2]
      exact List.getLast_mem hne
    exact ⟨i, h1, h2, j, hjm, by omega⟩

end ComputeSubLevelLemmas

section InsertLemmas

variable {α : Type} [LinearOrder α] [Inhabited α]

theorem sortSearch_go_shift (p : Nat → Bool) (start fuel : Nat) :
    sortSearch.go p (start + 1) fuel = sortSearch.go (fun i => p (i + 1)) start fuel + 1 := by
  induction fuel generalizing start with
  | zero => rfl
  | succ k ih =>
    simp only [sortSearch.go]
    dsimp only
    split
    · rfl
    · exact ih (start + 1)

theorem sortSearch_succ (n : Nat) (p : Nat → Bool) :
    sortSearch (n + 1) p = if p 0 then 0 else sortSearch n (fun i => p (i + 1)) + 1 := by
  unfold sortSearch
  simp only [sortSearch.go]
  split
  · rfl
  · exact sortSearch_go_shift p 0 n

theorem insertIntoSubLevel_nil (arena : List (FileMetadata α)) (j : Nat) :
    insertIntoSubLevel arena [] j = [j] := rfl

theorem insertIntoSubLevel_cons (arena : List (FileMetadata α)) (x : Nat)
    (xs : List Nat) (j : Nat) :
    insertIntoSubLevel arena (x :: xs) j =
      if (arena.getD j default).minIntervalIndex <
          (arena.getD x default).minIntervalIndex then
        j :: x :: xs
      else x :: insertIntoSubLevel arena xs j := by
  unfold insertIntoSubLevel
  dsimp only
  rw [List.length_cons, sortSearch_succ]
  split
  · rename_i hp
    rw [if_pos (by simpa using hp)]
    rfl
  · rename_i hp
    rw [if_neg (by simpa using hp)]
    have h2 : (fun i => decide ((arena.getD j default).minIntervalIndex <
        (arena.getD ((x :: xs).getD (i + 1) 0) default).minIntervalIndex)) =
        (fun i => decide ((arena.getD j default).minIntervalIndex <
          (arena.getD (xs.getD i 0) default).minIntervalIndex)) := by
      funext i
      rfl
    rw [h2]
    rw [List.take_succ_cons, List.drop_succ_cons]
    rfl

theorem insertIntoSubLevel_mem (arena : List (FileMetadata α)) (lvl : List Nat)
    (j : Nat) : ∀ x, x ∈ insertIntoSubLevel arena lvl j ↔ x ∈ lvl ∨ x = j := by
  induction lvl with
  | nil =>
    intro x
    rw [insertIntoSubLevel_nil]
    simp
  | cons y ys ih =>
    intro x
    rw [insertIntoSubLevel_cons]
    split
    · simp only [List.mem_cons]
      constructor
      · rintro (h | h)
        · exact Or.inr h
        · exact Or.inl h
      · rintro (h | h)
        · exact Or.inr h
        · exact Or.inl h
    · simp only [List.mem_cons, ih x]
      constructor
      · rintro (h | h | h)
        · exact Or.inl (Or.inl h)
        · exact Or.inl (Or.inr h)
        · exact Or.inr h
      · rintro ((h | h) | h)
        · exact Or.inl h
        · exact Or.inr (Or.inl h)
        · exact Or.inr (Or.inr h)

theorem insertIntoSubLevel_head (arena : List (FileMetadata α)) (lvl : List Nat)
    (j : Nat) :
    (insertIntoSubLevel arena lvl j).head? = some j ∨
      (insertIntoSubLevel arena lvl j).head? = lvl.head? := by
  cases lvl with
  | nil => exact Or.inl rfl
  | cons y ys =>
    rw [insertIntoSubLevel_cons]
    split
    · exact Or.inl rfl
    · exact Or.inr rfl

/-- Inserting a file whose span is disjoint from every file of a sorted,
pairwise-disjoint sublevel keeps the sublevel sorted and disjoint. -/
theorem insertIntoSubLevel_chain (arena : List (FileMetadata α)) (lvl : List Nat)
    (j : Nat)
    (hch : List.Chain' (fun a b => (arena.getD a default).maxIntervalIndex <
      (arena.getD b default).minIntervalIndex) lvl)
    (hvalid : ∀ a ∈ lvl, (arena.getD a default).minIntervalIndex ≤
      (arena.getD a default).maxIntervalIndex)
    (hjv : (arena.getD j default).minIntervalIndex ≤
      (arena.getD j default).maxIntervalIndex)
    (hdisj : ∀ a ∈ lvl, (arena.getD a default).maxIntervalIndex <
      (arena.getD j default).minIntervalIndex ∨
      (arena.getD j default).maxIntervalIndex < (arena.getD a default).minIntervalIndex) :
    List.Chain' (fun a b => (arena.getD a default).maxIntervalIndex <
      (arena.getD b default).minIntervalIndex) (insertIntoSubLevel arena lvl j) := by
  induction lvl with
  | nil =>
    rw [insertIntoSubLevel_nil]
    simp
  | cons x xs ih =>
    have hxmem : x ∈ x :: xs := List.mem_cons_self _ _
    rw [insertIntoSubLevel_cons]
    split
    · rename_i hlt
      refine List.chain'_cons'.mpr ⟨?_, hch⟩
      intro y hy
      have hy2 : x = y := by simpa using hy
      subst hy2
      rcases hdisj x hxmem with h2 | h2
      · have := hvalid x hxmem
        omega
      · exact h2
    · rename_i hge
      refine List.chain'_cons'.mpr ⟨?_, ?_⟩
      · intro y hy
        rcases insertIntoSubLevel_head arena xs j with hh | hh
        · rw [hh] at hy
          have hy2 : j = y := by simpa using hy
          subst hy2
          rcases hdisj x hxmem with h2 | h2
          · exact h2
          · omega
        · rw [hh] at hy
          exact (List.chain'_cons'.mp hch).1 y hy
      · exact ih (List.chain'_cons'.mp hch).2
          (fun a ha => hvalid a (List.mem_cons_of_mem _ ha))
          (fun a ha => hdisj a (List.mem_cons_of_mem _ ha))

end InsertLemmas

section StepLemmas

variable {α : Type} [LinearOrder α] [Inhabited α]

/-- The file record as placed by the constructor. -/
def nextFile (f0 : FileMetadata α) (n minI maxI sub : Nat) : FileMetadata α :=
  { f0 with l0Index := n, minIntervalIndex := minI, maxIntervalIndex := maxI,
            subLevel := sub }

/-- The interval list after both per-interval passes of the constructor. -/
def nextIntervals (st : L0Sublevels α) (f0 : FileMetadata α) (n minI maxI : Nat) :
    List (fileInterval α) :=
  let interpolatedBytes := f0.Size / (maxI - minI + 1)
  (spanList minI maxI).foldl
    (fun ivs k => modifyAt (fun iv => { iv with files := iv.files ++ [n] }) k ivs)
    ((spanList minI maxI).foldl
      (fun ivs k => modifyAt (intervalAddCounts interpolatedBytes minI maxI) k ivs)
      st.orderedIntervals)

/-- The sublevel lists after placing the new file. -/
def nextLevels (st : L0Sublevels α) (arena : List (FileMetadata α)) (n sub : Nat) :
    List (List Nat) :=
  if sub = st.Levels.length then st.Levels ++ [[n]]
  else modifyAt (fun lvl => insertIntoSubLevel arena lvl n) sub st.Levels

/-- The state produced by one successful constructor step, matching the
`ok` branch of `addFileToState`. -/
def mkNext (st : L0Sublevels α) (f0 : FileMetadata α) (n minI maxI : Nat) :
    L0Sublevels α :=
  let sub := computeSubLevel st minI maxI
  let arena := st.levelMetadata ++ [nextFile f0 n minI maxI sub]
  { Levels := nextLevels st arena n sub, fileBytes := st.fileBytes + f0.Size,
    levelMetadata := arena, orderedIntervals := nextIntervals st f0 n minI maxI,
    flushSplitUserKeys := st.flushSplitUserKeys }

theorem addFileToState_ok (keys : List (IntervalKey α)) (st : L0Sublevels α)
    (f0 : FileMetadata α) (n : Nat) {st2 : L0Sublevels α}
    (h : addFileToState keys st f0 n = .ok st2) :
    ∃ minI maxI, fileSpan keys f0 = .ok (minI, maxI) ∧
      computeSubLevel st minI maxI ≤ st.Levels.length ∧
      st2 = mkNext st f0 n minI maxI := by
  unfold addFileToState at h
  split at h
  · cases h
  · rename_i p minI maxI heq
    dsimp only at h
    split at h
    · cases h
    · rename_i hle
      cases h
      refine ⟨minI, maxI, heq, by omega, ?_⟩
      unfold mkNext nextIntervals nextLevels nextFile
      rfl

theorem fileSpan_ok (keys : List (IntervalKey α)) (f0 : FileMetadata α)
    {minI maxI : Nat} (hsorted : List.Pairwise ikLt keys)
    (hmem1 : startIK f0 ∈ keys) (hmem2 : endIK f0 ∈ keys)
    (hvalid : ikLt (startIK f0) (endIK f0))
    (h : fileSpan keys f0 = .ok (minI, maxI)) :
    minI ≤ maxI ∧ maxI + 1 < keys.length ∧
      keys.getD minI default = startIK f0 ∧
      keys.getD (maxI + 1) default = endIK f0 := by
  unfold fileSpan at h
  dsimp only at h
  split at h
  · cases h
  · split at h
    · cases h
    · cases h
      obtain ⟨hm1, hk1⟩ := sortSearch_mem_sorted hsorted hmem1 default
      obtain ⟨hm2, hk2⟩ := sortSearch_mem_sorted hsorted hmem2 default
      set p1 := sortSearch keys.length
        (fun idx => decide (intervalKeyCompare (startIK f0) (keys.getD idx default) ≤ 0))
      set p2 := sortSearch keys.length
        (fun idx => decide (intervalKeyCompare (endIK f0) (keys.getD idx default) ≤ 0))
      have hlt : p1 < p2 := by
        by_contra hge
        rcases Nat.eq_or_lt_of_le (not_lt.mp hge) with h3 | h3
        · rw [h3, hk1] at hk2
          rw [hk2] at hvalid
          exact ikLt_irrefl _ hvalid
        · have := List.pairwise_iff_getElem.mp hsorted p2 p1 hm2 hm1 h3
          rw [← List.getD_eq_getElem keys default hm2,
            ← List.getD_eq_getElem keys default hm1, hk1, hk2] at this
          exact ikLt_asymm hvalid this
      have hp2 : p2 - 1 + 1 = p2 := by omega
      refine ⟨by omega, by omega, hk1, ?_⟩
      rw [hp2]
      exact hk2

theorem getD_map_startKey (st : L0Sublevels α) (i : Nat)
    (hi : i < st.orderedIntervals.length) :
    (intervalAt st i).startKey =
      (st.orderedIntervals.map (fun iv => iv.startKey)).getD i default := by
  unfold intervalAt
  rw [List.getD_eq_getElem _ _ hi,
    List.getD_eq_getElem _ _ (by rw [List.length_map]; exact hi), List.getElem_map]

theorem chain'_congr_mem {β : Type} {r r2 : β → β → Prop} {l : List β}
    (hc : List.Chain' r l) (h : ∀ a ∈ l, ∀ b ∈ l, r a b → r2 a b) :
    List.Chain' r2 l := by
  induction l with
  | nil => exact List.chain'_nil
  | cons x xs ih =>
    cases xs with
    | nil => simp
    | cons y ys =>
      rw [List.chain'_cons] at hc ⊢
      refine ⟨h x (by simp) y (by simp) hc.1, ih hc.2 ?_⟩
      intro a ha b hb hr
      exact h a (List.mem_cons_of_mem _ ha) b (List.mem_cons_of_mem _ hb) hr

theorem pairwise_getD_lt {ks : List (IntervalKey α)} (hs : List.Pairwise ikLt ks)
    {p q : Nat} (hpq : p < q) (hq : q < ks.length) :
    ikLt (ks.getD p default) (ks.getD q default) := by
  have hp : p < ks.length := lt_trans hpq hq
  rw [List.getD_eq_getElem _ _ hp, List.getD_eq_getElem _ _ hq]
  exact List.pairwise_iff_getElem.mp hs p q hp hq hpq

/-- The combined effect of both constructor passes on one interval of the
new file's span. -/
def bumpInterval (f0 : FileMetadata α) (n minI maxI : Nat) (iv : fileInterval α) :
    fileInterval α :=
  let iv2 := intervalAddCounts (f0.Size / (maxI - minI + 1)) minI maxI iv
  { iv2 with files := iv2.files ++ [n] }

theorem mkNext_orderedIntervals (st : L0Sublevels α) (f0 : FileMetadata α)
    (n minI maxI : Nat) :
    (mkNext st f0 n minI maxI).orderedIntervals = nextIntervals st f0 n minI maxI := rfl

theorem mkNext_levelMetadata (st : L0Sublevels α) (f0 : FileMetadata α)
    (n minI maxI : Nat) :
    (mkNext st f0 n minI maxI).levelMetadata =
      st.levelMetadata ++ [nextFile f0 n minI maxI (computeSubLevel st minI maxI)] := rfl

theorem mkNext_Levels (st : L0Sublevels α) (f0 : FileMetadata α)
    (n minI maxI : Nat) :
    (mkNext st f0 n minI maxI).Levels =
      nextLevels st
        (st.levelMetadata ++ [nextFile f0 n minI maxI (computeSubLevel st minI maxI)])
        n (computeSubLevel st minI maxI) := rfl

theorem nextIntervals_length (st : L0Sublevels α) (f0 : FileMetadata α)
    (n minI maxI : Nat) :
    (nextIntervals st f0 n minI maxI).length = st.orderedIntervals.length := by
  unfold nextIntervals
  dsimp only
  rw [foldl_modifyAt_length, foldl_modifyAt_length]

theorem nextIntervals_getD_notmem (st : L0Sublevels α) (f0 : FileMetadata α)
    (n minI maxI : Nat) {i : Nat} (hni : i ∉ spanList minI maxI) :
    (nextIntervals st f0 n minI maxI).getD i default =
      st.orderedIntervals.getD i default := by
  unfold nextIntervals
  dsimp only
  rw [foldl_modifyAt_getD_notmem _ _ _ _ hni, foldl_modifyAt_getD_notmem _ _ _ _ hni]

theorem nextIntervals_getD_mem (st : L0Sublevels α) (f0 : FileMetadata α)
    (n minI maxI : Nat) {i : Nat} (hi : i ∈ spanList minI maxI)
    (hlen : i < st.orderedIntervals.length) :
    (nextIntervals st f0 n minI maxI).getD i default =
      bumpInterval f0 n minI maxI (st.orderedIntervals.getD i default) := by
  unfold nextIntervals
  dsimp only
  rw [foldl_modifyAt_getD_mem _ _ _ _ (spanList_nodup _ _) hi
      (by rw [foldl_modifyAt_length]; exact hlen) default,
    foldl_modifyAt_getD_mem _ _ _ _ (spanList_nodup _ _) hi hlen default]
  rfl

theorem mkNext_intervalAt_mem (st : L0Sublevels α) (f0 : FileMetadata α)
    (n minI maxI : Nat) {i : Nat} (hi : i ∈ spanList minI maxI)
    (hlen : i < st.orderedIntervals.length) :
    intervalAt (mkNext st f0 n minI maxI) i =
      bumpInterval f0 n minI maxI (intervalAt st i) := by
  unfold intervalAt
  rw [mkNext_orderedIntervals]
  exact nextIntervals_getD_mem st f0 n minI maxI hi hlen

theorem mkNext_intervalAt_notmem (st : L0Sublevels α) (f0 : FileMetadata α)
    (n minI maxI : Nat) {i : Nat} (hni : i ∉ spanList minI maxI) :
    intervalAt (mkNext st f0 n minI maxI) i = intervalAt st i := by
  unfold intervalAt
  rw [mkNext_orderedIntervals]
  exact nextIntervals_getD_notmem st f0 n minI maxI hni

theorem mkNext_intervalAt_proj (st : L0Sublevels α) (f0 : FileMetadata α)
    (n minI maxI : Nat) {γ : Type} (p : fileInterval α → γ)
    (hp : ∀ iv, p (bumpInterval f0 n minI maxI iv) = p iv) (i : Nat) :
    p (intervalAt (mkNext st f0 n minI maxI) i) = p (intervalAt st i) := by
  by_cases hm : i ∈ spanList minI maxI
  · by_cases hl : i < st.orderedIntervals.length
    · rw [mkNext_intervalAt_mem st f0 n minI maxI hm hl, hp]
    · unfold intervalAt
      rw [mkNext_orderedIntervals,
        List.getD_eq_default _ _ (by rw [nextIntervals_length]; omega),
        List.getD_eq_default _ _ (by omega)]
  · rw [mkNext_intervalAt_notmem st f0 n minI maxI hm]

theorem mkNext_interval_startKey (st : L0Sublevels α) (f0 : FileMetadata α)
    (n minI maxI i : Nat) :
    (intervalAt (mkNext st f0 n minI maxI) i).startKey = (intervalAt st i).startKey :=
  mkNext_intervalAt_proj st f0 n minI maxI (fun iv => iv.startKey) (fun _ => rfl) i

theorem mkNext_interval_index (st : L0Sublevels α) (f0 : FileMetadata α)
    (n minI maxI i : Nat) :
    (intervalAt (mkNext st f0 n minI maxI) i).index = (intervalAt st i).index :=
  mkNext_intervalAt_proj st f0 n minI maxI (fun iv => iv.index) (fun _ => rfl) i

theorem mkNext_fileAt_old (st : L0Sublevels α) (f0 : FileMetadata α)
    (n minI maxI : Nat) {j : Nat} (hj : j < st.levelMetadata.length) :
    fileAt (mkNext st f0 n minI maxI) j = fileAt st j := by
  unfold fileAt
  rw [mkNext_levelMetadata]
  exact List.getD_append _ _ _ _ hj

theorem mkNext_fileAt_new (st : L0Sublevels α) (f0 : FileMetadata α)
    (n minI maxI : Nat) :
    fileAt (mkNext st f0 n minI maxI) st.levelMetadata.length =
      nextFile f0 n minI maxI (computeSubLevel st minI maxI) := by
  unfold fileAt
  rw [mkNext_levelMetadata, List.getD_append_right _ _ _ _ (le_refl _)]
  simp

theorem mkNext_arena_length (st : L0Sublevels α) (f0 : FileMetadata α)
    (n minI maxI : Nat) :
    (mkNext st f0 n minI maxI).levelMetadata.length = st.levelMetadata.length + 1 := by
  rw [mkNext_levelMetadata]
  simp

theorem nextLevels_getD_ne (st : L0Sublevels α) (arena : List (FileMetadata α))
    (n sub : Nat) {sl : Nat} (hne : sl ≠ sub) :
    (nextLevels st arena n sub).getD sl [] = st.Levels.getD sl [] := by
  unfold nextLevels
  split
  · rename_i hs
    by_cases hlt : sl < st.Levels.length
    · exact List.getD_append _ _ _ _ hlt
    · rw [List.getD_eq_default _ _ (by simp; omega), List.getD_eq_default _ _ (by omega)]
  · exact getD_modifyAt_ne _ _ hne _

theorem nextLevels_getD_eq (st : L0Sublevels α) (arena : List (FileMetadata α))
    (n sub : Nat) (hle : sub ≤ st.Levels.length) :
    (nextLevels st arena n sub).getD sub [] =
      if sub = st.Levels.length then [n]
      else insertIntoSubLevel arena (st.Levels.getD sub []) n := by
  unfold nextLevels
  split
  · rename_i hs
    rw [hs, List.getD_append_right _ _ _ _ (le_refl _)]
    simp
  · rename_i hs
    exact getD_modifyAt_self _ (by omega) _

theorem nextLevels_length (st : L0Sublevels α) (arena : List (FileMetadata α))
    (n sub : Nat) :
    (nextLevels st arena n sub).length =
      if sub = st.Levels.length then st.Levels.length + 1 else st.Levels.length := by
  unfold nextLevels
  split
  · simp
  · exact length_modifyAt _ _ _

theorem mkNext_map_startKey (st : L0Sublevels α) (f0 : FileMetadata α)
    (n minI maxI : Nat) :
    (mkNext st f0 n minI maxI).orderedIntervals.map (fun iv => iv.startKey) =
      st.orderedIntervals.map (fun iv => iv.startKey) := by
  rw [mkNext_orderedIntervals]
  unfold nextIntervals
  dsimp only
  have h2 : ∀ (sp : List Nat) (ivs : List (fileInterval α)),
      (sp.foldl (fun ivs2 k =>
          modifyAt (fun iv => { iv with files := iv.files ++ [n] }) k ivs2) ivs).map
        (fun iv => iv.startKey) = ivs.map (fun iv => iv.startKey) := by
    intro sp ivs
    apply foldl_proj_eq
    intro acc k _
    apply map_modifyAt_eq
    intro iv
    rfl
  have h1 : ∀ (sp : List Nat) (ivs : List (fileInterval α)),
      (sp.foldl (fun ivs2 k =>
          modifyAt (intervalAddCounts (f0.Size / (maxI - minI + 1)) minI maxI)
            k ivs2) ivs).map
        (fun iv => iv.startKey) = ivs.map (fun iv => iv.startKey) := by
    intro sp ivs
    apply foldl_proj_eq
    intro acc k _
    apply map_modifyAt_eq
    intro iv
    rfl
  rw [h2, h1]

/-- One successful constructor step preserves well-formedness: placing the
next file (numbered by the current arena length) at the sublevel computed
from its interval span keeps every structural invariant of the engine. -/
theorem mkNext_WF (st : L0Sublevels α) (f0 : FileMetadata α) (minI maxI : Nat)
    (hwf : WF st)
    (hminmax : minI ≤ maxI)
    (hmaxlen : maxI + 1 < st.orderedIntervals.length)
    (hkmin : (intervalAt st minI).startKey = startIK f0)
    (hkmax : (intervalAt st (maxI + 1)).startKey = endIK f0)
    (hsuble : computeSubLevel st minI maxI ≤ st.Levels.length) :
    WF (mkNext st f0 st.levelMetadata.length minI maxI) := by
  set nn := st.levelMetadata.length with hnn
  set sub := computeSubLevel st minI maxI with hsub
  set s2 := mkNext st f0 nn minI maxI with hs2
  have hfa : ∀ a, fileAt s2 a =
      (st.levelMetadata ++ [nextFile f0 nn minI maxI sub]).getD a default :=
    fun a => rfl
  have hIlen : s2.orderedIntervals.length = st.orderedIntervals.length := by
    rw [hs2, mkNext_orderedIntervals, nextIntervals_length]
  have hAlen : s2.levelMetadata.length = nn + 1 := mkNext_arena_length st f0 nn minI maxI
  have hold : ∀ j, j < nn → fileAt s2 j = fileAt st j := by
    intro j hj
    exact mkNext_fileAt_old st f0 nn minI maxI hj
  have hnew : fileAt s2 nn = nextFile f0 nn minI maxI sub :=
    mkNext_fileAt_new st f0 nn minI maxI
  have hfiles : ∀ i, i ∈ spanList minI maxI → i < st.orderedIntervals.length →
      (intervalAt s2 i).files = (intervalAt st i).files ++ [nn] := by
    intro i hi hl
    rw [hs2, mkNext_intervalAt_mem st f0 nn minI maxI hi hl]
    rfl
  have hfilesout : ∀ i, i ∉ spanList minI maxI → intervalAt s2 i = intervalAt st i := by
    intro i hi
    exact mkNext_intervalAt_notmem st f0 nn minI maxI hi
  have hsk : ∀ i, (intervalAt s2 i).startKey = (intervalAt st i).startKey :=
    fun i => mkNext_interval_startKey st f0 nn minI maxI i
  have hidx : ∀ i, (intervalAt s2 i).index = (intervalAt st i).index :=
    fun i => mkNext_interval_index st f0 nn minI maxI i
  have hspanlt : ∀ i, i ∈ spanList minI maxI → i < st.orderedIntervals.length := by
    intro i hi
    have := mem_spanList.mp hi
    omega
  -- The new file's span is disjoint from the span of every file already in
  -- the target sublevel: a shared interval would force that file strictly
  -- below the computed sublevel.
  have hdisj : sub < st.Levels.length →
      ∀ a ∈ st.Levels.getD sub [], (fileAt st a).maxIntervalIndex < minI ∨
        maxI < (fileAt st a).minIntervalIndex := by
    intro hsublt a ha
    by_contra hcon
    push_neg at hcon
    obtain ⟨haA, hsl⟩ := hwf.lvlMembers sub hsublt a ha
    have hv := hwf.spanValid a haA
    have h1 : minI ≤ max minI (fileAt st a).minIntervalIndex := le_max_left _ _
    have h2 : max minI (fileAt st a).minIntervalIndex ≤ maxI :=
      max_le hminmax hcon.2
    have h3 : (fileAt st a).minIntervalIndex ≤ max minI (fileAt st a).minIntervalIndex :=
      le_max_right _ _
    have h4 : max minI (fileAt st a).minIntervalIndex ≤ (fileAt st a).maxIntervalIndex :=
      max_le hcon.1 hv
    have hmem := hwf.coverage a haA _ h3 h4
    have := computeSubLevel_above st hwf minI maxI (by omega) _ h1 h2 a hmem
    omega
  -- Every file of every span interval sits strictly below the new sublevel.
  have habove : ∀ i, minI ≤ i → i ≤ maxI → ∀ j ∈ (intervalAt st i).files,
      (fileAt st j).subLevel < sub :=
    computeSubLevel_above st hwf minI maxI (by omega)
  have hLlen : s2.Levels.length =
      if sub = st.Levels.length then st.Levels.length + 1 else st.Levels.length := by
    rw [hs2, mkNext_Levels]
    exact nextLevels_length st _ nn sub
  have hLne : ∀ sl, sl ≠ sub → s2.Levels.getD sl [] = st.Levels.getD sl [] := by
    intro sl hne
    rw [hs2, mkNext_Levels]
    exact nextLevels_getD_ne st _ nn sub hne
  have hLeq : s2.Levels.getD sub [] =
      if sub = st.Levels.length then [nn]
      else insertIntoSubLevel (st.levelMetadata ++ [nextFile f0 nn minI maxI sub])
        (st.Levels.getD sub []) nn := by
    rw [hs2, mkNext_Levels]
    exact nextLevels_getD_eq st _ nn sub hsuble
  refine
    { arenaIdx := ?_, spanValid := ?_, spanBound := ?_, subLevelBound := ?_,
      coverage := ?_, inLevel := ?_, startKeyMin := ?_, startKeyMax := ?_,
      ivIndex := ?_, ivCount := ?_, ivMembers := ?_, ivChain := ?_,
      lvlMembers := ?_, lvlChain := ?_, keysSorted := ?_, prevLevel := ?_ }
  · -- arenaIdx
    intro j hj
    rw [hAlen] at hj
    rcases Nat.lt_succ_iff_lt_or_eq.mp hj with h | h
    · rw [hold j h]
      exact hwf.arenaIdx j h
    · subst h
      rw [hnew]
      rfl
  · -- spanValid
    intro j hj
    rw [hAlen] at hj
    rcases Nat.lt_succ_iff_lt_or_eq.mp hj with h | h
    · rw [hold j h]
      exact hwf.spanValid j h
    · subst h
      rw [hnew]
      exact hminmax
  · -- spanBound
    intro j hj
    rw [hAlen] at hj
    rw [hIlen]
    rcases Nat.lt_succ_iff_lt_or_eq.mp hj with h | h
    · rw [hold j h]
      exact hwf.spanBound j h
    · subst h
      rw [hnew]
      exact hmaxlen
  · -- subLevelBound
    intro j hj
    rw [hAlen] at hj
    rw [hLlen]
    rcases Nat.lt_succ_iff_lt_or_eq.mp hj with h | h
    · rw [hold j h]
      have := hwf.subLevelBound j h
      split <;> omega
    · subst h
      rw [hnew]
      show sub < _
      split <;> omega
  · -- coverage
    intro j hj i h1 h2
    rw [hAlen] at hj
    rcases Nat.lt_succ_iff_lt_or_eq.mp hj with h | h
    · rw [hold j h] at h1 h2
      have hmem := hwf.coverage j h i h1 h2
      by_cases hsp : i ∈ spanList minI maxI
      · have hil : i < st.orderedIntervals.length := hspanlt i hsp
        rw [hfiles i hsp hil]
        exact List.mem_append_left _ hmem
      · rw [hfilesout i hsp]
        exact hmem
    · subst h
      rw [hnew] at h1 h2
      have hsp : i ∈ spanList minI maxI := mem_spanList.mpr ⟨h1, h2⟩
      rw [hfiles i hsp (hspanlt i hsp)]
      exact List.mem_append_right _ (List.mem_singleton.mpr rfl)
  · -- inLevel
    intro j hj
    rw [hAlen] at hj
    rcases Nat.lt_succ_iff_lt_or_eq.mp hj with h | h
    · rw [hold j h]
      have hmem := hwf.inLevel j h
      have hslb := hwf.subLevelBound j h
      by_cases hse : (fileAt st j).subLevel = sub
      · rw [hse, hLeq]
        split
        · omega
        · exact (insertIntoSubLevel_mem _ _ _ j).mpr (Or.inl (hse ▸ hmem))
      · rw [hLne _ hse]
        exact hmem
    · subst h
      rw [hnew]
      show nn ∈ s2.Levels.getD sub []
      rw [hLeq]
      split
      · exact List.mem_singleton.mpr rfl
      · exact (insertIntoSubLevel_mem _ _ _ nn).mpr (Or.inr rfl)
  · -- startKeyMin
    intro j hj
    rw [hAlen] at hj
    rcases Nat.lt_succ_iff_lt_or_eq.mp hj with h | h
    · rw [hold j h, hsk]
      exact hwf.startKeyMin j h
    · subst h
      rw [hnew]
      show (intervalAt s2 minI).startKey = startIK (nextFile f0 nn minI maxI sub)
      rw [hsk, hkmin]
      rfl
  · -- startKeyMax
    intro j hj
    rw [hAlen] at hj
    rcases Nat.lt_succ_iff_lt_or_eq.mp hj with h | h
    · rw [hold j h, hsk]
      exact hwf.startKeyMax j h
    · subst h
      rw [hnew]
      show (intervalAt s2 (maxI + 1)).startKey = endIK (nextFile f0 nn minI maxI sub)
      rw [hsk, hkmax]
      rfl
  · -- ivIndex
    intro i hi
    rw [hIlen] at hi
    rw [hidx]
    exact hwf.ivIndex i hi
  · -- ivCount
    intro i hi
    rw [hIlen] at hi
    by_cases hsp : i ∈ spanList minI maxI
    · rw [hs2, mkNext_intervalAt_mem st f0 nn minI maxI hsp hi]
      show (intervalAt st i).fileCount + 1 = ((intervalAt st i).files ++ [nn]).length
      rw [List.length_append, hwf.ivCount i hi]
      rfl
    · rw [hfilesout i hsp]
      exact hwf.ivCount i hi
  · -- ivMembers
    intro i hi j hj
    rw [hIlen] at hi
    rw [hAlen]
    by_cases hsp : i ∈ spanList minI maxI
    · rw [hfiles i hsp hi] at hj
      rcases List.mem_append.mp hj with h | h
      · obtain ⟨h1, h2, h3⟩ := hwf.ivMembers i hi j h
        rw [hold j h1]
        exact ⟨by omega, h2, h3⟩
      · have hje : j = nn := List.mem_singleton.mp h
        subst hje
        rw [hnew]
        have := mem_spanList.mp hsp
        exact ⟨by omega, this.1, this.2⟩
    · rw [hfilesout i hsp] at hj
      obtain ⟨h1, h2, h3⟩ := hwf.ivMembers i hi j hj
      rw [hold j h1]
      exact ⟨by omega, h2, h3⟩
  · -- ivChain
    intro i hi
    rw [hIlen] at hi
    by_cases hsp : i ∈ spanList minI maxI
    · rw [hfiles i hsp hi]
      have hchain := hwf.ivChain i hi
      have hchain2 : List.Chain'
          (fun a b => a < b ∧ (fileAt s2 a).subLevel < (fileAt s2 b).subLevel)
          (intervalAt st i).files := by
        apply chain'_congr_mem hchain
        intro a ha b hb hab
        have ha2 := (hwf.ivMembers i hi a ha).1
        have hb2 := (hwf.ivMembers i hi b hb).1
        rw [hold a ha2, hold b hb2]
        exact hab
      rw [List.chain'_append]
      refine ⟨hchain2, List.chain'_singleton _, ?_⟩
      intro x hx y hy
      have hxm : x ∈ (intervalAt st i).files := by
        rcases List.getLast?_eq_some_iff.mp hx with ⟨l2, hl2⟩
        rw [hl2]
        exact List.mem_append_right _ (List.mem_singleton.mpr rfl)
      have hye : y = nn := by
        have h5 : ([nn] : List Nat).head? = some nn := rfl
        rw [h5] at hy
        exact Option.some_inj.mp hy.symm
      subst hye
      have hxA := (hwf.ivMembers i hi x hxm).1
      have hms := mem_spanList.mp hsp
      have hxs := habove i hms.1 hms.2 x hxm
      rw [hold x hxA, hnew]
      exact ⟨hxA, hxs⟩
    · rw [hfilesout i hsp]
      have hchain := hwf.ivChain i hi
      apply chain'_congr_mem hchain
      intro a ha b hb hab
      have ha2 := (hwf.ivMembers i hi a ha).1
      have hb2 := (hwf.ivMembers i hi b hb).1
      rw [hold a ha2, hold b hb2]
      exact hab
  · -- lvlMembers
    intro sl hsl j hj
    rw [hAlen]
    by_cases hse : sl = sub
    · subst hse
      rw [hLeq] at hj
      split at hj
      · have hje : j = nn := List.mem_singleton.mp hj
        subst hje
        rw [hnew]
        exact ⟨by omega, rfl⟩
      · rcases (insertIntoSubLevel_mem _ _ _ j).mp hj with h | h
        · rename_i hne
          have hsublt : sub < st.Levels.length := by omega
          obtain ⟨h1, h2⟩ := hwf.lvlMembers sub hsublt j h
          rw [hold j h1]
          exact ⟨by omega, h2⟩
        · subst h
          rw [hnew]
          exact ⟨by omega, rfl⟩
    · rw [hLne sl hse] at hj
      have hsllt : sl < st.Levels.length := by
        rw [hLlen] at hsl
        by_contra hge
        push_neg at hge
        rw [List.getD_eq_default _ _ (by omega)] at hj
        simp at hj
      obtain ⟨h1, h2⟩ := hwf.lvlMembers sl hsllt j hj
      rw [hold j h1]
      exact ⟨by omega, h2⟩
  · -- lvlChain
    intro sl hsl
    by_cases hse : sl = sub
    · subst hse
      rw [hLeq]
      split
      · exact List.chain'_singleton _
      · rename_i hne
        have hsublt : sub < st.Levels.length := by omega
        have hch0 := hwf.lvlChain sub hsublt
        have hch : List.Chain' (fun a b =>
            ((st.levelMetadata ++ [nextFile f0 nn minI maxI sub]).getD a
              default).maxIntervalIndex <
            ((st.levelMetadata ++ [nextFile f0 nn minI maxI sub]).getD b
              default).minIntervalIndex) (st.Levels.getD sub []) := by
          apply chain'_congr_mem hch0
          intro a ha b hb hab
          have ha2 := (hwf.lvlMembers sub hsublt a ha).1
          have hb2 := (hwf.lvlMembers sub hsublt b hb).1
          have hea := hold a ha2
          have heb := hold b hb2
          rw [hfa] at hea heb
          rw [hea, heb]
          exact hab
        have hres := insertIntoSubLevel_chain
          (st.levelMetadata ++ [nextFile f0 nn minI maxI sub])
          (st.Levels.getD sub []) nn hch ?_ ?_ ?_
        · have hconv : List.Chain' (fun a b =>
              (fileAt s2 a).maxIntervalIndex < (fileAt s2 b).minIntervalIndex)
              (insertIntoSubLevel (st.levelMetadata ++ [nextFile f0 nn minI maxI sub])
                (st.Levels.getD sub []) nn) := by
            apply chain'_congr_mem hres
            intro a _ b _ hab
            rw [hfa a, hfa b]
            exact hab
          exact hconv
        · intro a ha
          have ha2 := (hwf.lvlMembers sub hsublt a ha).1
          have hea := hold a ha2
          rw [hfa] at hea
          rw [hea]
          exact hwf.spanValid a ha2
        · have he := hnew
          rw [hfa] at he
          rw [he]
          exact hminmax
        · intro a ha
          have ha2 := (hwf.lvlMembers sub hsublt a ha).1
          have hea := hold a ha2
          have he := hnew
          rw [hfa] at hea he
          rw [hea, he]
          exact hdisj hsublt a ha
    · rw [hLne sl hse]
      by_cases hsllt : sl < st.Levels.length
      · have hch0 := hwf.lvlChain sl hsllt
        apply chain'_congr_mem hch0
        intro a ha b hb hab
        have ha2 := (hwf.lvlMembers sl hsllt a ha).1
        have hb2 := (hwf.lvlMembers sl hsllt b hb).1
        rw [hold a ha2, hold b hb2]
        exact hab
      · rw [List.getD_eq_default _ _ (by omega)]
        exact List.chain'_nil
  · -- keysSorted
    rw [hs2, mkNext_map_startKey]
    exact hwf.keysSorted
  · -- prevLevel
    intro j hj hpos
    rw [hAlen] at hj
    rcases Nat.lt_succ_iff_lt_or_eq.mp hj with h | h
    · rw [hold j h] at hpos ⊢
      obtain ⟨j2, hj2, he, hov⟩ := hwf.prevLevel j h hpos
      refine ⟨j2, by omega, ?_, ?_⟩
      · rw [hold j2 hj2]
        exact he
      · rw [hold j2 hj2]
        exact hov
    · subst h
      rw [hnew] at hpos ⊢
      have hpos2 : 0 < sub := hpos
      obtain ⟨i, h1, h2, j2, hj2m, hj2s⟩ := computeSubLevel_achieved st minI maxI hpos2
      have hil : i < st.orderedIntervals.length := by omega
      obtain ⟨hj2A, hj2min, hj2max⟩ := hwf.ivMembers i hil j2 hj2m
      refine ⟨j2, by omega, ?_, ?_⟩
      · rw [hold j2 hj2A]
        exact hj2s
      · rw [hold j2 hj2A]
        unfold spansOverlap
        show minI ≤ (fileAt st j2).maxIntervalIndex ∧ (fileAt st j2).minIntervalIndex ≤ maxI
        omega

theorem addFileToState_WF (keys : List (IntervalKey α)) (st : L0Sublevels α)
    (f0 : FileMetadata α) {st2 : L0Sublevels α} (hwf : WF st)
    (hkeys : st.orderedIntervals.map (fun iv => iv.startKey) = keys)
    (hvalid : ikLt (startIK f0) (endIK f0))
    (hmem1 : startIK f0 ∈ keys) (hmem2 : endIK f0 ∈ keys)
    (h : addFileToState keys st f0 st.levelMetadata.length = .ok st2) :
    WF st2 ∧ st2.levelMetadata.length = st.levelMetadata.length + 1 ∧
      st2.orderedIntervals.map (fun iv => iv.startKey) = keys := by
  obtain ⟨minI, maxI, hfs, hle, hrfl⟩ := addFileToState_ok keys st f0 _ h
  have hsorted : List.Pairwise ikLt keys := hkeys ▸ hwf.keysSorted
  obtain ⟨h1, h2, h3, h4⟩ := fileSpan_ok keys f0 hsorted hmem1 hmem2 hvalid hfs
  have hleni : keys.length = st.orderedIntervals.length := by
    rw [← hkeys, List.length_map]
  have hkmin : (intervalAt st minI).startKey = startIK f0 := by
    rw [getD_map_startKey st minI (by omega), hkeys]
    exact h3
  have hkmax : (intervalAt st (maxI + 1)).startKey = endIK f0 := by
    rw [getD_map_startKey st (maxI + 1) (by omega), hkeys]
    exact h4
  subst hrfl
  refine ⟨mkNext_WF st f0 minI maxI hwf h1 (by omega) hkmin hkmax hle,
    mkNext_arena_length st f0 _ minI maxI, ?_⟩
  rw [mkNext_map_startKey, hkeys]

theorem buildFiles_WF (keys : List (IntervalKey α)) (files : List (FileMetadata α)) :
    ∀ (st : L0Sublevels α) (st2 : L0Sublevels α), WF st →
      st.orderedIntervals.map (fun iv => iv.startKey) = keys →
      (∀ f ∈ files, ikLt (startIK f) (endIK f)) →
      (∀ f ∈ files, startIK f ∈ keys ∧ endIK f ∈ keys) →
      buildFiles keys st files st.levelMetadata.length = .ok st2 →
      WF st2 := by
  induction files with
  | nil =>
    intro st st2 hwf _ _ _ h
    unfold buildFiles at h
    cases h
    exact hwf
  | cons f rest ih =>
    intro st st2 hwf hkeys hv hb h
    unfold buildFiles at h
    split at h
    · cases h
    · rename_i stm heq
      obtain ⟨hwf2, hlen2, hkeys2⟩ := addFileToState_WF keys st f hwf hkeys
        (hv f (List.mem_cons_self _ _)) (hb f (List.mem_cons_self _ _)).1
        (hb f (List.mem_cons_self _ _)).2 heq
      rw [← hlen2] at h
      exact ih stm st2 hwf2 hkeys2
        (fun g hg => hv g (List.mem_cons_of_mem _ hg))
        (fun g hg => hb g (List.mem_cons_of_mem _ hg)) h

theorem WF_set_flushSplit (s : L0Sublevels α) (ks : List α) (hwf : WF s) :
    WF { s with flushSplitUserKeys := ks } :=
  { arenaIdx := hwf.arenaIdx, spanValid := hwf.spanValid, spanBound := hwf.spanBound,
    subLevelBound := hwf.subLevelBound, coverage := hwf.coverage,
    inLevel := hwf.inLevel, startKeyMin := hwf.startKeyMin,
    startKeyMax := hwf.startKeyMax, ivIndex := hwf.ivIndex, ivCount := hwf.ivCount,
    ivMembers := hwf.ivMembers, ivChain := hwf.ivChain,
    lvlMembers := hwf.lvlMembers, lvlChain := hwf.lvlChain,
    keysSorted := hwf.keysSorted, prevLevel := hwf.prevLevel }

/-- Well-formedness of the constructor's empty starting state over any
sorted key list. -/
theorem WF_init (ks : List (IntervalKey α)) (hks : List.Pairwise ikLt ks) :
    WF ({ Levels := [], fileBytes := 0, levelMetadata := [],
          orderedIntervals := (List.range ks.length).map (fun i =>
            { index := i, startKey := ks.getD i default, isBaseCompacting := false,
              filesMinIntervalIndex := i, filesMaxIntervalIndex := i,
              intervalRangeIsBaseCompacting := false, fileCount := 0,
              compactingFileCount := 0, files := [], estimatedBytes := 0 }),
          flushSplitUserKeys := [] } : L0Sublevels α) := by
  refine
    { arenaIdx := ?_, spanValid := ?_, spanBound := ?_, subLevelBound := ?_,
      coverage := ?_, inLevel := ?_, startKeyMin := ?_, startKeyMax := ?_,
      ivIndex := ?_, ivCount := ?_, ivMembers := ?_, ivChain := ?_,
      lvlMembers := ?_, lvlChain := ?_, keysSorted := ?_, prevLevel := ?_ }
  · intro j hj
    simp at hj
  · intro j hj
    simp at hj
  · intro j hj
    simp at hj
  · intro j hj
    simp at hj
  · intro j hj
    simp at hj
  · intro j hj
    simp at hj
  · intro j hj
    simp at hj
  · intro j hj
    simp at hj
  · intro i hi
    have hi2 : i < ks.length := by simpa using hi
    unfold intervalAt
    dsimp only
    rw [List.getD_eq_getElem _ _ (by simpa using hi2), List.getElem_map,
      List.getElem_range]
  · intro i hi
    have hi2 : i < ks.length := by simpa using hi
    unfold intervalAt
    dsimp only
    rw [List.getD_eq_getElem _ _ (by simpa using hi2), List.getElem_map,
      List.getElem_range]
    rfl
  · intro i hi j hj
    have hi2 : i < ks.length := by simpa using hi
    unfold intervalAt at hj
    dsimp only at hj
    rw [List.getD_eq_getElem _ _ (by simpa using hi2), List.getElem_map,
      List.getElem_range] at hj
    simp at hj
  · intro i hi
    have hi2 : i < ks.length := by simpa using hi
    unfold intervalAt
    dsimp only
    rw [List.getD_eq_getElem _ _ (by simpa using hi2), List.getElem_map,
      List.getElem_range]
    exact List.chain'_nil
  · intro sl hsl
    simp at hsl
  · intro sl hsl
    simp at hsl
  · dsimp only
    rw [List.map_map]
    have h2 : ((fun iv : fileInterval α => iv.startKey) ∘ fun i =>
        ({ index := i, startKey := ks.getD i default, isBaseCompacting := false,
           filesMinIntervalIndex := i, filesMaxIntervalIndex := i,
           intervalRangeIsBaseCompacting := false, fileCount := 0,
           compactingFileCount := 0, files := [],
           estimatedBytes := 0 } : fileInterval α)) = fun i =>
        ks.getD i default := rfl
    rw [h2, map_getD_range]
    exact hks
  · intro j hj
    simp at hj

/-- The constructor establishes every structural invariant on any valid
input (each file's start boundary strictly precedes its end boundary). -/
theorem NewL0Sublevels_WF (files : List (FileMetadata α)) (maxBytes : Int)
    {s : L0Sublevels α} (hvi : ValidInput files)
    (h : NewL0Sublevels files maxBytes = .ok s) : WF s := by
  unfold NewL0Sublevels at h
  dsimp only at h
  split at h
  · cases h
  · rename_i st heq
    cases h
    apply WF_set_flushSplit
    have hkeys0 :
        (((List.range (sortAndDedup
            (files.flatMap (fun f => [startIK f, endIK f]))).length).map (fun i =>
          ({ index := i,
             startKey := (sortAndDedup
               (files.flatMap (fun f => [startIK f, endIK f]))).getD i default,
             isBaseCompacting := false, filesMinIntervalIndex := i,
             filesMaxIntervalIndex := i, intervalRangeIsBaseCompacting := false,
             fileCount := 0, compactingFileCount := 0, files := [],
             estimatedBytes := 0 } : fileInterval α))).map
          (fun iv => iv.startKey)) =
        sortAndDedup (files.flatMap (fun f => [startIK f, endIK f])) := by
      rw [List.map_map]
      exact map_getD_range _ _
    refine buildFiles_WF _ files _ st ?_ hkeys0 hvi ?_ heq
    · exact WF_init _ (sortAndDedup_pairwise _)
    · intro f hf
      constructor
      · rw [mem_sortAndDedup]
        exact List.mem_flatMap.mpr ⟨f, hf, List.mem_cons_self _ _⟩
      · rw [mem_sortAndDedup]
        exact List.mem_flatMap.mpr
          ⟨f, hf, List.mem_cons_of_mem _ (List.mem_cons_self _ _)⟩

end StepLemmas

section SameLevelDisjoint

variable {α : Type} [LinearOrder α] [Inhabited α]

instance (f g : FileMetadata α) : Decidable (spansOverlap f g) := by
  unfold spansOverlap
  infer_instance

/-- In a well-formed state, the files of a sublevel are pairwise
span-disjoint in stored order. -/
theorem lvl_pairwise (s : L0Sublevels α) (hwf : WF s) {sl : Nat}
    (hsl : sl < s.Levels.length) :
    List.Pairwise (fun a b => (fileAt s a).maxIntervalIndex <
      (fileAt s b).minIntervalIndex) (s.Levels.getD sl []) := by
  have hch := hwf.lvlChain sl hsl
  have hch2 : List.Chain' (fun a b =>
      (fileAt s a).maxIntervalIndex < (fileAt s b).minIntervalIndex ∧
      (fileAt s b).minIntervalIndex ≤ (fileAt s b).maxIntervalIndex)
      (s.Levels.getD sl []) := by
    apply chain'_congr_mem hch
    intro a _ b hb hab
    exact ⟨hab, hwf.spanValid b (hwf.lvlMembers sl hsl b hb).1⟩
  have hpw := chain'_pairwise_of_trans
    (fun a b c h1 h2 => ⟨by omega, h2.2⟩) hch2
  exact hpw.imp (fun h => h.1)

/-- In a well-formed state, two distinct files on the same sublevel never
have overlapping interval spans. -/
theorem WF_same_level_disjoint (s : L0Sublevels α) (hwf : WF s) {j j2 : Nat}
    (hj : j < s.levelMetadata.length) (hj2 : j2 < s.levelMetadata.length)
    (hne : j2 ≠ j) (hsl : (fileAt s j2).subLevel = (fileAt s j).subLevel) :
    ¬ spansOverlap (fileAt s j) (fileAt s j2) := by
  intro hov
  have hm1 := hwf.inLevel j hj
  have hm2 := hwf.inLevel j2 hj2
  rw [hsl] at hm2
  have hsllt := hwf.subLevelBound j hj
  have hpw := lvl_pairwise s hwf hsllt
  have hpw2 : List.Pairwise (fun a b =>
      (fileAt s a).maxIntervalIndex < (fileAt s b).minIntervalIndex ∨
      (fileAt s b).maxIntervalIndex < (fileAt s a).minIntervalIndex)
      (s.Levels.getD (fileAt s j).subLevel []) := hpw.imp Or.inl
  have hsym : Symmetric (fun a b : Nat =>
      (fileAt s a).maxIntervalIndex < (fileAt s b).minIntervalIndex ∨
      (fileAt s b).maxIntervalIndex < (fileAt s a).minIntervalIndex) := by
    intro a b hab
    rcases hab with h | h
    · exact Or.inr h
    · exact Or.inl h
  have hrel := hpw2.forall hsym hm1 hm2 (fun he => hne he.symm)
  unfold spansOverlap at hov
  rcases hrel with h | h <;> omega

end SameLevelDisjoint

section ClaimC3C4

/-- Input of the C3 counterexample: a one-key file, a two-key file stacked
on it, and a third file touching only the second key. -/
def c3files : List (FileMetadata Nat) :=
  [wfile 0 0 10 1 false false, wfile 0 1 10 2 false false,
   wfile 1 1 10 3 false false]

/-- The engine built from `c3files`. -/
def c3s : L0Sublevels Nat := okState (NewL0Sublevels c3files 1000)

/-- Formalisation of claim C3 as stated: every file sits at the smallest
sublevel admitting it, i.e. every sublevel below a file's own contains a
file whose interval span overlaps it. -/
def specSubLevelMinimal {α : Type} [LinearOrder α] [Inhabited α]
    (s : L0Sublevels α) : Prop :=
  ∀ j < s.levelMetadata.length, ∀ sl2 < (fileAt s j).subLevel,
    ∃ j2, j2 < s.levelMetadata.length ∧ j2 ≠ j ∧ (fileAt s j2).subLevel = sl2 ∧
      spansOverlap (fileAt s j) (fileAt s j2)

/-- Counterexample to C3: in the engine built from `c3files`, the third file
is placed at sublevel 2 (one above the file it stacks on), yet no file of
sublevel 0 overlaps it, so its sublevel is not the minimal one the claim
describes. -/
theorem claimC3_counterexample :
    NewL0Sublevels c3files 1000 = .ok c3s ∧ ValidInput c3files ∧
      ¬ specSubLevelMinimal c3s := by
  refine ⟨rfl, by unfold ValidInput; decide, ?_⟩
  intro hspec
  obtain ⟨j2, hj2, hne, hsl0, hov⟩ := hspec 2 (by decide) 0 (by decide)
  unfold spansOverlap at hov
  have hcon : ∀ j3 < c3s.levelMetadata.length,
      ¬((fileAt c3s j3).subLevel = 0 ∧
        (fileAt c3s 2).minIntervalIndex ≤ (fileAt c3s j3).maxIntervalIndex ∧
        (fileAt c3s j3).minIntervalIndex ≤ (fileAt c3s 2).maxIntervalIndex) := by
    decide
  exact hcon j2 hj2 ⟨hsl0, hov.1, hov.2⟩

/-- C3 (amended): in every constructed engine, a file's sublevel is free of
interval-span overlap with any other file on the same sublevel, and a
positive sublevel is always supported by an overlapping file exactly one
sublevel below.  The constructor assigns one plus the height of the tallest
stack under the file, which need not be the globally smallest overlap-free
sublevel claimed by the spec. -/
theorem claimC3_sublevel_no_overlap_supported {α : Type} [LinearOrder α]
    [Inhabited α] (files : List (FileMetadata α)) (maxBytes : Int)
    {s : L0Sublevels α} (hvi : ValidInput files)
    (h : NewL0Sublevels files maxBytes = .ok s) :
    ∀ j < s.levelMetadata.length,
      (∀ j2 < s.levelMetadata.length, j2 ≠ j →
        (fileAt s j2).subLevel = (fileAt s j).subLevel →
        ¬ spansOverlap (fileAt s j) (fileAt s j2)) ∧
      (0 < (fileAt s j).subLevel →
        ∃ j2, j2 < s.levelMetadata.length ∧
          (fileAt s j2).subLevel = (fileAt s j).subLevel - 1 ∧
          spansOverlap (fileAt s j) (fileAt s j2)) := by
  have hwf := NewL0Sublevels_WF files maxBytes hvi h
  intro j hj
  exact ⟨fun j2 hj2 hne hsl => WF_same_level_disjoint s hwf hj hj2 hne hsl,
    hwf.prevLevel j hj⟩

theorem claimC3_sublevel_no_overlap_supported_witness :
    ValidInput c3files ∧ 2 < c3s.levelMetadata.length ∧
      ((∀ j2 < c3s.levelMetadata.length, j2 ≠ 2 →
          (fileAt c3s j2).subLevel = (fileAt c3s 2).subLevel →
          ¬ spansOverlap (fileAt c3s 2) (fileAt c3s j2)) ∧
        (0 < (fileAt c3s 2).subLevel →
          ∃ j2, j2 < c3s.levelMetadata.length ∧
            (fileAt c3s j2).subLevel = (fileAt c3s 2).subLevel - 1 ∧
            spansOverlap (fileAt c3s 2) (fileAt c3s j2))) :=
  ⟨by unfold ValidInput; decide, by decide,
   @claimC3_sublevel_no_overlap_supported Nat _ _ c3files 1000 c3s
     (by unfold ValidInput; decide) (by rfl) 2 (by decide)⟩

/-- Input of the C4 witness: two stacked files and one disjoint file. -/
def c4files : List (FileMetadata Nat) :=
  [wfile 1 2 10 1 false false, wfile 1 2 10 2 false false,
   wfile 3 4 10 3 false false]

/-- The engine built from `c4files`. -/
def c4s : L0Sublevels Nat := okState (NewL0Sublevels c4files 1000)

/-- C4: in every constructed engine, each sublevel's file list is ordered so
that adjacent files satisfy `maxIntervalIndex < minIntervalIndex` of the
next, and hence all files of one sublevel are pairwise disjoint and in
ascending key order. -/
theorem claimC4_sublevel_files_ordered {α : Type} [LinearOrder α] [Inhabited α]
    (files : List (FileMetadata α)) (maxBytes : Int) {s : L0Sublevels α}
    (hvi : ValidInput files) (h : NewL0Sublevels files maxBytes = .ok s)
    (sl : Nat) :
    List.Chain' (fun a b => (fileAt s a).maxIntervalIndex <
      (fileAt s b).minIntervalIndex) (s.Levels.getD sl []) ∧
    List.Pairwise (fun a b => (fileAt s a).maxIntervalIndex <
      (fileAt s b).minIntervalIndex) (s.Levels.getD sl []) := by
  have hwf := NewL0Sublevels_WF files maxBytes hvi h
  by_cases hsl : sl < s.Levels.length
  · exact ⟨hwf.lvlChain sl hsl, lvl_pairwise s hwf hsl⟩
  · rw [List.getD_eq_default _ _ (by omega)]
    exact ⟨List.chain'_nil, List.Pairwise.nil⟩

theorem claimC4_sublevel_files_ordered_witness :
    ValidInput c4files ∧ NewL0Sublevels c4files 1000 = .ok c4s ∧
      (List.Chain' (fun a b => (fileAt c4s a).maxIntervalIndex <
        (fileAt c4s b).minIntervalIndex) (c4s.Levels.getD 0 []) ∧
      List.Pairwise (fun a b => (fileAt c4s a).maxIntervalIndex <
        (fileAt c4s b).minIntervalIndex) (c4s.Levels.getD 0 [])) :=
  ⟨by unfold ValidInput; decide, rfl,
   @claimC4_sublevel_files_ordered Nat _ _ c4files 1000 c4s
     (by unfold ValidInput; decide) (by rfl) 0⟩

end ClaimC3C4

section ClaimC6

variable {α : Type} [LinearOrder α] [Inhabited α]

/-- The loop body of `ReadAmplification`. -/
def ampStep (amp : Nat) (iv : fileInterval α) : Nat :=
  if amp < iv.fileCount then iv.fileCount else amp

theorem ReadAmplification_eq (s : L0Sublevels α) :
    ReadAmplification s = s.orderedIntervals.foldl ampStep 0 := rfl

theorem intervalAt_mem (s : L0Sublevels α) {i : Nat}
    (hi : i < s.orderedIntervals.length) : intervalAt s i ∈ s.orderedIntervals := by
  unfold intervalAt
  rw [List.getD_eq_getElem _ _ hi]
  exact List.getElem_mem _

theorem ampFold_ge_init (l : List (fileInterval α)) (init : Nat) :
    init ≤ l.foldl ampStep init := by
  induction l generalizing init with
  | nil => exact le_refl _
  | cons iv rest ih =>
    rw [List.foldl_cons]
    refine le_trans ?_ (ih _)
    unfold ampStep
    split <;> omega

theorem ampFold_ge_mem (l : List (fileInterval α)) (init : Nat) :
    ∀ iv ∈ l, iv.fileCount ≤ l.foldl ampStep init := by
  induction l generalizing init with
  | nil => simp
  | cons iv0 rest ih =>
    intro iv hiv
    rw [List.foldl_cons]
    rcases List.mem_cons.mp hiv with h | h
    · subst h
      refine le_trans ?_ (ampFold_ge_init rest _)
      unfold ampStep
      split <;> omega
    · exact ih _ iv h

theorem ampFold_achieve (l : List (fileInterval α)) (init : Nat) :
    l.foldl ampStep init = init ∨
      ∃ iv ∈ l, l.foldl ampStep init = iv.fileCount := by
  induction l generalizing init with
  | nil => exact Or.inl rfl
  | cons iv0 rest ih =>
    rw [List.foldl_cons]
    have hstep : ampStep init iv0 = init ∨ ampStep init iv0 = iv0.fileCount := by
      unfold ampStep
      split
      · exact Or.inr rfl
      · exact Or.inl rfl
    rcases ih (ampStep init iv0) with h2 | h2
    · rw [h2]
      rcases hstep with h3 | h3
      · exact Or.inl h3
      · exact Or.inr ⟨iv0, List.mem_cons_self _ _, h3⟩
    · rcases h2 with ⟨iv, hiv, h3⟩
      exact Or.inr ⟨iv, List.mem_cons_of_mem _ hiv, h3⟩

/-- Strictness of the interval start keys, in `intervalAt` form. -/
theorem startKey_lt (s : L0Sublevels α) (hwf : WF s) {p q : Nat} (hpq : p < q)
    (hq : q < s.orderedIntervals.length) :
    ikLt (intervalAt s p).startKey (intervalAt s q).startKey := by
  have hp : p < s.orderedIntervals.length := lt_trans hpq hq
  have h2 := List.pairwise_iff_getElem.mp hwf.keysSorted p q
    (by simpa using hp) (by simpa using hq) hpq
  rw [List.getElem_map, List.getElem_map] at h2
  unfold intervalAt
  rw [List.getD_eq_getElem _ _ hp, List.getD_eq_getElem _ _ hq]
  exact h2

theorem ikLe_lt_trans {a b c : IntervalKey α} (h1 : ikLe a b) (h2 : ikLt b c) :
    ikLt a c := by
  rcases ikLe_iff.mp h1 with h | h
  · exact ikLt_trans h h2
  · rw [h]
    exact h2

theorem ikLt_le_trans {a b c : IntervalKey α} (h1 : ikLt a b) (h2 : ikLe b c) :
    ikLt a c := by
  rcases ikLe_iff.mp h2 with h | h
  · exact ikLt_trans h1 h
  · rw [← h]
    exact h1

theorem ikLt_key_le {a b : IntervalKey α} (h : ikLt a b) : a.key ≤ b.key := by
  unfold ikLt at h
  rcases h with h | ⟨h, _, _⟩
  · exact le_of_lt h
  · exact le_of_eq h

/-- The interval key at which a point lookup of user key `k` falls. -/
def userIK (k : α) : IntervalKey α := ⟨k, false⟩

theorem ikLe_userIK {x k : α} :
    ikLe (⟨x, false⟩ : IntervalKey α) (userIK k) ↔ x ≤ k := by
  rw [ikLe_iff]
  unfold userIK ikLt
  constructor
  · rintro ((h | ⟨h, _, hf⟩) | h)
    · exact le_of_lt h
    · exact absurd hf (by simp)
    · injection h with h1 h2
      exact le_of_eq h1
  · intro h
    rcases lt_or_eq_of_le h with h2 | h2
    · exact Or.inl (Or.inl h2)
    · exact Or.inr (by rw [h2])

theorem userIK_le_self (q : IntervalKey α) : ikLe (userIK q.key) q := by
  rw [ikLe_iff]
  cases q with
  | mk k b =>
    cases b
    · exact Or.inr rfl
    · exact Or.inl (Or.inr ⟨rfl, rfl, rfl⟩)

/-- A file's key range contains user key `k`: `Smallest ≤ k` and `k ≤
Largest`, the upper bound strict when the largest boundary is the
range-delete sentinel (which is exclusive). -/
def fileContainsKey (f : FileMetadata α) (k : α) : Prop :=
  f.Smallest ≤ k ∧ (k < f.Largest ∨ (k = f.Largest ∧ f.largestIsSentinel = false))

instance (f : FileMetadata α) (k : α) : Decidable (fileContainsKey f k) := by
  unfold fileContainsKey
  infer_instance

/-- User-key containment matches membership of the lookup point in the
file's half-open interval-key range. -/
theorem fileContainsKey_iff (f : FileMetadata α) (k : α) :
    fileContainsKey f k ↔
      ikLe (startIK f) (userIK k) ∧ ikLt (userIK k) (endIK f) := by
  unfold fileContainsKey
  constructor
  · rintro ⟨h1, h2⟩
    constructor
    · exact ikLe_userIK.mpr h1
    · unfold userIK endIK ikLt
      rcases h2 with h | ⟨h, hs⟩
      · exact Or.inl h
      · refine Or.inr ⟨h, rfl, ?_⟩
        rw [hs]
        rfl
  · rintro ⟨h1, h2⟩
    constructor
    · exact ikLe_userIK.mp h1
    · unfold userIK endIK ikLt at h2
      rcases h2 with h | ⟨h, _, hL⟩
      · exact Or.inl h
      · refine Or.inr ⟨h, ?_⟩
        cases hsent : f.largestIsSentinel
        · rfl
        · rw [hsent] at hL
          exact absurd hL (by simp)

/-- The number of distinct sublevels holding a file whose key range
contains user key `k`. -/
def sublevelsAtKey (s : L0Sublevels α) (k : α) : Nat :=
  (((List.range s.levelMetadata.length).filter
      (fun j => decide (fileContainsKey (fileAt s j) k))).map
    (fun j => (fileAt s j).subLevel)).toFinset.card

/-- The sublevels of the files of one interval are pairwise distinct. -/
theorem interval_subLevels_nodup (s : L0Sublevels α) (hwf : WF s) {i : Nat}
    (hi : i < s.orderedIntervals.length) :
    ((intervalAt s i).files.map (fun j => (fileAt s j).subLevel)).Nodup := by
  have hch := hwf.ivChain i hi
  have hpw := chain'_pairwise_of_trans
    (fun a b c h1 h2 => ⟨lt_trans h1.1 h2.1, lt_trans h1.2 h2.2⟩) hch
  exact List.pairwise_map.mpr (hpw.imp (fun h => Nat.ne_of_lt h.2))

/-- Every file covering an interval contains the interval's starting user
key. -/
theorem covers_containsKey (s : L0Sublevels α) (hwf : WF s) {i j : Nat}
    (hi : i < s.orderedIntervals.length) (hj : j ∈ (intervalAt s i).files) :
    fileContainsKey (fileAt s j) (intervalAt s i).startKey.key := by
  obtain ⟨hjA, hmin, hmax⟩ := hwf.ivMembers i hi j hj
  rw [fileContainsKey_iff]
  constructor
  · show ikLe (⟨(fileAt s j).Smallest, false⟩ : IntervalKey α) _
    rw [ikLe_userIK]
    rcases Nat.lt_or_ge (fileAt s j).minIntervalIndex i with hlt | hge
    · have hik := startKey_lt s hwf hlt hi
      rw [hwf.startKeyMin j hjA] at hik
      exact ikLt_key_le hik
    · have he : (fileAt s j).minIntervalIndex = i := by omega
      have h2 := hwf.startKeyMin j hjA
      rw [he] at h2
      rw [h2]
      exact le_refl _
  · have hb := hwf.startKeyMax j hjA
    have hik : ikLt (intervalAt s i).startKey
        (intervalAt s ((fileAt s j).maxIntervalIndex + 1)).startKey :=
      startKey_lt s hwf (by omega) (hwf.spanBound j hjA)
    rw [hb] at hik
    exact ikLe_lt_trans (userIK_le_self _) hik

/-- Upper bound: looking up any single user key crosses at most
`ReadAmplification` distinct sublevels. -/
theorem sublevelsAtKey_le_amp (s : L0Sublevels α) (hwf : WF s) (k : α) :
    sublevelsAtKey s k ≤ ReadAmplification s := by
  unfold sublevelsAtKey
  by_cases hempty : (List.range s.levelMetadata.length).filter
      (fun j => decide (fileContainsKey (fileAt s j) k)) = []
  · rw [hempty]
    simp
  · obtain ⟨j0, hj0⟩ := List.exists_mem_of_ne_nil _ hempty
    have hj0A : j0 < s.levelMetadata.length :=
      List.mem_range.mp (List.mem_filter.mp hj0).1
    have hj0c : fileContainsKey (fileAt s j0) k :=
      of_decide_eq_true (List.mem_filter.mp hj0).2
    have hlen0 : 0 < s.orderedIntervals.length := by
      have := hwf.spanBound j0 hj0A
      omega
    have hPmin : ∀ j2, j2 < s.levelMetadata.length →
        fileContainsKey (fileAt s j2) k →
        ikLe (intervalAt s (fileAt s j2).minIntervalIndex).startKey (userIK k) := by
      intro j2 hj2 hc
      rw [hwf.startKeyMin j2 hj2]
      exact ((fileContainsKey_iff _ _).mp hc).1
    have hminb : ∀ j2, j2 < s.levelMetadata.length →
        (fileAt s j2).minIntervalIndex ≤ s.orderedIntervals.length - 1 := by
      intro j2 hj2
      have h1 := hwf.spanValid j2 hj2
      have h2 := hwf.spanBound j2 hj2
      omega
    have hi0lt : Nat.findGreatest
        (fun i2 => ikLe (intervalAt s i2).startKey (userIK k))
        (s.orderedIntervals.length - 1) < s.orderedIntervals.length := by
      have := @Nat.findGreatest_le
        (fun i2 => ikLe (intervalAt s i2).startKey (userIK k)) _
        (s.orderedIntervals.length - 1)
      omega
    have hi0P : ikLe (intervalAt s (Nat.findGreatest
        (fun i2 => ikLe (intervalAt s i2).startKey (userIK k))
        (s.orderedIntervals.length - 1))).startKey (userIK k) :=
      @Nat.findGreatest_spec (fileAt s j0).minIntervalIndex
        (fun i2 => ikLe (intervalAt s i2).startKey (userIK k)) _
        (s.orderedIntervals.length - 1) (hminb j0 hj0A) (hPmin j0 hj0A hj0c)
    have hcover : ∀ j2 ∈ (List.range s.levelMetadata.length).filter
        (fun j => decide (fileContainsKey (fileAt s j) k)),
        j2 ∈ (intervalAt s (Nat.findGreatest
          (fun i2 => ikLe (intervalAt s i2).startKey (userIK k))
          (s.orderedIntervals.length - 1))).files := by
      intro j2 hj2m
      have hj2A : j2 < s.levelMetadata.length :=
        List.mem_range.mp (List.mem_filter.mp hj2m).1
      have hj2c : fileContainsKey (fileAt s j2) k :=
        of_decide_eq_true (List.mem_filter.mp hj2m).2
      have hge : (fileAt s j2).minIntervalIndex ≤ Nat.findGreatest
          (fun i2 => ikLe (intervalAt s i2).startKey (userIK k))
          (s.orderedIntervals.length - 1) :=
        Nat.le_findGreatest (hminb j2 hj2A) (hPmin j2 hj2A hj2c)
      have hle2 : Nat.findGreatest
          (fun i2 => ikLe (intervalAt s i2).startKey (userIK k))
          (s.orderedIntervals.length - 1) ≤ (fileAt s j2).maxIntervalIndex := by
        by_contra hgt
        push_neg at hgt
        have h2 : ikLt (userIK k)
            (intervalAt s ((fileAt s j2).maxIntervalIndex + 1)).startKey := by
          rw [hwf.startKeyMax j2 hj2A]
          exact ((fileContainsKey_iff _ _).mp hj2c).2
        have h3 : ikLe (intervalAt s ((fileAt s j2).maxIntervalIndex + 1)).startKey
            (intervalAt s (Nat.findGreatest
              (fun i2 => ikLe (intervalAt s i2).startKey (userIK k))
              (s.orderedIntervals.length - 1))).startKey := by
          rcases Nat.eq_or_lt_of_le (by omega : (fileAt s j2).maxIntervalIndex + 1 ≤
              Nat.findGreatest (fun i2 => ikLe (intervalAt s i2).startKey (userIK k))
                (s.orderedIntervals.length - 1)) with he | hlt
          · rw [he, ikLe_iff]
            exact Or.inr rfl
          · rw [ikLe_iff]
            exact Or.inl (startKey_lt s hwf hlt hi0lt)
        exact ikLt_irrefl _ (ikLt_le_trans (ikLt_le_trans h2 h3) hi0P)
      exact hwf.coverage j2 hj2A _ hge hle2
    calc (((List.range s.levelMetadata.length).filter
          (fun j => decide (fileContainsKey (fileAt s j) k))).map
        (fun j => (fileAt s j).subLevel)).toFinset.card
        ≤ (((intervalAt s (Nat.findGreatest
            (fun i2 => ikLe (intervalAt s i2).startKey (userIK k))
            (s.orderedIntervals.length - 1))).files.map
          (fun j => (fileAt s j).subLevel)).toFinset).card := by
          apply Finset.card_le_card
          intro x hx
          rw [List.mem_toFinset] at hx ⊢
          obtain ⟨j2, hj2m, rfl⟩ := List.mem_map.mp hx
          exact List.mem_map.mpr ⟨j2, hcover j2 hj2m, rfl⟩
      _ ≤ ((intervalAt s (Nat.findGreatest
            (fun i2 => ikLe (intervalAt s i2).startKey (userIK k))
            (s.orderedIntervals.length - 1))).files.map
          (fun j => (fileAt s j).subLevel)).length := List.toFinset_card_le _
      _ = (intervalAt s (Nat.findGreatest
            (fun i2 => ikLe (intervalAt s i2).startKey (userIK k))
            (s.orderedIntervals.length - 1))).files.length := List.length_map _ _
      _ = (intervalAt s (Nat.findGreatest
            (fun i2 => ikLe (intervalAt s i2).startKey (userIK k))
            (s.orderedIntervals.length - 1))).fileCount :=
          (hwf.ivCount _ hi0lt).symm
      _ ≤ ReadAmplification s := by
          rw [ReadAmplification_eq]
          exact ampFold_ge_mem _ 0 _ (intervalAt_mem s hi0lt)

/-- Lower bound: the starting user key of any interval is looked up in at
least that interval's `fileCount` distinct sublevels. -/
theorem amp_le_sublevelsAtKey (s : L0Sublevels α) (hwf : WF s) {i : Nat}
    (hi : i < s.orderedIntervals.length) :
    (intervalAt s i).fileCount ≤ sublevelsAtKey s (intervalAt s i).startKey.key := by
  unfold sublevelsAtKey
  have hnodup := interval_subLevels_nodup s hwf hi
  calc (intervalAt s i).fileCount
      = (intervalAt s i).files.length := hwf.ivCount i hi
    _ = ((intervalAt s i).files.map (fun j => (fileAt s j).subLevel)).toFinset.card := by
        rw [List.toFinset_card_of_nodup hnodup, List.length_map]
    _ ≤ (((List.range s.levelMetadata.length).filter
          (fun j => decide (fileContainsKey (fileAt s j)
            (intervalAt s i).startKey.key))).map
        (fun j => (fileAt s j).subLevel)).toFinset.card := by
        apply Finset.card_le_card
        intro x hx
        rw [List.mem_toFinset] at hx ⊢
        obtain ⟨j2, hj2m, rfl⟩ := List.mem_map.mp hx
        refine List.mem_map.mpr ⟨j2, ?_, rfl⟩
        refine List.mem_filter.mpr ⟨?_, ?_⟩
        · exact List.mem_range.mpr (hwf.ivMembers i hi j2 hj2m).1
        · exact decide_eq_true (covers_containsKey s hwf hi hj2m)

/-- C6: in every constructed engine, `ReadAmplification` is exactly the
maximum `fileCount` over the intervals, every single-user-key lookup
crosses at most that many distinct sublevels, and some user key attains the
bound whenever it is positive. -/
theorem claimC6_read_amplification {α : Type} [LinearOrder α] [Inhabited α]
    (files : List (FileMetadata α)) (maxBytes : Int) {s : L0Sublevels α}
    (hvi : ValidInput files) (h : NewL0Sublevels files maxBytes = .ok s) :
    (∀ i < s.orderedIntervals.length,
      (intervalAt s i).fileCount ≤ ReadAmplification s) ∧
    (ReadAmplification s = 0 ∨ ∃ i, i < s.orderedIntervals.length ∧
      (intervalAt s i).fileCount = ReadAmplification s) ∧
    (∀ k : α, sublevelsAtKey s k ≤ ReadAmplification s) ∧
    (0 < ReadAmplification s →
      ∃ k : α, sublevelsAtKey s k = ReadAmplification s) := by
  have hwf := NewL0Sublevels_WF files maxBytes hvi h
  refine ⟨?_, ?_, fun k => sublevelsAtKey_le_amp s hwf k, ?_⟩
  · intro i hi
    rw [ReadAmplification_eq]
    exact ampFold_ge_mem _ 0 _ (intervalAt_mem s hi)
  · rcases ampFold_achieve s.orderedIntervals 0 with h2 | ⟨iv, hiv, h2⟩
    · exact Or.inl (by rw [ReadAmplification_eq, h2])
    · right
      obtain ⟨i, hi, hEl⟩ := List.mem_iff_getElem.mp hiv
      refine ⟨i, hi, ?_⟩
      unfold intervalAt
      rw [List.getD_eq_getElem _ _ hi, hEl, ReadAmplification_eq, h2]
  · intro hpos
    rcases ampFold_achieve s.orderedIntervals 0 with h2 | ⟨iv, hiv, h2⟩
    · rw [ReadAmplification_eq, h2] at hpos
      omega
    · obtain ⟨i, hi, hEl⟩ := List.mem_iff_getElem.mp hiv
      have hcount : (intervalAt s i).fileCount = ReadAmplification s := by
        unfold intervalAt
        rw [List.getD_eq_getElem _ _ hi, hEl, ReadAmplification_eq, h2]
      refine ⟨(intervalAt s i).startKey.key, le_antisymm ?_ ?_⟩
      · exact sublevelsAtKey_le_amp s hwf _
      · rw [← hcount]
        exact amp_le_sublevelsAtKey s hwf hi

theorem claimC6_read_amplification_witness :
    ValidInput c4files ∧
      ((∀ i < c4s.orderedIntervals.length,
        (intervalAt c4s i).fileCount ≤ ReadAmplification c4s) ∧
      (ReadAmplification c4s = 0 ∨ ∃ i, i < c4s.orderedIntervals.length ∧
        (intervalAt c4s i).fileCount = ReadAmplification c4s) ∧
      (∀ k : Nat, sublevelsAtKey c4s k ≤ ReadAmplification c4s) ∧
      (0 < ReadAmplification c4s →
        ∃ k : Nat, sublevelsAtKey c4s k = ReadAmplification c4s)) :=
  ⟨by unfold ValidInput; decide,
   @claimC6_read_amplification Nat _ _ c4files 1000 c4s
     (by unfold ValidInput; decide) (by rfl)⟩

end ClaimC6

section RectangleOk

variable {α : Type} [LinearOrder α] [Inhabited α]

theorem closeRun_runFirst (st : RunState) (last : Nat) (sp : Bool) :
    (closeRun st last sp).runFirst = st.runFirst := by
  unfold closeRun
  split
  · rfl
  · split <;> rfl

theorem closeRun_cases (st : RunState) (last : Nat) (sp : Bool) :
    ((closeRun st last sp).candFirst = st.candFirst ∧
      (closeRun st last sp).candLast = st.candLast) ∨
    (∃ nf, st.runFirst = some nf ∧ (closeRun st last sp).candFirst = some nf ∧
      (closeRun st last sp).candLast = last) := by
  unfold closeRun
  split
  · exact Or.inl ⟨rfl, rfl⟩
  · rename_i nf hnf
    split
    · exact Or.inr ⟨nf, hnf, rfl, rfl⟩
    · exact Or.inl ⟨rfl, rfl⟩

/-- One unfolding of the run scan with the successor state flattened into a
single record. -/
theorem runScan_cons (s : L0Sublevels α) (cFI : List Bool) (j : Nat)
    (rest : List Nat) (pos : Nat) (st : RunState) :
    runScan s cFI (j :: rest) pos st =
      if (fileAt s j).Compacting then
        runScan s cFI rest (pos + 1)
          { closeRun st (pos - 1) true with runFirst := none, curPicked := false }
      else
        runScan s cFI rest (pos + 1)
          { st with
            runFirst := if st.runFirst.isNone then some pos else st.runFirst,
            curPicked := if cFI.getD (fileAt s j).l0Index false then true
              else st.curPicked } := by
  rw [runScan]
  dsimp only
  split
  · rfl
  · congr 1
    split <;> split <;> rfl

/-- The run scan only proposes runs of non-compacting positions: any open
run and any candidate run consists of positions `p` with `good p`, where
`good` abstracts "the file at position `p` is not compacting". -/
theorem runScan_good (s : L0Sublevels α) (cFI : List Bool) (good : Nat → Prop) :
    ∀ (l : List Nat) (pos : Nat) (st : RunState),
    (∀ m, m < l.length → (fileAt s (l.getD m 0)).Compacting = false → good (pos + m)) →
    (∀ nf, st.runFirst = some nf → nf < pos ∧ ∀ p, nf ≤ p → p < pos → good p) →
    (∀ cf, st.candFirst = some cf → ∀ p, cf ≤ p → p ≤ st.candLast → good p) →
    (∀ nf, (runScan s cFI l pos st).runFirst = some nf →
        nf < pos + l.length ∧ ∀ p, nf ≤ p → p < pos + l.length → good p) ∧
    (∀ cf, (runScan s cFI l pos st).candFirst = some cf →
        ∀ p, cf ≤ p → p ≤ (runScan s cFI l pos st).candLast → good p) := by
  intro l
  induction l with
  | nil =>
    intro pos st h3 h1 h2
    refine ⟨?_, h2⟩
    intro nf hnf
    obtain ⟨ha, hb⟩ := h1 nf hnf
    simp only [List.length_nil, Nat.add_zero]
    exact ⟨ha, hb⟩
  | cons j rest ih =>
    intro pos st h3 h1 h2
    have h3t : ∀ m, m < rest.length →
        (fileAt s (rest.getD m 0)).Compacting = false → good (pos + 1 + m) := by
      intro m hm hc
      have h4 := h3 (m + 1) (by simpa using Nat.succ_lt_succ hm) (by simpa using hc)
      have he : pos + (m + 1) = pos + 1 + m := by omega
      rw [he] at h4
      exact h4
    have hlift : ∀ (st2 : RunState),
        ((∀ nf, (runScan s cFI rest (pos + 1) st2).runFirst = some nf →
          nf < pos + 1 + rest.length ∧
            ∀ p, nf ≤ p → p < pos + 1 + rest.length → good p) ∧
        (∀ cf, (runScan s cFI rest (pos + 1) st2).candFirst = some cf →
          ∀ p, cf ≤ p → p ≤ (runScan s cFI rest (pos + 1) st2).candLast → good p)) →
        ((∀ nf, (runScan s cFI rest (pos + 1) st2).runFirst = some nf →
          nf < pos + (j :: rest).length ∧
            ∀ p, nf ≤ p → p < pos + (j :: rest).length → good p) ∧
        (∀ cf, (runScan s cFI rest (pos + 1) st2).candFirst = some cf →
          ∀ p, cf ≤ p → p ≤ (runScan s cFI rest (pos + 1) st2).candLast → good p)) := by
      intro st2 hres
      obtain ⟨hA, hB⟩ := hres
      refine ⟨?_, hB⟩
      intro nf hnf
      obtain ⟨ha, hb⟩ := hA nf hnf
      rw [List.length_cons]
      refine ⟨by omega, ?_⟩
      intro p hp1 hp2
      exact hb p hp1 (by omega)
    rw [runScan_cons]
    split
    · -- compacting head: close the open run and restart
      refine hlift _ (ih (pos + 1)
        { closeRun st (pos - 1) true with runFirst := none, curPicked := false }
        h3t ?_ ?_)
      · intro nf hnf
        simp at hnf
      · intro cf hcf
        have hcf2 : (closeRun st (pos - 1) true).candFirst = some cf := hcf
        show ∀ p, cf ≤ p → p ≤ (closeRun st (pos - 1) true).candLast → good p
        rcases closeRun_cases st (pos - 1) true with ⟨hc1, hc2⟩ | ⟨nf, hnf, hc1, hc2⟩
        · rw [hc2]
          rw [hc1] at hcf2
          exact h2 cf hcf2
        · rw [hc2]
          rw [hc1] at hcf2
          have hcfe : nf = cf := by
            injection hcf2
          obtain ⟨ha, hb⟩ := h1 nf hnf
          intro p hp1 hp2
          rw [← hcfe] at hp1
          exact hb p hp1 (by omega)
    · -- non-compacting head: extend or open the run
      rename_i hcomp
      have hcompf : (fileAt s j).Compacting = false := by
        cases hcc : (fileAt s j).Compacting
        · rfl
        · exact absurd hcc hcomp
      have hgoodpos : good pos := by
        have h4 := h3 0 (by simp) (by simpa using hcompf)
        simpa using h4
      refine hlift _ (ih (pos + 1) _ h3t ?_ ?_)
      · intro nf hnf
        have hnf2 : (if st.runFirst.isNone then some pos else st.runFirst) = some nf :=
          hnf
        cases hrfc : st.runFirst with
        | none =>
          rw [hrfc] at hnf2
          simp only [Option.isNone_none, if_true] at hnf2
          have hnfe : pos = nf := by
            injection hnf2
          refine ⟨by omega, ?_⟩
          intro p hp1 hp2
          have hpe : p = pos := by omega
          rw [hpe]
          exact hgoodpos
        | some nf0 =>
          rw [hrfc] at hnf2
          simp only [Option.isNone_some, if_false] at hnf2
          obtain ⟨ha, hb⟩ := h1 nf (by rw [hrfc]; exact hnf2)
          refine ⟨by omega, ?_⟩
          intro p hp1 hp2
          by_cases hpp : p < pos
          · exact hb p hp1 hpp
          · have hpe : p = pos := by omega
            rw [hpe]
            exact hgoodpos
      · intro cf hcf
        have hcf2 : st.candFirst = some cf := hcf
        show ∀ p, cf ≤ p → p ≤ st.candLast → good p
        exact h2 cf hcf2

/-- After the trailing closure, the chosen run consists only of good
positions, provided positions past the scanned slice but at most
`lastIndex` are also good. -/
theorem chosenRun_good (s : L0Sublevels α) (cFI : List Bool) (good : Nat → Prop)
    (l : List Nat) (pos lastIndex : Nat) (st : RunState)
    (h3 : ∀ m, m < l.length →
      (fileAt s (l.getD m 0)).Compacting = false → good (pos + m))
    (h1 : ∀ nf, st.runFirst = some nf → nf < pos ∧ ∀ p, nf ≤ p → p < pos → good p)
    (h2 : ∀ cf, st.candFirst = some cf → ∀ p, cf ≤ p → p ≤ st.candLast → good p)
    (hbeyond : ∀ p, pos + l.length ≤ p → p ≤ lastIndex → good p)
    {cf : Nat}
    (hcf : (closeRun (runScan s cFI l pos st) lastIndex false).candFirst = some cf) :
    ∀ p, cf ≤ p →
      p ≤ (closeRun (runScan s cFI l pos st) lastIndex false).candLast → good p := by
  obtain ⟨hA, hB⟩ := runScan_good s cFI good l pos st h3 h1 h2
  rcases closeRun_cases (runScan s cFI l pos st) lastIndex false with
    ⟨hc1, hc2⟩ | ⟨nf, hnf, hc1, hc2⟩
  · rw [hc2]
    rw [hc1] at hcf
    exact hB cf hcf
  · rw [hc2]
    rw [hc1] at hcf
    have hcfe : nf = cf := by
      injection hcf
    subst hcfe
    obtain ⟨ha, hb⟩ := hA nf hnf
    intro p hp1 hp2
    by_cases hpp : p < pos + l.length
    · exact hb p hp1 hpp
    · exact hbeyond p (by omega) hp2

/-- The run chosen over the slice `[firstIndex, lastIndex]` of a sublevel's
file list contains no compacting file. -/
theorem chosen_addSlice_ok (s : L0Sublevels α) (cFI : List Bool)
    (files : List Nat) (firstIndex lastIndex : Nat) {candFirst : Nat}
    (hcand : (closeRun (runScan s cFI ((files.take (lastIndex + 1)).drop firstIndex)
      firstIndex
      { runFirst := none, curPicked := false, candFirst := none,
        candLast := 0, candPicked := false }) lastIndex false).candFirst =
      some candFirst) :
    ∀ j ∈ (files.take ((closeRun (runScan s cFI
        ((files.take (lastIndex + 1)).drop firstIndex) firstIndex
        { runFirst := none, curPicked := false, candFirst := none,
          candLast := 0, candPicked := false }) lastIndex false).candLast + 1)).drop
        candFirst,
      (fileAt s j).Compacting = false := by
  have hlen : ((files.take (lastIndex + 1)).drop firstIndex).length =
      min (lastIndex + 1) files.length - firstIndex := by
    simp
  have hgood := chosenRun_good s cFI
    (fun p => p < files.length → (fileAt s (files.getD p 0)).Compacting = false)
    ((files.take (lastIndex + 1)).drop firstIndex) firstIndex lastIndex
    { runFirst := none, curPicked := false, candFirst := none,
      candLast := 0, candPicked := false }
    ?_ ?_ ?_ ?_ hcand
  · intro j hj
    obtain ⟨m, hm, hx⟩ := List.mem_iff_getElem.mp hj
    rw [List.getElem_drop] at hx
    have hm0 := hm
    simp only [List.length_drop, List.length_take] at hm0
    have hlt : candFirst + m < files.length := by omega
    have hm2 : candFirst + m < (files.take ((closeRun (runScan s cFI
        ((files.take (lastIndex + 1)).drop firstIndex) firstIndex
        { runFirst := none, curPicked := false, candFirst := none,
          candLast := 0, candPicked := false }) lastIndex false).candLast + 1)).length := by
      simp
      omega
    rw [List.getElem_take] at hx
    have hle : candFirst + m ≤ (closeRun (runScan s cFI
        ((files.take (lastIndex + 1)).drop firstIndex) firstIndex
        { runFirst := none, curPicked := false, candFirst := none,
          candLast := 0, candPicked := false }) lastIndex false).candLast := by
      omega
    have h5 := hgood (candFirst + m) (by omega) hle hlt
    rw [← hx]
    rw [List.getD_eq_getElem _ _ hlt] at h5
    exact h5
  · -- slice positions are good when their file is non-compacting
    intro m hm hc2 hlt
    have he : ((files.take (lastIndex + 1)).drop firstIndex).getD m 0 =
        files.getD (firstIndex + m) 0 := by
      rw [List.getD_eq_getElem _ _ hm, List.getElem_drop]
      have hm2 : firstIndex + m < (files.take (lastIndex + 1)).length := by
        rw [hlen] at hm
        simp
        omega
      rw [List.getElem_take]
      rw [List.getD_eq_getElem _ _ (by rw [hlen] at hm; omega)]
    rw [he] at hc2
    exact hc2
  · intro nf hnf
    simp at hnf
  · intro cf2 hcf2
    simp at hcf2
  · -- positions past the slice but at most lastIndex lie past the file list
    intro p hp1 hp2 hlt
    exfalso
    rw [hlen] at hp1
    have hM1 := Nat.min_le_left (lastIndex + 1) files.length
    have hM2 := Nat.min_le_right (lastIndex + 1) files.length
    rcases Nat.le_total (lastIndex + 1) files.length with hmm | hmm
    · rw [Nat.min_eq_left hmm] at hp1
      omega
    · rw [Nat.min_eq_right hmm] at hp1
      omega

theorem rectAddLoop_ok (s : L0Sublevels α) :
    ∀ (l : List Nat) (c : L0CompactionFiles α) (added : Nat),
    (∀ j ∈ l, (fileAt s j).Compacting = false) →
    ∃ r, rectAddLoop s l c added = .ok r := by
  intro l
  induction l with
  | nil =>
    intro c added _
    exact ⟨(c, added), rfl⟩
  | cons j rest ih =>
    intro c added hnc
    rw [rectAddLoop]
    have hj := hnc j (List.mem_cons_self _ _)
    rw [hj]
    rw [if_neg (by simp)]
    have hrest := fun j2 hj2 => hnc j2 (List.mem_cons_of_mem _ hj2)
    split
    · exact ih c added hrest
    · split
      · exact ih c added hrest
      · exact ih (addFile c (fileAt s j)) (added + 1) hrest

/-- The per-level extension loop never fails: every run the scan proposes
consists of non-compacting files, so the panic guard of the inclusion loop
is unreachable. -/
theorem rectLevels_ok (s : L0Sublevels α) :
    ∀ (lvls : List Nat) (minI maxI : Int) (c : L0CompactionFiles α) (added : Nat),
    ∃ r, rectLevels s lvls minI maxI c added = .ok r := by
  intro lvls
  induction lvls with
  | nil =>
    intro minI maxI c added
    exact ⟨(c, added), rfl⟩
  | cons sl rest ih =>
    intro minI maxI c added
    rw [rectLevels]
    dsimp only
    split
    · exact ⟨(c, added), rfl⟩
    · split
      · exact ih _ _ c added
      · rename_i firstIndex hfi
        split
        · exact ⟨(c, added), rfl⟩
        · rename_i candFirst hcand
          have hclean := chosen_addSlice_ok s c.FilesIncluded
            (s.Levels.getD sl []) firstIndex _ hcand
          obtain ⟨r2, hr2⟩ := rectAddLoop_ok s _ c added hclean
          rw [hr2]
          rcases r2 with ⟨c2, added2⟩
          exact ih _ _ c2 added2

/-- `extendCandidateToRectangle` never returns an error: the source's panic
on a compacting file inside the chosen run is unreachable. -/
theorem extendRect_ok (s : L0Sublevels α) (minI maxI : Nat)
    (cand : L0CompactionFiles α) (isBase : Bool) :
    ∃ r, extendCandidateToRectangle s minI maxI cand isBase = .ok r := by
  unfold extendCandidateToRectangle
  dsimp only
  obtain ⟨⟨c2, added⟩, hr⟩ := rectLevels_ok s _ _ _ _ 0
  rw [hr]
  exact ⟨(c2, decide (added > 0)), rfl⟩

end RectangleOk

section ScoresAndSeeds

variable {α : Type} [LinearOrder α] [Inhabited α]

theorem foldl_append_mem {β γ : Type} (step : List γ → β → List γ)
    (Q : β → γ → Prop)
    (hstep : ∀ acc x y, y ∈ step acc x → y ∈ acc ∨ Q x y)
    (l : List β) (init : List γ) :
    ∀ y ∈ l.foldl step init, y ∈ init ∨ ∃ x ∈ l, Q x y := by
  induction l generalizing init with
  | nil =>
    intro y hy
    exact Or.inl hy
  | cons x rest ih =>
    intro y hy
    rw [List.foldl_cons] at hy
    rcases ih (step init x) y hy with h | ⟨x2, hx2, hq⟩
    · rcases hstep init x y h with h2 | h2
      · exact Or.inl h2
      · exact Or.inr ⟨x, List.mem_cons_self _ _, h2⟩
    · exact Or.inr ⟨x2, List.mem_cons_of_mem _ hx2, hq⟩

/-- Every scored interval of the base picker is in range, not already
base-compacting, and at least `minCompactionDepth` deep. -/
theorem baseScores_mem (s : L0Sublevels α) (d : Int) {si : intervalAndScore}
    (h : si ∈ baseScores s d) :
    si.interval < s.orderedIntervals.length ∧
      (intervalAt s si.interval).isBaseCompacting = false ∧
      d ≤ (((intervalAt s si.interval).fileCount : Int) -
        ((intervalAt s si.interval).compactingFileCount : Int)) := by
  unfold baseScores at h
  have h2 := foldl_append_mem _
    (fun (x : Nat × fileInterval α) (y : intervalAndScore) =>
      y.interval = x.1 ∧ x.2.isBaseCompacting = false ∧
        d ≤ ((x.2.fileCount : Int) - (x.2.compactingFileCount : Int)))
    ?_ s.orderedIntervals.enum [] si h
  · rcases h2 with h3 | ⟨x, hx, hq⟩
    · simp at h3
    · rcases x with ⟨i2, iv⟩
      obtain ⟨hilt, hiv⟩ := List.mem_enum hx
      have hia : intervalAt s i2 = iv := by
        unfold intervalAt
        rw [List.getD_eq_getElem _ _ hilt, ← hiv]
      obtain ⟨hq1, hq2, hq3⟩ := hq
      rw [hq1, hia]
      exact ⟨hilt, hq2, hq3⟩
  · intro acc x y hy
    dsimp only at hy
    split at hy
    · exact Or.inl hy
    · rename_i hcond
      push_neg at hcond
      have hbase : x.2.isBaseCompacting = false := by
        cases hb : x.2.isBaseCompacting
        · rfl
        · exact absurd hb hcond.1
      split at hy
      · rcases List.mem_append.mp hy with h4 | h4
        · exact Or.inl h4
        · have hye := List.mem_singleton.mp h4
          subst hye
          exact Or.inr ⟨rfl, hbase, by have := hcond.2; omega⟩
      · rcases List.mem_append.mp hy with h4 | h4
        · exact Or.inl h4
        · have hye := List.mem_singleton.mp h4
          subst hye
          exact Or.inr ⟨rfl, hbase, by have := hcond.2; omega⟩

/-- Every scored interval of the intra picker is in range, its score is the
interval's non-compacting depth, and the score is at least
`minCompactionDepth`. -/
theorem intraScores_mem (s : L0Sublevels α) (d : Int) {si : intervalAndScore}
    (h : si ∈ intraScores s d) :
    si.interval < s.orderedIntervals.length ∧
      si.score = (((intervalAt s si.interval).fileCount : Int) -
        ((intervalAt s si.interval).compactingFileCount : Int)) ∧
      d ≤ si.score := by
  unfold intraScores at h
  have h2 := foldl_append_mem _
    (fun (x : Nat × fileInterval α) (y : intervalAndScore) =>
      y.interval = x.1 ∧
        y.score = ((x.2.fileCount : Int) - (x.2.compactingFileCount : Int)) ∧
        d ≤ y.score)
    ?_ s.orderedIntervals.enum [] si h
  · rcases h2 with h3 | ⟨x, hx, hq⟩
    · simp at h3
    · rcases x with ⟨i2, iv⟩
      obtain ⟨hilt, hiv⟩ := List.mem_enum hx
      have hia : intervalAt s i2 = iv := by
        unfold intervalAt
        rw [List.getD_eq_getElem _ _ hilt, ← hiv]
      obtain ⟨hq1, hq2, hq3⟩ := hq
      rw [hq1, hia]
      exact ⟨hilt, hq2, hq3⟩
  · intro acc x y hy
    dsimp only at hy
    split at hy
    · exact Or.inl hy
    · rename_i hcond
      push_neg at hcond
      rcases List.mem_append.mp hy with h4 | h4
      · exact Or.inl h4
      · have hye := List.mem_singleton.mp h4
        subst hye
        refine Or.inr ⟨rfl, rfl, ?_⟩
        show d ≤ (x.2.fileCount : Int) - (x.2.compactingFileCount : Int)
        omega

/-- Membership in a sorted score list is membership in the original. -/
theorem mem_insScored {x y : intervalAndScore} {l : List intervalAndScore} :
    y ∈ insScored x l ↔ y = x ∨ y ∈ l := by
  induction l with
  | nil =>
    unfold insScored
    simp
  | cons z zs ih =>
    unfold insScored
    split
    · simp
    · simp only [List.mem_cons, ih]
      constructor
      · rintro (h | h | h)
        · exact Or.inr (Or.inl h)
        · exact Or.inl h
        · exact Or.inr (Or.inr h)
      · rintro (h | h | h)
        · exact Or.inr (Or.inl h)
        · exact Or.inl h
        · exact Or.inr (Or.inr h)

theorem mem_sortScoredDec {y : intervalAndScore} {l : List intervalAndScore} :
    y ∈ sortScoredDec l ↔ y ∈ l := by
  induction l with
  | nil => rfl
  | cons z zs ih =>
    unfold sortScoredDec
    rw [mem_insScored]
    simp [ih]

/-- If the downward seed scan reports no file, the interval had none. -/
theorem intraSeedScan_some_prev (s : L0Sublevels α) (e : Nat) :
    ∀ (l : List Nat) (f0 : FileMetadata α) (red : Int) (cons : List Bool),
    (intraSeedScan s e l (some f0) red cons).1.isSome = true := by
  intro l
  induction l with
  | nil =>
    intro f0 red cons
    rfl
  | cons j rest ih =>
    intro f0 red cons
    rw [intraSeedScan]
    dsimp only
    split
    · rfl
    · split
      · split
        · rfl
        · exact ih _ _ _
      · rfl

theorem intraSeedScan_none (s : L0Sublevels α) (e : Nat) :
    ∀ (l : List Nat) (fPrev : Option (FileMetadata α)) (red : Int)
      (cons : List Bool) {r2 : Int} {c2 : List Bool},
    intraSeedScan s e l fPrev red cons = (none, r2, c2) →
    l = [] ∧ fPrev = none ∧ r2 = red := by
  intro l
  cases l with
  | nil =>
    intro fPrev red cons r2 c2 h
    rw [intraSeedScan] at h
    injection h with h1 h2
    injection h2 with h2 h3
    exact ⟨rfl, h1, h2.symm⟩
  | cons j rest =>
    intro fPrev red cons r2 c2 h
    rw [intraSeedScan] at h
    dsimp only at h
    split at h
    · injection h with h1 _
      cases h1
    · split at h
      · split at h
        · injection h with h1 _
          cases h1
        · have hs := intraSeedScan_some_prev s e rest (fileAt s j) (red - 1)
            (markRange cons (fileAt s j).minIntervalIndex
              ((fileAt s j).maxIntervalIndex + 1))
          rw [h] at hs
          cases hs
      · injection h with h1 _
        cases h1

/-- Case analysis for the file returned by the downward seed scan: it is
compacting, or flushed (sequence number below the barrier), or the budget
hit zero, or every file of the interval consumed one unit of budget. -/
theorem intraSeedScan_cases (s : L0Sublevels α) (e : Nat) :
    ∀ (l : List Nat) (fPrev : Option (FileMetadata α)) (red : Int)
      (cons : List Bool) {f : FileMetadata α} {r2 : Int} {c2 : List Bool},
    intraSeedScan s e l fPrev red cons = (some f, r2, c2) →
    f.Compacting = true ∨ f.LargestSeqNum < e ∨ r2 = 0 ∨
      r2 = red - (l.length : Int) := by
  intro l
  induction l with
  | nil =>
    intro fPrev red cons f r2 c2 h
    rw [intraSeedScan] at h
    injection h with h1 h2
    injection h2 with h2 h3
    right; right; right
    simp
    omega
  | cons j rest ih =>
    intro fPrev red cons f r2 c2 h
    rw [intraSeedScan] at h
    dsimp only at h
    split at h
    · rename_i hcomp
      injection h with h1 h2
      injection h2 with h2 h3
      have hfe : fileAt s j = f := by
        injection h1
      rw [← hfe]
      exact Or.inl hcomp
    · split at h
      · split at h
        · rename_i hseq hzero
          injection h with h1 h2
          injection h2 with h2 h3
          right; right; left
          omega
        · rename_i hseq hzero
          rcases ih _ _ _ h with h4 | h4 | h4 | h4
          · exact Or.inl h4
          · exact Or.inr (Or.inl h4)
          · exact Or.inr (Or.inr (Or.inl h4))
          · right; right; right
            rw [h4]
            simp
            omega
      · rename_i hseq
        injection h with h1 h2
        injection h2 with h2 h3
        have hfe : fileAt s j = f := by
          injection h1
        right; left
        rw [← hfe]
        omega

/-- Provenance of the scanned seed: it is some file of the scanned list
(when the scan did not start with a file in hand). -/
theorem intraSeedScan_provenance (s : L0Sublevels α) (e : Nat) :
    ∀ (l : List Nat) (fPrev : Option (FileMetadata α)) (red : Int)
      (cons : List Bool) {f : FileMetadata α} {r2 : Int} {c2 : List Bool},
    intraSeedScan s e l fPrev red cons = (some f, r2, c2) →
    fPrev = some f ∨ ∃ j ∈ l, f = fileAt s j := by
  intro l
  induction l with
  | nil =>
    intro fPrev red cons f r2 c2 h
    rw [intraSeedScan] at h
    injection h with h1 _
    exact Or.inl h1
  | cons j rest ih =>
    intro fPrev red cons f r2 c2 h
    rw [intraSeedScan] at h
    dsimp only at h
    split at h
    · injection h with h1 _
      have hfe : fileAt s j = f := by
        injection h1
      exact Or.inr ⟨j, List.mem_cons_self _ _, hfe.symm⟩
    · split at h
      · split at h
        · injection h with h1 _
          have hfe : fileAt s j = f := by
            injection h1
          exact Or.inr ⟨j, List.mem_cons_self _ _, hfe.symm⟩
        · rcases ih _ _ _ h with h4 | ⟨j2, hj2, h4⟩
          · have hfe : fileAt s j = f := by
              injection h4
            exact Or.inr ⟨j, List.mem_cons_self _ _, hfe.symm⟩
          · exact Or.inr ⟨j2, List.mem_cons_of_mem _ hj2, h4⟩
      · injection h with h1 _
        have hfe : fileAt s j = f := by
          injection h1
        exact Or.inr ⟨j, List.mem_cons_self _ _, hfe.symm⟩

theorem findIdx?_beq_spec (x : Nat) :
    ∀ (l : List Nat) (i k : Nat),
    List.findIdx? (fun y => y == x) l i = some k →
    i ≤ k ∧ k - i < l.length ∧ l.getD (k - i) 0 = x := by
  intro l
  induction l with
  | nil =>
    intro i k h
    cases h
  | cons y ys ih =>
    intro i k h
    rw [List.findIdx?_cons] at h
    split at h
    · rename_i hp
      have hk : i = k := by
        injection h
      subst hk
      refine ⟨le_refl _, by simp, ?_⟩
      simp only [Nat.sub_self, List.getD_cons_zero]
      simpa using hp
    · obtain ⟨h1, h2, h3⟩ := ih (i + 1) k h
      refine ⟨by omega, by simp; omega, ?_⟩
      have he : k - i = (k - (i + 1)) + 1 := by omega
      rw [he, List.getD_cons_succ]
      exact h3

theorem findLastIdx_spec (l : List Nat) (x : Nat) {k : Nat}
    (h : findLastIdx l x = some k) :
    k < l.length ∧ l.getD k 0 = x := by
  unfold findLastIdx at h
  split at h
  · cases h
  · rename_i k0 hk0
    have hke : l.length - 1 - k0 = k := by
      injection h
    obtain ⟨h1, h2, h3⟩ := findIdx?_beq_spec x l.reverse 0 k0 hk0
    simp only [Nat.sub_zero] at h2 h3
    rw [List.length_reverse] at h2
    have hkl : k < l.length := by omega
    refine ⟨hkl, ?_⟩
    rw [List.getD_eq_getElem _ _ hkl]
    rw [List.getD_eq_getElem _ _ (by rw [List.length_reverse]; exact h2)] at h3
    rw [List.getElem_reverse] at h3
    have he : l.length - 1 - k0 = k := hke
    rw [← h3]
    congr 1
    omega

theorem findLastIdx_isSome_of_mem (l : List Nat) (x : Nat) (hx : x ∈ l) :
    findLastIdx l x ≠ none := by
  unfold findLastIdx
  split
  · rename_i hnone
    rw [List.findIdx?_eq_none_iff] at hnone
    have := hnone x (List.mem_reverse.mpr hx)
    simp at this
  · simp

end ScoresAndSeeds

section InitConsistency

variable {α : Type} [LinearOrder α] [Inhabited α]

/-- What `InitCompactingFileInfo` guarantees about the recomputed flags:
an interval not marked base-compacting holds no file of an in-flight
non-intra (i.e. base) compaction. -/
def initConsistent (s : L0Sublevels α) : Prop :=
  ∀ i < s.orderedIntervals.length, (intervalAt s i).isBaseCompacting = false →
    ∀ j ∈ (intervalAt s i).files,
      ¬((fileAt s j).Compacting = true ∧ (fileAt s j).IsIntraL0Compacting = false)

theorem modifyAt_proj {β γ : Type} [Inhabited β] (g : β → β) (p : β → γ)
    (hp : ∀ x, p (g x) = p x) (k : Nat) (l : List β) (i : Nat) :
    p ((modifyAt g k l).getD i default) = p (l.getD i default) := by
  by_cases hik : i = k
  · subst hik
    by_cases hlt : i < l.length
    · rw [getD_modifyAt_self _ hlt, hp]
    · rw [List.getD_eq_default _ _ (by rw [length_modifyAt]; omega),
        List.getD_eq_default _ _ (by omega)]
  · rw [getD_modifyAt_ne _ _ hik]

theorem isBase_modifyAt_true (g : fileInterval α → fileInterval α)
    (hg : ∀ x : fileInterval α, x.isBaseCompacting = true →
      (g x).isBaseCompacting = true)
    (k : Nat) (l : List (fileInterval α)) (i : Nat)
    (h : (l.getD i default).isBaseCompacting = true) :
    ((modifyAt g k l).getD i default).isBaseCompacting = true := by
  by_cases hik : i = k
  · subst hik
    by_cases hlt : i < l.length
    · rw [getD_modifyAt_self _ hlt]
      exact hg _ h
    · rw [List.getD_eq_default _ _ (by rw [length_modifyAt]; omega)]
      rw [List.getD_eq_default _ _ (by omega)] at h
      exact h
  · rw [getD_modifyAt_ne _ _ hik]
    exact h

theorem isBase_foldl_modifyAt_mono (g : fileInterval α → fileInterval α)
    (hg : ∀ x : fileInterval α, x.isBaseCompacting = true →
      (g x).isBaseCompacting = true) (sp : List Nat) :
    ∀ (ivs : List (fileInterval α)) (i : Nat),
    (ivs.getD i default).isBaseCompacting = true →
    ((sp.foldl (fun acc k => modifyAt g k acc) ivs).getD i default).isBaseCompacting =
      true := by
  induction sp with
  | nil =>
    intro ivs i h
    exact h
  | cons k rest ih =>
    intro ivs i h
    rw [List.foldl_cons]
    exact ih _ i (isBase_modifyAt_true g hg k ivs i h)

theorem initPass1_isBase_mono (arena : List (FileMetadata α)) :
    ∀ (ivs : List (fileInterval α)) (i : Nat),
    (ivs.getD i default).isBaseCompacting = true →
    ((initPass1 arena ivs).getD i default).isBaseCompacting = true := by
  induction arena with
  | nil =>
    intro ivs i h
    exact h
  | cons a rest ih =>
    intro ivs i h
    show ((initPass1 rest _).getD i default).isBaseCompacting = true
    apply ih
    dsimp only
    split
    · refine isBase_foldl_modifyAt_mono _ ?_ _ _ _ h
      intro x hx
      show (if a.IsIntraL0Compacting then x.isBaseCompacting else true) = true
      split
      · exact hx
      · rfl
    · exact h

theorem initPass1_length (arena : List (FileMetadata α)) :
    ∀ (ivs : List (fileInterval α)),
    (initPass1 arena ivs).length = ivs.length := by
  induction arena with
  | nil =>
    intro ivs
    rfl
  | cons a rest ih =>
    intro ivs
    show (initPass1 rest _).length = _
    rw [ih]
    dsimp only
    split
    · rw [foldl_modifyAt_length]
    · rfl

theorem initPass1_isBase_set (arena : List (FileMetadata α)) :
    ∀ (ivs : List (fileInterval α)) (i : Nat) (f : FileMetadata α),
    f ∈ arena → f.Compacting = true → f.IsIntraL0Compacting = false →
    f.minIntervalIndex ≤ i → i ≤ f.maxIntervalIndex → i < ivs.length →
    ((initPass1 arena ivs).getD i default).isBaseCompacting = true := by
  induction arena with
  | nil =>
    intro ivs i f hf
    simp at hf
  | cons a rest ih =>
    intro ivs i f hf hcomp hintra hmin hmax hlen
    rcases List.mem_cons.mp hf with hfe | hfr
    · subst hfe
      show ((initPass1 rest _).getD i default).isBaseCompacting = true
      apply initPass1_isBase_mono
      dsimp only
      rw [if_pos hcomp]
      rw [foldl_modifyAt_getD_mem _ _ _ _ (spanList_nodup _ _)
        (mem_spanList.mpr ⟨hmin, hmax⟩) hlen]
      show (if f.IsIntraL0Compacting then _ else true) = true
      rw [hintra]
      rw [if_neg (by simp)]
    · show ((initPass1 rest _).getD i default).isBaseCompacting = true
      apply ih _ i f hfr hcomp hintra hmin hmax
      dsimp only
      split
      · rw [foldl_modifyAt_length]
        exact hlen
      · exact hlen

theorem initPass2_isBase_mono (ip : List (L0Compaction α)) :
    ∀ (ivs : List (fileInterval α)) (i : Nat),
    (ivs.getD i default).isBaseCompacting = true →
    ((initPass2 ip ivs).getD i default).isBaseCompacting = true := by
  induction ip with
  | nil =>
    intro ivs i h
    exact h
  | cons c rest ih =>
    intro ivs i h
    show ((initPass2 rest _).getD i default).isBaseCompacting = true
    apply ih
    dsimp only
    have hinner : ∀ (l2 : List Nat) (acc : List (fileInterval α)),
        (acc.getD i default).isBaseCompacting = true →
        ((l2.foldl (fun ivsB i2 =>
          if c.IsIntraL0 then ivsB
          else modifyAt (fun iv => { iv with isBaseCompacting := true }) i2 ivsB)
          acc).getD i default).isBaseCompacting = true := by
      intro l2
      induction l2 with
      | nil =>
        intro acc hacc
        exact hacc
      | cons k rest2 ih2 =>
        intro acc hacc
        rw [List.foldl_cons]
        apply ih2
        split
        · exact hacc
        · exact isBase_modifyAt_true _ (fun x _ => rfl) k acc i hacc
    exact hinner _ _ h

theorem initPass3_isBase_eq (ivs : List (fileInterval α)) (i : Nat) :
    ((initPass3 ivs).getD i default).isBaseCompacting =
      ((ivs.getD i default)).isBaseCompacting := by
  unfold initPass3
  have hgen : ∀ (l : List Nat) (acc : Nat × List (fileInterval α)),
      (((l.foldl (fun (acc2 : Nat × List (fileInterval α)) i2 =>
        let iv := acc2.2.getD i2 default
        if iv.isBaseCompacting then
          let minIndex := if iv.filesMinIntervalIndex < acc2.1 then acc2.1
            else iv.filesMinIntervalIndex
          (List.range' minIndex (iv.filesMaxIntervalIndex + 1 - minIndex)).foldl
            (fun acc3 j =>
              (j, modifyAt
                (fun iv2 => { iv2 with intervalRangeIsBaseCompacting := true }) j acc3.2))
            (acc2.1, acc2.2)
        else acc2) acc).2).getD i default).isBaseCompacting =
      ((acc.2.getD i default)).isBaseCompacting := by
    intro l
    induction l with
    | nil =>
      intro acc
      rfl
    | cons k rest ih =>
      intro acc
      rw [List.foldl_cons]
      rw [ih]
      dsimp only
      split
      · have hinner : ∀ (l2 : List Nat) (acc3 : Nat × List (fileInterval α)),
            (((l2.foldl (fun acc4 j =>
              (j, modifyAt
                (fun iv2 => { iv2 with intervalRangeIsBaseCompacting := true }) j
                acc4.2)) acc3).2.getD i default)).isBaseCompacting =
            ((acc3.2.getD i default)).isBaseCompacting := by
          intro l2
          induction l2 with
          | nil =>
            intro acc3
            rfl
          | cons j2 rest2 ih2 =>
            intro acc3
            rw [List.foldl_cons]
            rw [ih2]
            exact modifyAt_proj
              (fun iv2 => { iv2 with intervalRangeIsBaseCompacting := true })
              (fun iv => iv.isBaseCompacting) (fun x => rfl) j2 acc3.2 i
        exact hinner _ _
      · rfl
  exact hgen _ _

/-- `InitCompactingFileInfo` establishes `initConsistent`: every file of an
in-flight base compaction stamps `isBaseCompacting` across its whole span in
pass 1, and the later passes never clear the flag. -/
theorem initConsistent_holds (s : L0Sublevels α) (hwf : WF s)
    (ip : List (L0Compaction α)) : initConsistent (InitCompactingFileInfo s ip) := by
  intro i hlen hbase j hj hcon
  obtain ⟨hcomp, hintra⟩ := hcon
  have hcomp2 : (fileAt s j).Compacting = true := hcomp
  have hintra2 : (fileAt s j).IsIntraL0Compacting = false := hintra
  have hstr : (InitCompactingFileInfo s ip).orderedIntervals.map intervalStructure =
      s.orderedIntervals.map intervalStructure := by
    show (initPass3 (initPass2 ip (initPass1 s.levelMetadata
      (initReset s.orderedIntervals)))).map intervalStructure = _
    rw [initPass3_structural, initPass2_structural, initPass1_structural,
      initReset_structural]
  have hist : intervalStructure (intervalAt (InitCompactingFileInfo s ip) i) =
      intervalStructure (intervalAt s i) := by
    unfold intervalAt
    have h2 := congrArg (fun l => l.getD i (intervalStructure default)) hstr
    simpa only [List.getD_map] using h2
  have hlen2 : (InitCompactingFileInfo s ip).orderedIntervals.length =
      s.orderedIntervals.length := by
    have h2 := congrArg List.length hstr
    simpa using h2
  have hfiles : (intervalAt (InitCompactingFileInfo s ip) i).files =
      (intervalAt s i).files :=
    congrArg (fun t => t.2.2.2.2.2.1) hist
  rw [hfiles] at hj
  obtain ⟨hjA, hmin, hmax⟩ := hwf.ivMembers i (by omega) j hj
  have hmem : fileAt s j ∈ s.levelMetadata := by
    unfold fileAt
    rw [List.getD_eq_getElem _ _ hjA]
    exact List.getElem_mem _
  have hreslen : (initReset s.orderedIntervals).length = s.orderedIntervals.length := by
    unfold initReset
    simp
  have hp1 : ((initPass1 s.levelMetadata (initReset s.orderedIntervals)).getD i
      default).isBaseCompacting = true :=
    initPass1_isBase_set s.levelMetadata _ i (fileAt s j) hmem hcomp2 hintra2
      hmin hmax (by omega)
  have hp2 := initPass2_isBase_mono ip _ i hp1
  have hbase2 : ((initPass3 (initPass2 ip (initPass1 s.levelMetadata
      (initReset s.orderedIntervals)))).getD i default).isBaseCompacting = false :=
    hbase
  rw [initPass3_isBase_eq] at hbase2
  rw [hp2] at hbase2
  cases hbase2

/-- Transfer of all structural invariants along equality of the structural
view of the intervals, the arena and the sublevels. -/
theorem WF_transfer (s s2 : L0Sublevels α)
    (hL : s2.Levels = s.Levels) (hA : s2.levelMetadata = s.levelMetadata)
    (hI : s2.orderedIntervals.map intervalStructure =
      s.orderedIntervals.map intervalStructure)
    (hwf : WF s) : WF s2 := by
  have hist : ∀ i, intervalStructure (intervalAt s2 i) =
      intervalStructure (intervalAt s i) := by
    intro i
    unfold intervalAt
    have h2 := congrArg (fun l => l.getD i (intervalStructure default)) hI
    simpa only [List.getD_map] using h2
  have hidx : ∀ i, (intervalAt s2 i).index = (intervalAt s i).index :=
    fun i => congrArg (fun t => t.1) (hist i)
  have hsk : ∀ i, (intervalAt s2 i).startKey = (intervalAt s i).startKey :=
    fun i => congrArg (fun t => t.2.1) (hist i)
  have hcount : ∀ i, (intervalAt s2 i).fileCount = (intervalAt s i).fileCount :=
    fun i => congrArg (fun t => t.2.2.2.2.1) (hist i)
  have hfiles : ∀ i, (intervalAt s2 i).files = (intervalAt s i).files :=
    fun i => congrArg (fun t => t.2.2.2.2.2.1) (hist i)
  have hfa : ∀ j, fileAt s2 j = fileAt s j := by
    intro j
    unfold fileAt
    rw [hA]
  have hlenI : s2.orderedIntervals.length = s.orderedIntervals.length := by
    have h2 := congrArg List.length hI
    simpa using h2
  have hlenA : s2.levelMetadata.length = s.levelMetadata.length := by
    rw [hA]
  have hlenL : s2.Levels.length = s.Levels.length := by
    rw [hL]
  have hmap : s2.orderedIntervals.map (fun iv => iv.startKey) =
      s.orderedIntervals.map (fun iv => iv.startKey) := by
    apply List.ext_getElem
    · rw [List.length_map, List.length_map, hlenI]
    · intro i h1 h2
      rw [List.getElem_map, List.getElem_map]
      have h3 := hsk i
      unfold intervalAt at h3
      rw [List.getD_eq_getElem _ _ (by simpa using h1),
        List.getD_eq_getElem _ _ (by simpa using h2)] at h3
      exact h3
  refine
    { arenaIdx := ?_, spanValid := ?_, spanBound := ?_, subLevelBound := ?_,
      coverage := ?_, inLevel := ?_, startKeyMin := ?_, startKeyMax := ?_,
      ivIndex := ?_, ivCount := ?_, ivMembers := ?_, ivChain := ?_,
      lvlMembers := ?_, lvlChain := ?_, keysSorted := ?_, prevLevel := ?_ }
  · intro j hj
    rw [hfa]
    exact hwf.arenaIdx j (by omega)
  · intro j hj
    rw [hfa]
    exact hwf.spanValid j (by omega)
  · intro j hj
    rw [hfa, hlenI]
    exact hwf.spanBound j (by omega)
  · intro j hj
    rw [hfa, hL]
    exact hwf.subLevelBound j (by omega)
  · intro j hj v h1 h2
    rw [hfa] at h1 h2
    rw [hfiles]
    exact hwf.coverage j (by omega) v h1 h2
  · intro j hj
    rw [hfa, hL]
    exact hwf.inLevel j (by omega)
  · intro j hj
    rw [hfa, hsk]
    exact hwf.startKeyMin j (by omega)
  · intro j hj
    rw [hfa, hsk]
    exact hwf.startKeyMax j (by omega)
  · intro v hv
    rw [hidx]
    exact hwf.ivIndex v (by omega)
  · intro v hv
    rw [hcount, hfiles]
    exact hwf.ivCount v (by omega)
  · intro v hv j hj
    rw [hfiles] at hj
    rw [hfa, hlenA]
    exact hwf.ivMembers v (by omega) j hj
  · intro v hv
    rw [hfiles]
    have hch := hwf.ivChain v (by omega)
    apply chain'_congr_mem hch
    intro a _ b _ hab
    rw [hfa, hfa]
    exact hab
  · intro sl hsl j hj
    rw [hL] at hj
    rw [hfa, hlenA]
    exact hwf.lvlMembers sl (by omega) j hj
  · intro sl hsl
    rw [hL]
    have hch := hwf.lvlChain sl (by omega)
    apply chain'_congr_mem hch
    intro a _ b _ hab
    rw [hfa, hfa]
    exact hab
  · rw [hmap]
    exact hwf.keysSorted
  · intro j hj hpos
    rw [hfa] at hpos ⊢
    obtain ⟨j2, hj2, he, hov⟩ := hwf.prevLevel j (by omega) hpos
    refine ⟨j2, by omega, ?_, ?_⟩
    · rw [hfa]
      exact he
    · rw [hfa]
      exact hov

/-- `InitCompactingFileInfo` preserves well-formedness: it only rewrites the
compacting-related interval flags. -/
theorem WF_init_compacting (s : L0Sublevels α) (ip : List (L0Compaction α))
    (hwf : WF s) : WF (InitCompactingFileInfo s ip) := by
  refine WF_transfer s (InitCompactingFileInfo s ip) rfl rfl ?_ hwf
  show (initPass3 (initPass2 ip (initPass1 s.levelMetadata
    (initReset s.orderedIntervals)))).map intervalStructure = _
  rw [initPass3_structural, initPass2_structural, initPass1_structural,
    initReset_structural]

end InitConsistency

section ClaimC8

variable {α : Type} [LinearOrder α] [Inhabited α]

theorem intraUsingSeed_ok (s : L0Sublevels α) (hwf : WF s) (f : FileMetadata α)
    (idx : Nat) (e : Nat) (minDepth : Int)
    (hidx : idx < s.orderedIntervals.length)
    (hj : ∃ j ∈ (intervalAt s idx).files, f = fileAt s j) :
    ∃ r, intraL0CompactionUsingSeed s f idx e minDepth = .ok r := by
  unfold intraL0CompactionUsingSeed
  dsimp only
  obtain ⟨j, hjm, hfe⟩ := hj
  have hj2 : f.l0Index = j := by
    rw [hfe]
    exact hwf.arenaIdx j (hwf.ivMembers idx hidx j hjm).1
  have hsome : findLastIdx (intervalAt s idx).files f.l0Index ≠ none := by
    rw [hj2]
    exact findLastIdx_isSome_of_mem _ _ hjm
  split
  · rename_i hnone
    exact absurd hnone hsome
  · rename_i slIndex hsl
    split
    · exact ⟨none, rfl⟩
    · rename_i lc hlc
      split
      · obtain ⟨⟨lc3, b⟩, hr⟩ := extendRect_ok s (rebuildIncluded lc).minIntervalIndex
          (rebuildIncluded lc).maxIntervalIndex (rebuildIncluded lc) false
        rw [hr]
        exact ⟨some lc3, rfl⟩
      · exact ⟨none, rfl⟩

theorem pickIntraLoop_ok (s : L0Sublevels α) (e : Nat) (minDepth : Int)
    (hwf : WF s) (hmd : 1 ≤ minDepth) :
    ∀ (lst : List intervalAndScore) (considered : List Bool),
    (∀ si ∈ lst, si ∈ intraScores s minDepth) →
    ∃ r, pickIntraLoop s e minDepth lst considered = .ok r := by
  intro lst
  induction lst with
  | nil =>
    intro considered _
    exact ⟨none, rfl⟩
  | cons si rest ih =>
    intro considered hmem
    obtain ⟨hilt, hscore, hd⟩ := intraScores_mem s minDepth
      (hmem si (List.mem_cons_self _ _))
    have hrest := fun si2 h2 => hmem si2 (List.mem_cons_of_mem _ h2)
    rw [pickIntraLoop]
    dsimp only
    split
    · exact ih _ hrest
    · rcases hsc : intraSeedScan s e (intervalAt s si.interval).files.reverse
        none si.score considered with ⟨fOpt, red2, c2⟩
      dsimp only
      split
      · exact ih _ hrest
      · rename_i hred
        cases fOpt with
        | none =>
          -- no seed file: the interval would have to be empty, but its
          -- depth is at least minCompactionDepth ≥ 1
          exfalso
          obtain ⟨hle, _, hr2⟩ := intraSeedScan_none s e _ none si.score
            considered hsc
          have hfe : (intervalAt s si.interval).files = [] := by
            rw [← List.reverse_eq_nil_iff]
            exact hle
          have hcnt := hwf.ivCount si.interval hilt
          rw [hfe] at hcnt
          simp at hcnt
          rw [hcnt] at hscore
          omega
        | some f =>
          dsimp only
          split
          · exact ih _ hrest
          · rename_i hfcomp
            have hprov := intraSeedScan_provenance s e _ none si.score
              considered hsc
            rcases hprov with h4 | ⟨j, hjm, h4⟩
            · cases h4
            · have hIe : (intervalAt s si.interval).index = si.interval :=
                hwf.ivIndex si.interval hilt
              have hok := intraUsingSeed_ok s hwf f
                ((intervalAt s si.interval).index) e minDepth
                (by rw [hIe]; exact hilt)
                ⟨j, by rw [hIe]; exact List.mem_reverse.mp hjm, h4⟩
              obtain ⟨r3, hr3⟩ := hok
              rw [hr3]
              cases r3 with
              | none => exact ih _ hrest
              | some c => exact ⟨some c, rfl⟩

theorem pickBaseLoop_ok (s : L0Sublevels α) (minDepth : Int)
    (baseFiles : List (FileMetadata α)) (hwf : WF s) (hic : initConsistent s)
    (hmd : 1 ≤ minDepth) :
    ∀ (lst : List intervalAndScore) (considered : List Bool),
    (∀ si ∈ lst, si ∈ baseScores s minDepth) →
    ∃ r, pickBaseLoop s minDepth baseFiles lst considered = .ok r := by
  intro lst
  induction lst with
  | nil =>
    intro considered _
    exact ⟨none, rfl⟩
  | cons si rest ih =>
    intro considered hmem
    obtain ⟨hilt, hbase, hdepth⟩ := baseScores_mem s minDepth
      (hmem si (List.mem_cons_self _ _))
    have hrest := fun si2 h2 => hmem si2 (List.mem_cons_of_mem _ h2)
    rw [pickBaseLoop]
    dsimp only
    split
    · exact ih _ hrest
    · split
      · -- an empty scored interval would have zero depth
        rename_i hfe
        exfalso
        have hcnt := hwf.ivCount si.interval hilt
        rw [hfe] at hcnt
        simp at hcnt
        omega
      · rename_i j tail hfe
        split
        · split
          · exact ih _ hrest
          · -- the seed would be a base-compacting file inside an interval
            -- that InitCompactingFileInfo left unmarked
            rename_i hcomp hintra
            exfalso
            have hjm : j ∈ (intervalAt s si.interval).files := by
              rw [hfe]
              exact List.mem_cons_self _ _
            have hintra2 : (fileAt s j).IsIntraL0Compacting = false := by
              cases hc : (fileAt s j).IsIntraL0Compacting
              · rfl
              · exact absurd hc hintra
            exact hic si.interval hilt hbase j hjm ⟨hcomp, hintra2⟩
        · split
          · exact ih _ hrest
          · split
            · exact ih _ hrest
            · rename_i c hc hscan
              exact ⟨some c, rfl⟩

/-- C8 (amended): with a positive minimum compaction depth, on any
well-formed state whose compacting flags were rebuilt by
`InitCompactingFileInfo`, both pickers always return without an error —
"no compaction possible" is reported as an empty result, and every panic
and error path of the pickers is unreachable.  With
`minCompactionDepth ≤ 0` this fails (see the counterexample). -/
theorem claimC8_pickers_never_error (s : L0Sublevels α) (hwf : WF s)
    (hic : initConsistent s) (minDepth : Int) (hmd : 1 ≤ minDepth)
    (baseFiles : List (FileMetadata α)) (seq : Nat) :
    (∃ r, PickBaseCompaction s minDepth baseFiles = .ok r) ∧
    (∃ r2, PickIntraL0Compaction s seq minDepth = .ok r2) := by
  constructor
  · unfold PickBaseCompaction
    exact pickBaseLoop_ok s minDepth baseFiles hwf hic hmd _ _
      (fun si h => mem_sortScoredDec.mp h)
  · unfold PickIntraL0Compaction
    exact pickIntraLoop_ok s seq minDepth hwf hmd _ _
      (fun si h => mem_sortScoredDec.mp h)

/-- A state holding exactly one compacting intra-L0 file. -/
def c8s : L0Sublevels Nat :=
  InitCompactingFileInfo (okState (NewL0Sublevels [wfile 1 2 10 5 true true] 1000)) []

/-- Counterexample to C8: with `minCompactionDepth = 0`, both pickers
report "no compaction possible" situations as errors: the intra picker hits
its "no seed file found" error on an empty interval, and the base picker
faults (index out of range) on the same interval. -/
theorem claimC8_counterexample :
    PickIntraL0Compaction c8s 10 0 =
      .error "no seed file found in sublevel intervals" ∧
    PickBaseCompaction c8s 0 [] =
      .error "runtime: index out of range in seed file selection" :=
  ⟨rfl, rfl⟩

theorem claimC8_pickers_never_error_witness :
    (1 : Int) ≤ 2 ∧
      ((∃ r, PickBaseCompaction stateTwoStacked 2 [] = .ok r) ∧
       (∃ r2, PickIntraL0Compaction stateTwoStacked 15 2 = .ok r2)) :=
  ⟨by decide,
   claimC8_pickers_never_error stateTwoStacked
     (WF_init_compacting _ []
       (NewL0Sublevels_WF
         [wfile 1 2 10 1 false false, wfile 1 2 10 2 false false] 1000
         (by unfold ValidInput; decide) (by rfl)))
     (initConsistent_holds _
       (NewL0Sublevels_WF
         [wfile 1 2 10 1 false false, wfile 1 2 10 2 false false] 1000
         (by unfold ValidInput; decide) (by rfl)) [])
     2 (by decide) [] 15⟩

end ClaimC8

section ClaimC2

variable {α : Type} [LinearOrder α] [Inhabited α]

/-- The invariant carried through the intra-L0 candidate pipeline: all
collected files are clean and flushed, the candidate is marked intra-L0
with the right barrier, and its level bounds stay inside the engine. -/
def intraInv (s : L0Sublevels α) (e : Nat) (c : L0CompactionFiles α) : Prop :=
  (∀ f ∈ c.Files, f.Compacting = false ∧ f.LargestSeqNum < e) ∧
  c.isIntraL0 = true ∧ c.earliestUnflushedSeqNum = e ∧
  c.seedIntervalMaxLevel = s.Levels.length - 1 ∧
  c.seedIntervalMinLevel ≤ s.Levels.length - 1

theorem addFile_intraInv (s : L0Sublevels α) (e : Nat) (c : L0CompactionFiles α)
    (f : FileMetadata α) (h : intraInv s e c)
    (hf : f.Compacting = false ∧ f.LargestSeqNum < e) :
    intraInv s e (addFile c f) := by
  unfold addFile
  split
  · exact h
  · obtain ⟨h1, h2, h3, h4, h5⟩ := h
    refine ⟨?_, h2, h3, h4, h5⟩
    intro g hg
    rcases List.mem_append.mp hg with hga | hgb
    · exact h1 g hga
    · have := List.mem_singleton.mp hgb
      subst this
      exact hf

theorem extendFilesLoop_intraInv (s : L0Sublevels α) (e : Nat) :
    ∀ (l : List Nat) (c : L0CompactionFiles α), intraInv s e c →
    intraInv s e (extendFilesLoop s e l c).2 := by
  intro l
  induction l with
  | nil =>
    intro c h
    exact h
  | cons j rest ih =>
    intro c h
    rw [extendFilesLoop]
    split
    · exact h
    · split
      · exact h
      · split
        · exact ih c h
        · rename_i hcomp hseq
          apply ih
          apply addFile_intraInv s e c _ h
          constructor
          · cases hc : (fileAt s j).Compacting
            · rfl
            · exact absurd hc hcomp
          · omega

theorem extendLevelsSeq_intraInv (s : L0Sublevels α) (e : Nat) :
    ∀ (sls : List Nat) (c : L0CompactionFiles α), intraInv s e c →
    intraInv s e (extendLevelsSeq s e sls c).2 := by
  intro sls
  induction sls with
  | nil =>
    intro c h
    exact h
  | cons sl rest ih =>
    intro c h
    rw [extendLevelsSeq]
    have hx := extendFilesLoop_intraInv s e
      ((s.Levels.getD sl []).drop (sortSearch (s.Levels.getD sl []).length
        (fun i => decide ((fileAt s ((s.Levels.getD sl []).getD i 0)).maxIntervalIndex ≥
          c.minIntervalIndex)))) c h
    split
    · rename_i c2 heq
      apply ih
      have hx2 : intraInv s e (extendFiles s sl e c).2 := hx
      rw [heq] at hx2
      exact hx2
    · rename_i c2 heq
      have hx2 : intraInv s e (extendFiles s sl e c).2 := hx
      rw [heq] at hx2
      exact hx2

theorem intraDescendLoop_inv (s : L0Sublevels α) (e : Nat) (minDepth : Int) :
    ∀ (l : List Nat) (c : L0CompactionFiles α) (lc : Option (L0CompactionFiles α)),
    (∀ j ∈ l, (fileAt s j).Compacting = true ∨
      ((fileAt s j).LargestSeqNum < e ∧
        (fileAt s j).subLevel ≤ s.Levels.length - 1)) →
    intraInv s e c →
    (∀ lcv, lc = some lcv → intraInv s e lcv) →
    ∀ {res : L0CompactionFiles α},
    intraDescendLoop s e minDepth l c lc = some res → intraInv s e res := by
  intro l
  induction l with
  | nil =>
    intro c lc _ _ hlc res h
    exact hlc res h
  | cons j rest ih =>
    intro c lc hl hc hlc res h
    rw [intraDescendLoop] at h
    dsimp only at h
    split at h
    · exact hlc res h
    · rename_i hcomp
      have hj := hl j (List.mem_cons_self _ _)
      have hjc : (fileAt s j).LargestSeqNum < e ∧
          (fileAt s j).subLevel ≤ s.Levels.length - 1 := by
        rcases hj with hj | hj
        · exact absurd hj hcomp
        · exact hj
      have hcompf : (fileAt s j).Compacting = false := by
        cases hcc : (fileAt s j).Compacting
        · rfl
        · exact absurd hcc hcomp
      have hrest := fun j2 h2 => hl j2 (List.mem_cons_of_mem _ h2)
      have hc1 : intraInv s e { c with
          seedIntervalStackDepthReduction := c.seedIntervalStackDepthReduction + 1,
          seedIntervalMinLevel := (fileAt s j).subLevel } := by
        obtain ⟨h1, h2, h3, h4, h5⟩ := hc
        exact ⟨h1, h2, h3, h4, hjc.2⟩
      have hc2 := addFile_intraInv s e _ (fileAt s j) hc1 ⟨hcompf, hjc.1⟩
      split at h
      · exact hlc res h
      · rename_i c3 heq
        have hc3 : intraInv s e c3 := by
          have hx := extendLevelsSeq_intraInv s e
            (List.range' ((fileAt s j).subLevel + 1)
              (s.Levels.length - ((fileAt s j).subLevel + 1))) _ hc2
          rw [heq] at hx
          exact hx
        split at h
        · exact ih c3 (some c3) hrest hc3
            (fun lcv h2 => by injection h2 with h3; rw [← h3]; exact hc3) h
        · rename_i lcv
          split at h
          · injection h with h2
            rw [← h2]
            exact hlc lcv rfl
          · exact ih c3 (some c3) hrest hc3
              (fun lcv2 h2 => by injection h2 with h3; rw [← h3]; exact hc3) h

theorem rebuildIncluded_intraInv (s : L0Sublevels α) (e : Nat)
    (c : L0CompactionFiles α) (h : intraInv s e c) :
    intraInv s e (rebuildIncluded c) := h

theorem rectAddLoop_inv (s : L0Sublevels α) (e : Nat) :
    ∀ (l : List Nat) (c : L0CompactionFiles α) (added : Nat)
      {c2 : L0CompactionFiles α} {a2 : Nat},
    rectAddLoop s l c added = .ok (c2, a2) → intraInv s e c → intraInv s e c2 := by
  intro l
  induction l with
  | nil =>
    intro c added c2 a2 h hc
    injection h with h2
    injection h2 with h3 h4
    rw [← h3]
    exact hc
  | cons j rest ih =>
    intro c added c2 a2 h hc
    rw [rectAddLoop] at h
    split at h
    · cases h
    · rename_i hcomp
      split at h
      · exact ih _ _ h hc
      · rename_i hskip
        split at h
        · exact ih _ _ h hc
        · apply ih _ _ h
          apply addFile_intraInv s e c _ hc
          constructor
          · cases hcc : (fileAt s j).Compacting
            · rfl
            · exact absurd hcc hcomp
          · obtain ⟨h1, h2, h3, h4, h5⟩ := hc
            rw [h2, h3] at hskip
            push_neg at hskip
            have := hskip (by simp)
            omega

theorem rectLevels_inv (s : L0Sublevels α) (e : Nat) :
    ∀ (lvls : List Nat) (minI maxI : Int) (c : L0CompactionFiles α) (added : Nat)
      {c2 : L0CompactionFiles α} {a2 : Nat},
    rectLevels s lvls minI maxI c added = .ok (c2, a2) →
    intraInv s e c → intraInv s e c2 := by
  intro lvls
  induction lvls with
  | nil =>
    intro minI maxI c added c2 a2 h hc
    injection h with h2
    injection h2 with h3 h4
    rw [← h3]
    exact hc
  | cons sl rest ih =>
    intro minI maxI c added c2 a2 h hc
    rw [rectLevels] at h
    dsimp only at h
    split at h
    · injection h with h2
      injection h2 with h3 h4
      rw [← h3]
      exact hc
    · split at h
      · exact ih _ _ _ _ h hc
      · rename_i firstIndex hfi
        split at h
        · injection h with h2
          injection h2 with h3 h4
          rw [← h3]
          exact hc
        · rename_i candFirst hcand
          split at h
          · cases h
          all_goals
            rename_i heq
            exact ih _ _ _ _ h (rectAddLoop_inv s e _ _ _ heq hc)

theorem extendRect_inv (s : L0Sublevels α) (e : Nat) (a b : Nat)
    (cand : L0CompactionFiles α) (isBase : Bool) {c3 : L0CompactionFiles α}
    {bb : Bool} (h : extendCandidateToRectangle s a b cand isBase = .ok (c3, bb))
    (hc : intraInv s e cand) : intraInv s e c3 := by
  unfold extendCandidateToRectangle at h
  dsimp only at h
  split at h
  · cases h
  all_goals
    rename_i heq
    injection h with h2
    injection h2 with h3 h4
    rw [← h3]
    have hc2 : intraInv s e { cand with
        preExtensionMinInterval := cand.minIntervalIndex,
        preExtensionMaxInterval := cand.maxIntervalIndex } := hc
    exact rectLevels_inv s e _ _ _ _ _ heq hc2

theorem arena_seq_le (s : L0Sublevels α)
    (hseq : List.Chain' (fun f g => f.LargestSeqNum ≤ g.LargestSeqNum)
      s.levelMetadata) {a b : Nat} (hab : a ≤ b) (hb : b < s.levelMetadata.length) :
    (fileAt s a).LargestSeqNum ≤ (fileAt s b).LargestSeqNum := by
  rcases eq_or_lt_of_le hab with he | hlt
  · rw [he]
  · have hpw : List.Pairwise
        (fun f g : FileMetadata α => f.LargestSeqNum ≤ g.LargestSeqNum)
        s.levelMetadata :=
      @chain'_pairwise_of_trans (FileMetadata α)
        (fun f g => f.LargestSeqNum ≤ g.LargestSeqNum)
        (fun x y z h1 h2 => le_trans h1 h2) s.levelMetadata hseq
    have h2 := List.pairwise_iff_getElem.mp hpw a b (by omega) hb hlt
    unfold fileAt
    rw [List.getD_eq_getElem _ _ (by omega), List.getD_eq_getElem _ _ hb]
    exact h2

theorem files_pairwise_lt (s : L0Sublevels α) (hwf : WF s) {i : Nat}
    (hi : i < s.orderedIntervals.length) :
    List.Pairwise (fun a b => a < b) (intervalAt s i).files :=
  (chain'_pairwise_of_trans
    (fun a b c h1 h2 => ⟨lt_trans h1.1 h2.1, lt_trans h1.2 h2.2⟩)
    (hwf.ivChain i hi)).imp (fun h => h.1)

/-- Along a stack, files taken at or below a position have smaller or equal
arena index. -/
theorem take_le_at (files : List Nat) (hpw : List.Pairwise (fun a b => a < b) files)
    {slIndex : Nat} (hsl : slIndex < files.length) :
    ∀ x ∈ files.take (slIndex + 1), x ≤ files.getD slIndex 0 := by
  intro x hx
  obtain ⟨m, hm, hxe⟩ := List.mem_iff_getElem.mp hx
  rw [List.getElem_take] at hxe
  have hmlen : m < files.length := by
    simp at hm
    omega
  have hmle : m ≤ slIndex := by
    simp at hm
    omega
  rw [List.getD_eq_getElem _ _ hsl]
  rcases eq_or_lt_of_le hmle with he | hlt2
  · rw [← hxe]
    subst he
    exact le_refl _
  · have := List.pairwise_iff_getElem.mp hpw m slIndex hmlen hsl hlt2
    rw [← hxe]
    exact le_of_lt this

/-- The intra-L0 seed builder only assembles clean, flushed candidates when
the seed itself is clean and flushed and the arena is ordered by sequence
number. -/
theorem intraUsingSeed_clean (s : L0Sublevels α) (hwf : WF s)
    (hseq : List.Chain' (fun f g => f.LargestSeqNum ≤ g.LargestSeqNum)
      s.levelMetadata)
    (f : FileMetadata α) (idx : Nat) (e : Nat) (minDepth : Int)
    (hidx : idx < s.orderedIntervals.length) {j : Nat}
    (hjm : j ∈ (intervalAt s idx).files) (hfe : f = fileAt s j)
    (hfc : f.Compacting = false) (hfs : f.LargestSeqNum < e)
    {c : L0CompactionFiles α}
    (h : intraL0CompactionUsingSeed s f idx e minDepth = .ok (some c)) :
    (∀ g ∈ c.Files, g.Compacting = false ∧ g.LargestSeqNum < e) ∧
    c.seedIntervalMinLevel ≤ c.seedIntervalMaxLevel := by
  obtain ⟨hjA, hjmin, hjmax⟩ := hwf.ivMembers idx hidx j hjm
  have hL : 0 < s.Levels.length := by
    have := hwf.subLevelBound j hjA
    omega
  unfold intraL0CompactionUsingSeed at h
  dsimp only at h
  split at h
  · cases h
  · rename_i slIndex hsl
    obtain ⟨hsllt, hslval⟩ := findLastIdx_spec _ _ hsl
    have hjl0 : f.l0Index = j := by
      rw [hfe]
      exact hwf.arenaIdx j hjA
    rw [hjl0] at hslval
    -- every file of the reversed stack prefix is clean-or-flushed and in level range
    have hl : ∀ j2 ∈ ((intervalAt s idx).files.take (slIndex + 1)).reverse,
        (fileAt s j2).Compacting = true ∨
        ((fileAt s j2).LargestSeqNum < e ∧
          (fileAt s j2).subLevel ≤ s.Levels.length - 1) := by
      intro j2 hj2
      have hj2t := List.mem_reverse.mp hj2
      have hj2m : j2 ∈ (intervalAt s idx).files := by
        have hsub : (intervalAt s idx).files.take (slIndex + 1) <:+:
            (intervalAt s idx).files := (List.take_prefix _ _).isInfix
        exact hsub.mem hj2t
      obtain ⟨hj2A, _, _⟩ := hwf.ivMembers idx hidx j2 hj2m
      right
      constructor
      · have hle2 : j2 ≤ j := by
          have := take_le_at (intervalAt s idx).files
            (files_pairwise_lt s hwf hidx) hsllt j2 hj2t
          rw [hslval] at this
          exact this
        have hs1 : (fileAt s j2).LargestSeqNum ≤ (fileAt s j).LargestSeqNum :=
          arena_seq_le s hseq hle2 hjA
        have hs2 : (fileAt s j).LargestSeqNum < e := by
          rw [← hfe]; exact hfs
        omega
      · have := hwf.subLevelBound j2 hj2A
        omega
    -- the initial candidate satisfies the invariant
    have hc1 : intraInv s e (addFile
        { Files := [], FilesIncluded := List.replicate s.levelMetadata.length false,
          seedIntervalStackDepthReduction := 0, seedIntervalMinLevel := 0,
          seedIntervalMaxLevel := s.Levels.length - 1, seedInterval := idx,
          fileBytes := 0, minIntervalIndex := f.minIntervalIndex,
          maxIntervalIndex := f.maxIntervalIndex, isIntraL0 := true,
          earliestUnflushedSeqNum := e,
          preExtensionMinInterval := 0, preExtensionMaxInterval := 0,
          filesAdded := [] } f) := by
      apply addFile_intraInv s e _ f ?_ ⟨hfc, hfs⟩
      refine ⟨?_, rfl, rfl, rfl, Nat.zero_le _⟩
      intro g hg
      simp at hg
    split at h
    · cases h
    · rename_i lc hlc
      have hlcInv : intraInv s e lc :=
        intraDescendLoop_inv s e minDepth _ _ none hl hc1 (fun lcv h2 => by cases h2)
          hlc
      split at h
      · rcases hext : extendCandidateToRectangle s
            (rebuildIncluded lc).minIntervalIndex
            (rebuildIncluded lc).maxIntervalIndex (rebuildIncluded lc) false
          with e2 | p
        · rw [hext] at h
          cases h
        · rcases p with ⟨lc3, bb⟩
          rw [hext] at h
          cases bb
          all_goals
            injection h with h2
            injection h2 with h3
            rw [← h3]
            obtain ⟨h1, h2b, h3b, h4, h5⟩ := extendRect_inv s e _ _ _ false hext
              (rebuildIncluded_intraInv s e lc hlcInv)
            exact ⟨h1, by omega⟩
      · cases h

/-- The scored-interval loop of the intra picker only returns candidates
built from clean, flushed seeds. -/
theorem pickIntraLoop_clean (s : L0Sublevels α) (e : Nat) (minDepth : Int)
    (hwf : WF s)
    (hseq : List.Chain' (fun f g => f.LargestSeqNum ≤ g.LargestSeqNum)
      s.levelMetadata)
    (hmd : 1 ≤ minDepth) :
    ∀ (lst : List intervalAndScore) (considered : List Bool)
      {c : L0CompactionFiles α},
    (∀ si ∈ lst, si ∈ intraScores s minDepth) →
    pickIntraLoop s e minDepth lst considered = .ok (some c) →
    (∀ g ∈ c.Files, g.Compacting = false ∧ g.LargestSeqNum < e) ∧
    c.seedIntervalMinLevel ≤ c.seedIntervalMaxLevel := by
  intro lst
  induction lst with
  | nil =>
    intro considered c _ h
    rw [pickIntraLoop] at h
    injection h with h2
    cases h2
  | cons si rest ih =>
    intro considered c hmem h
    obtain ⟨hilt, hscore, hd⟩ := intraScores_mem s minDepth
      (hmem si (List.mem_cons_self _ _))
    have hrest := fun si2 h2 => hmem si2 (List.mem_cons_of_mem _ h2)
    rw [pickIntraLoop] at h
    dsimp only at h
    split at h
    · exact ih _ hrest h
    · rcases hsc : intraSeedScan s e (intervalAt s si.interval).files.reverse
        none si.score considered with ⟨fOpt, red2, c2⟩
      rw [hsc] at h
      dsimp only at h
      split at h
      · exact ih _ hrest h
      · rename_i hred
        cases fOpt with
        | none => cases h
        | some f =>
          dsimp only at h
          split at h
          · exact ih _ hrest h
          · rename_i hfcomp
            have hfc : f.Compacting = false := by
              cases hcc : f.Compacting
              · rfl
              · exact absurd hcc hfcomp
            -- the seed is below the unflushed barrier
            have hfs : f.LargestSeqNum < e := by
              rcases intraSeedScan_cases s e _ none si.score considered hsc with
                h4 | h4 | h4 | h4
              · rw [h4] at hfc
                cases hfc
              · exact h4
              · omega
              · exfalso
                have hcnt := hwf.ivCount si.interval hilt
                rw [List.length_reverse, ← hcnt] at h4
                omega
            have hprov := intraSeedScan_provenance s e _ none si.score
              considered hsc
            rcases hprov with h4 | ⟨j, hjm, h4⟩
            · cases h4
            · have hIe : (intervalAt s si.interval).index = si.interval :=
                hwf.ivIndex si.interval hilt
              split at h
              · cases h
              · exact ih _ hrest h
              · rename_i c4 heq
                injection h with h2
                injection h2 with h3
                rw [← h3]
                rw [hIe] at heq
                exact intraUsingSeed_clean s hwf hseq f si.interval e minDepth
                  hilt (List.mem_reverse.mp hjm) h4 hfc hfs heq

/-- C2 (amended): with minCompactionDepth ≥ 1, on a well-formed engine whose
arena is ordered by sequence number (the constructor's input order), every
candidate PickIntraL0Compaction returns consists only of non-compacting
files flushed before `earliestUnflushedSeqNum`, and satisfies
`seedIntervalMinLevel ≤ seedIntervalMaxLevel`.  With
`minCompactionDepth ≤ 0` the sequence-number bound fails (see the
counterexample). -/
theorem claimC2_intra_candidate_clean (s : L0Sublevels α) (hwf : WF s)
    (hseq : List.Chain' (fun f g => f.LargestSeqNum ≤ g.LargestSeqNum)
      s.levelMetadata)
    (e : Nat) (minDepth : Int) (hmd : 1 ≤ minDepth) {c : L0CompactionFiles α}
    (h : PickIntraL0Compaction s e minDepth = .ok (some c)) :
    (∀ g ∈ c.Files, g.Compacting = false ∧ g.LargestSeqNum < e) ∧
    c.seedIntervalMinLevel ≤ c.seedIntervalMaxLevel := by
  unfold PickIntraL0Compaction at h
  exact pickIntraLoop_clean s e minDepth hwf hseq hmd _ _
    (fun si h2 => mem_sortScoredDec.mp h2) h

/-- A state holding one clean file whose sequence number 100 is above the
unflushed barrier 50. -/
def c2s : L0Sublevels Nat :=
  InitCompactingFileInfo (okState (NewL0Sublevels
    [wfile 1 2 10 100 false false] 1000)) []

/-- The candidate picked from `c2s` with barrier 50 at depth 0. -/
def c2cand : L0CompactionFiles Nat := okCand (PickIntraL0Compaction c2s 50 0)

/-- Counterexample to C2: with `minCompactionDepth = 0`, the intra picker
returns a candidate containing a file whose `LargestSeqNum` is not below
`earliestUnflushedSeqNum`. -/
theorem claimC2_counterexample :
    PickIntraL0Compaction c2s 50 0 = .ok (some c2cand) ∧
    ∃ g ∈ c2cand.Files, g.LargestSeqNum ≥ 50 :=
  ⟨rfl, by decide⟩

theorem claimC2_intra_candidate_clean_witness :
    (1 : Int) ≤ 2 ∧
      PickIntraL0Compaction stateIntraSeq 15 2 = .ok (some wIntraCand) ∧
      ((∀ g ∈ wIntraCand.Files, g.Compacting = false ∧ g.LargestSeqNum < 15) ∧
        wIntraCand.seedIntervalMinLevel ≤ wIntraCand.seedIntervalMaxLevel) :=
  ⟨by decide, rfl,
   claimC2_intra_candidate_clean stateIntraSeq
     (WF_init_compacting _ []
       (NewL0Sublevels_WF
         [wfile 1 2 10 5 false false, wfile 1 2 10 10 false false,
          wfile 1 2 10 20 false false] 1000
         (by unfold ValidInput; decide) (by rfl)))
     (by
       have hm : stateIntraSeq.levelMetadata.map
           (fun f : FileMetadata Nat => f.LargestSeqNum) = [5, 10, 20] := by rfl
       have h1 : List.Chain' (fun a b : Nat => a ≤ b)
           (stateIntraSeq.levelMetadata.map
             (fun f : FileMetadata Nat => f.LargestSeqNum)) := by
         rw [hm]
         simp [List.chain'_cons]
       exact (List.chain'_map
         (fun f : FileMetadata Nat => f.LargestSeqNum)).mp h1)
     15 2 (by decide) (by rfl)⟩

end ClaimC2

section ClaimC1

variable {α : Type} [LinearOrder α] [Inhabited α]

/-- A file is admissible in a base compaction candidate when it is not the
subject of an ongoing L0 → Lbase compaction: either it is not compacting at
all, or it is being intra-L0 compacted (the base seed builder stacks such
files knowingly). -/
def baseClean (f : FileMetadata α) : Prop :=
  ¬(f.Compacting = true ∧ f.IsIntraL0Compacting = false)

/-- An Lbase file lies strictly beyond the exclusive end bound of a
candidate's interval range, in the sense of the Lbase conflict scan's break
condition. -/
def lbaseBeyond (m : FileMetadata α) (endK : IntervalKey α) : Prop :=
  cmpKey m.Smallest endK.key > 0 ∨
    (cmpKey m.Smallest endK.key = 0 ∧ endK.isLargest = false)

/-- An Lbase file's key range overlaps a candidate's interval range
`[startk, endK)`: its largest key does not fall before the range's start
key, and its smallest key does not fall beyond the range's exclusive end
bound.  These are exactly the seek and break conditions of the Lbase
conflict scan in `PickBaseCompaction`. -/
def lbaseOverlaps (m : FileMetadata α) (startk : α) (endK : IntervalKey α) : Prop :=
  ¬(cmpKey m.Largest startk < 0) ∧ ¬ lbaseBeyond m endK

theorem lbaseBeyond_mono (endK : IntervalKey α) {m1 m2 : FileMetadata α}
    (hle : m1.Smallest ≤ m2.Smallest) (h : lbaseBeyond m1 endK) :
    lbaseBeyond m2 endK := by
  unfold lbaseBeyond at h ⊢
  rcases h with h | ⟨h0, hl⟩
  · left
    rw [gt_iff_lt, cmpKey_pos_iff] at h ⊢
    exact lt_of_lt_of_le h hle
  · have he : m1.Smallest = endK.key := cmpKey_eq_zero_iff.mp h0
    rcases lt_or_eq_of_le hle with hlt | heq
    · left
      rw [gt_iff_lt, cmpKey_pos_iff, ← he]
      exact hlt
    · right
      refine ⟨?_, hl⟩
      rw [cmpKey_eq_zero_iff, ← heq]
      exact he

/-- If the Lbase conflict scan comes back clean on a list of files ordered
by smallest key, then every scanned file short of the end bound is not
compacting. -/
theorem lbaseScanCompacting_false (endK : IntervalKey α) :
    ∀ (l : List (FileMetadata α)),
    List.Chain' (fun m1 m2 => m1.Smallest ≤ m2.Smallest) l →
    lbaseScanCompacting endK l = false →
    ∀ m ∈ l, ¬ lbaseBeyond m endK → m.Compacting = false := by
  intro l
  induction l with
  | nil =>
    intro _ _ m hm
    cases hm
  | cons m0 rest ih =>
    intro hch h m hm hnb
    rw [lbaseScanCompacting] at h
    rcases List.mem_cons.mp hm with hm0 | hmr
    · subst hm0
      split at h
      · rename_i hbey
        exact absurd hbey hnb
      · split at h
        · cases h
        · rename_i hcomp
          cases hcc : m.Compacting
          · rfl
          · exact absurd hcc hcomp
    · split at h
      · rename_i hbey
        exfalso
        apply hnb
        have hpw := @chain'_pairwise_of_trans (FileMetadata α)
          (fun m1 m2 => m1.Smallest ≤ m2.Smallest)
          (fun x y z h1 h2 => le_trans h1 h2) (m0 :: rest) hch
        exact lbaseBeyond_mono endK (List.rel_of_pairwise_cons hpw hmr) hbey
      · split at h
        · cases h
        · exact ih hch.tail h m hmr hnb

/-- If the Lbase conflict scan starting from the seek position comes back
clean, then no Lbase file overlapping the candidate's key range is
compacting: files before the seek position end before the range, and files
past the break point start beyond it. -/
theorem lbase_scan_clear (startk : α) (endK : IntervalKey α)
    (baseFiles : List (FileMetadata α))
    (hch : List.Chain' (fun m1 m2 => m1.Smallest ≤ m2.Smallest) baseFiles)
    (h : lbaseScanCompacting endK (lbaseSeekGE startk baseFiles) = false) :
    ∀ m ∈ baseFiles, lbaseOverlaps m startk endK → m.Compacting = false := by
  intro m hm hov
  obtain ⟨hov1, hov2⟩ := hov
  have hsplit : m ∈ baseFiles.takeWhile (fun m2 => decide (cmpKey m2.Largest startk < 0)) ++
      baseFiles.dropWhile (fun m2 => decide (cmpKey m2.Largest startk < 0)) := by
    rw [List.takeWhile_append_dropWhile _ baseFiles]
    exact hm
  rcases List.mem_append.mp hsplit with htw | hdw
  · exfalso
    have hp := List.mem_takeWhile_imp htw
    simp only [decide_eq_true_eq] at hp
    exact hov1 hp
  · have hchd : List.Chain' (fun m1 m2 => m1.Smallest ≤ m2.Smallest)
        (baseFiles.dropWhile (fun m2 => decide (cmpKey m2.Largest startk < 0))) :=
      hch.suffix (List.dropWhile_suffix _)
    exact lbaseScanCompacting_false endK _ hchd h m hdw hov2

theorem addFile_filesP (P : FileMetadata α → Prop) (c : L0CompactionFiles α)
    (f : FileMetadata α) (hc : ∀ g ∈ c.Files, P g) (hf : P f) :
    ∀ g ∈ (addFile c f).Files, P g := by
  unfold addFile
  split
  · exact hc
  · intro g hg
    rcases List.mem_append.mp hg with hga | hgb
    · exact hc g hga
    · have := List.mem_singleton.mp hgb
      subst this
      exact hf

theorem extendFilesLoop_filesP (s : L0Sublevels α) (lim : Nat)
    (P : FileMetadata α → Prop) (hP : ∀ g, g.Compacting = false → P g) :
    ∀ (l : List Nat) (c : L0CompactionFiles α),
    (∀ g ∈ c.Files, P g) →
    ∀ g ∈ (extendFilesLoop s lim l c).2.Files, P g := by
  intro l
  induction l with
  | nil =>
    intro c h
    exact h
  | cons j rest ih =>
    intro c h
    rw [extendFilesLoop]
    split
    · exact h
    · split
      · exact h
      · split
        · exact ih c h
        · rename_i hcomp hseq
          apply ih
          apply addFile_filesP P c _ h
          apply hP
          cases hcc : (fileAt s j).Compacting
          · rfl
          · exact absurd hcc hcomp

theorem extendLevelsSeq_filesP (s : L0Sublevels α) (lim : Nat)
    (P : FileMetadata α → Prop) (hP : ∀ g, g.Compacting = false → P g) :
    ∀ (sls : List Nat) (c : L0CompactionFiles α),
    (∀ g ∈ c.Files, P g) →
    ∀ g ∈ (extendLevelsSeq s lim sls c).2.Files, P g := by
  intro sls
  induction sls with
  | nil =>
    intro c h
    exact h
  | cons sl rest ih =>
    intro c h
    rw [extendLevelsSeq]
    have hx := extendFilesLoop_filesP s lim P hP
      ((s.Levels.getD sl []).drop (sortSearch (s.Levels.getD sl []).length
        (fun i => decide ((fileAt s ((s.Levels.getD sl []).getD i 0)).maxIntervalIndex ≥
          c.minIntervalIndex)))) c h
    split
    · rename_i c2 heq
      apply ih
      have hx2 : ∀ g ∈ (extendFiles s sl lim c).2.Files, P g := hx
      rw [heq] at hx2
      exact hx2
    · rename_i c2 heq
      have hx2 : ∀ g ∈ (extendFiles s sl lim c).2.Files, P g := hx
      rw [heq] at hx2
      exact hx2

/-- The stacking loop of the base seed builder only accumulates files from
the seed interval's stack and from the clean extensions below. -/
theorem baseSeedLoop_filesP (s : L0Sublevels α) (minDepth : Int)
    (P : FileMetadata α → Prop) (hP : ∀ g, g.Compacting = false → P g) :
    ∀ (l : List Nat) (c : L0CompactionFiles α)
      (lastC : Option (L0CompactionFiles α)),
    (∀ j ∈ l, P (fileAt s j)) →
    (∀ g ∈ c.Files, P g) →
    (∀ lcv, lastC = some lcv → ∀ g ∈ lcv.Files, P g) →
    ∀ {res : L0CompactionFiles α},
    baseSeedLoop s minDepth l c lastC = some res →
    ∀ g ∈ res.Files, P g := by
  intro l
  induction l with
  | nil =>
    intro c lastC _ _ hlc res h
    exact hlc res h
  | cons j rest ih =>
    intro c lastC hl hc hlc res h
    rw [baseSeedLoop] at h
    have hj := hl j (List.mem_cons_self _ _)
    have hrest := fun j2 h2 => hl j2 (List.mem_cons_of_mem _ h2)
    have hc1 : ∀ g ∈ ({ c with
        seedIntervalStackDepthReduction := c.seedIntervalStackDepthReduction + 1,
        seedIntervalMaxLevel := (fileAt s j).subLevel } : L0CompactionFiles α).Files,
        P g := hc
    have hc2 := addFile_filesP P _ (fileAt s j) hc1 hj
    split at h
    · exact hlc res h
    · rename_i c3 heq
      have hc3 : ∀ g ∈ c3.Files, P g := by
        have hx := extendLevelsSeq_filesP s maxUint64 P hP
          ((List.range (fileAt s j).subLevel).reverse) _ hc2
        rw [heq] at hx
        exact hx
      split at h
      · exact ih c3 (some c3) hrest hc3
          (fun lcv h2 => by injection h2 with h3; rw [← h3]; exact hc3) h
      · rename_i lcv
        split at h
        · injection h with h2
          rw [← h2]
          exact hlc lcv rfl
        · exact ih c3 (some c3) hrest hc3
            (fun lcv2 h2 => by injection h2 with h3; rw [← h3]; exact hc3) h

/-- The base seed builder only returns candidates whose files come from the
seed, the seed interval's stack, or clean level extensions. -/
theorem baseCompactionUsingSeed_filesP (s : L0Sublevels α)
    (P : FileMetadata α → Prop) (hP : ∀ g, g.Compacting = false → P g)
    (f : FileMetadata α) (idx : Nat) (minDepth : Int)
    (hstack : ∀ j ∈ (intervalAt s idx).files, P (fileAt s j))
    (hf : P f) {c : L0CompactionFiles α}
    (h : baseCompactionUsingSeed s f idx minDepth = some c) :
    ∀ g ∈ c.Files, P g := by
  unfold baseCompactionUsingSeed at h
  dsimp only at h
  have hc1 : ∀ g ∈ (addFile
      { Files := ([] : List (FileMetadata α)),
        FilesIncluded := List.replicate s.levelMetadata.length false,
        seedIntervalStackDepthReduction := 0, seedIntervalMinLevel := 0,
        seedIntervalMaxLevel := 0, seedInterval := idx, fileBytes := 0,
        minIntervalIndex := f.minIntervalIndex,
        maxIntervalIndex := f.maxIntervalIndex,
        isIntraL0 := false, earliestUnflushedSeqNum := 0,
        preExtensionMinInterval := 0, preExtensionMaxInterval := 0,
        filesAdded := [] } f).Files, P g := by
    apply addFile_filesP P _ f ?_ hf
    intro g hg
    cases hg
  split at h
  · cases h
  · rename_i lc heq
    split at h
    · injection h with h2
      rw [← h2]
      have := baseSeedLoop_filesP s minDepth P hP (intervalAt s idx).files _ none
        hstack hc1 (fun lcv h2 => by cases h2) heq
      exact this
    · cases h

/-- The scored-interval loop of the base picker only returns candidates
whose files are not base-compacting, and whose key range overlaps no
compacting Lbase file. -/
theorem pickBaseLoop_clean (s : L0Sublevels α) (minDepth : Int)
    (baseFiles : List (FileMetadata α)) (hwf : WF s) (hic : initConsistent s)
    (hch : List.Chain' (fun m1 m2 => m1.Smallest ≤ m2.Smallest) baseFiles) :
    ∀ (lst : List intervalAndScore) (considered : List Bool)
      {c : L0CompactionFiles α},
    (∀ si ∈ lst, si ∈ baseScores s minDepth) →
    pickBaseLoop s minDepth baseFiles lst considered = .ok (some c) →
    (∀ f ∈ c.Files, baseClean f) ∧
    (∀ m ∈ baseFiles,
      lbaseOverlaps m ((intervalAt s c.minIntervalIndex).startKey.key)
        ((intervalAt s (c.maxIntervalIndex + 1)).startKey) →
      m.Compacting = false) := by
  intro lst
  induction lst with
  | nil =>
    intro considered c _ h
    rw [pickBaseLoop] at h
    injection h with h2
    cases h2
  | cons si rest ih =>
    intro considered c hmem h
    obtain ⟨hilt, hbase, hdepth⟩ := baseScores_mem s minDepth
      (hmem si (List.mem_cons_self _ _))
    have hrest := fun si2 h2 => hmem si2 (List.mem_cons_of_mem _ h2)
    rw [pickBaseLoop] at h
    dsimp only at h
    split at h
    · exact ih _ hrest h
    · split at h
      · cases h
      · rename_i j tail hfe
        split at h
        · split at h
          · exact ih _ hrest h
          · cases h
        · rename_i hcomp
          split at h
          · exact ih _ hrest h
          · rename_i c2 hcand
            split at h
            · exact ih _ hrest h
            · rename_i hscan
              injection h with h2
              injection h2 with h3
              rw [← h3]
              rw [Bool.not_eq_true] at hscan
              have hcompf : (fileAt s j).Compacting = false := by
                cases hcc : (fileAt s j).Compacting
                · rfl
                · exact absurd hcc hcomp
              have hPdef : ∀ g : FileMetadata α, g.Compacting = false →
                  baseClean g := by
                intro g hg hcn
                rw [hg] at hcn
                exact absurd hcn.1 (by decide)
              have hidxeq : (intervalAt s si.interval).index = si.interval :=
                hwf.ivIndex si.interval hilt
              rw [hidxeq] at hcand
              have hstack : ∀ j2 ∈ (intervalAt s si.interval).files,
                  baseClean (fileAt s j2) :=
                fun j2 hj2 => hic si.interval hilt hbase j2 hj2
              constructor
              · exact baseCompactionUsingSeed_filesP s baseClean hPdef
                  (fileAt s j) si.interval minDepth hstack
                  (hPdef _ hcompf) hcand
              · exact lbase_scan_clear _ _ baseFiles hch hscan

/-- C1 (amended): on a well-formed state whose compacting flags were
rebuilt by `InitCompactingFileInfo`, and with the Lbase files ordered by
smallest key, if `PickBaseCompaction` returns a candidate then no file in
the candidate is undergoing an L0 → Lbase compaction (a file may still be
intra-L0 compacting: the stacking loop adds interval files without checking
their compacting state), and no Lbase file whose key range overlaps the
candidate's interval range is compacting.  The unamended claim fails: see
the counterexample, where a compacting intra-L0 file enters the candidate,
contradicting both the "no file has compacting=true" and the "every file
has isIntraL0Compacting=false" parts. -/
theorem claimC1_base_candidate_clean (s : L0Sublevels α) (hwf : WF s)
    (hic : initConsistent s) (minDepth : Int)
    (baseFiles : List (FileMetadata α))
    (hch : List.Chain' (fun m1 m2 => m1.Smallest ≤ m2.Smallest) baseFiles)
    {c : L0CompactionFiles α}
    (h : PickBaseCompaction s minDepth baseFiles = .ok (some c)) :
    (∀ f ∈ c.Files, ¬(f.Compacting = true ∧ f.IsIntraL0Compacting = false)) ∧
    (∀ m ∈ baseFiles,
      lbaseOverlaps m ((intervalAt s c.minIntervalIndex).startKey.key)
        ((intervalAt s (c.maxIntervalIndex + 1)).startKey) →
      m.Compacting = false) := by
  unfold PickBaseCompaction at h
  exact pickBaseLoop_clean s minDepth baseFiles hwf hic hch _ _
    (fun si h2 => mem_sortScoredDec.mp h2) h

/-- A clean file stacked under a compacting intra-L0 file. -/
def c1s : L0Sublevels Nat :=
  InitCompactingFileInfo (okState (NewL0Sublevels
    [wfile 1 2 10 1 false false, wfile 1 2 10 2 true true] 1000)) []

/-- The candidate the base picker returns on `c1s`. -/
def c1cand : L0CompactionFiles Nat := okCand (PickBaseCompaction c1s 1 [])

/-- Counterexample to C1 as stated: the base picker's stacking loop adds
interval files without checking their compacting state, so a candidate can
contain a file with `Compacting = true` and `IsIntraL0Compacting = true`,
contradicting both the no-compacting-file and the
all-files-not-intra-compacting parts of the claim. -/
theorem claimC1_counterexample :
    PickBaseCompaction c1s 1 [] = .ok (some c1cand) ∧
    ∃ f ∈ c1cand.Files, f.Compacting = true ∧ f.IsIntraL0Compacting = true :=
  ⟨rfl, by decide⟩

theorem claimC1_base_candidate_clean_witness :
    PickBaseCompaction stateTwoStacked 2 [wfile 1 2 10 3 false false] =
      .ok (some wBaseCand) ∧
    ((∀ f ∈ wBaseCand.Files,
        ¬(f.Compacting = true ∧ f.IsIntraL0Compacting = false)) ∧
      (∀ m ∈ [wfile 1 2 10 3 false false],
        lbaseOverlaps m
          ((intervalAt stateTwoStacked wBaseCand.minIntervalIndex).startKey.key)
          ((intervalAt stateTwoStacked
            (wBaseCand.maxIntervalIndex + 1)).startKey) →
        m.Compacting = false)) :=
  ⟨rfl,
   claimC1_base_candidate_clean stateTwoStacked
     (WF_init_compacting _ []
       (NewL0Sublevels_WF
         [wfile 1 2 10 1 false false, wfile 1 2 10 2 false false] 1000
         (by unfold ValidInput; decide) (by rfl)))
     (initConsistent_holds _
       (NewL0Sublevels_WF
         [wfile 1 2 10 1 false false, wfile 1 2 10 2 false false] 1000
         (by unfold ValidInput; decide) (by rfl)) [])
     2 [wfile 1 2 10 3 false false] (by simp) (by rfl)⟩

end ClaimC1









end L0
